import Mathlib

/-!
# Concurrent matrix producer/consumer: bounded buffer and worker protocol

A shallow embedding of `src/prodcons.c` (the ring buffer `put`/`get`, the
producer thread `prod_worker` and the consumer thread `cons_worker`) together
with the thread creation of `src/pcmatrix.c`.

* The globals of `prodcons.c` (`bigmatrix`, `fill`, `use`, `count`,
  `produced`, `consumed`) form the record `Buf`; `put` and `get` are functions
  on it.  The counters are integers: `count` may be decremented below zero by
  `get`, that it never is has to be proved.
* Every worker is a small control-flow machine: its program counter names the
  source statement it executes next, and a step of the whole program is one
  statement of one worker, chosen by a scheduler.  The runs in which a thread
  executes a locked region without interruption are among the runs of this
  model.
* The mutex is a field holding the thread that locked it last.
  `pthread_mutex_lock` is possible only when it is free;
  `pthread_mutex_unlock` frees it whoever calls it, which is what the default
  mutex does when a thread unlocks a mutex it does not hold.
* The condition variables `empty` and `full` are wait sets.  The test of a
  wait loop and the call of `pthread_cond_wait` are one step, which also
  releases the mutex; a thread leaves a wait set only by a signal, which picks
  any one waiter, or by a broadcast.
* Matrix handles are compared by the identity of their allocation; every call
  of the matrix module that matters for ownership is recorded in a trace.
* `matrix.c` and `counter.c` are not part of the sources; the few operations
  the workers call are modelled from the specification and marked so.  The
  element sums and the statistics are integers without overflow.
-/

namespace PCMatrix

/-! ## Matrices and counters (external collaborators) -/

/-- A matrix handle.  `id` is the identity of the allocation; the dimensions and
the element sum never change after creation. -/
structure Matrix where
  id : Nat
  rows : Nat
  cols : Nat
  sum : Int
  deriving DecidableEq, Repr

/-- A `Matrix *`: `none` is `NULL`. -/
abbrev MatPtr := Option Matrix

/-- Modelled from the spec: `SumMatrix` of `matrix.c` (not in the sources), the
element sum of a matrix.  A `NULL` argument contributes nothing. -/
def SumMatrix (m : MatPtr) : Int :=
  match m with
  | some x => x.sum
  | none => 0

/-- Modelled from the spec: `increment_cnt` of `counter.c` (not in the
sources) adds one to the counter value. -/
def increment_cnt (c : Int) : Int := c + 1

/-- Modelled from the spec: `decrement_cnt` of `counter.c` (not in the
sources) subtracts one from the counter value. -/
def decrement_cnt (c : Int) : Int := c - 1

/-- Modelled from the spec: `get_cnt` of `counter.c` (not in the sources)
reads the counter value. -/
def get_cnt (c : Int) : Int := c

/-! ## The ring buffer (`prodcons.c`, lines 26-50) -/

/-- The globals read and written by `put` and `get`. -/
structure Buf where
  bigmatrix : List MatPtr
  fill : Nat
  use : Nat
  count : Int
  produced : Int
  consumed : Int
  deriving DecidableEq, Repr

/-- The state after `initialize()` with a freshly allocated `bigmatrix` of
`cap` slots. -/
def Buf.init (cap : Nat) : Buf :=
  { bigmatrix := List.replicate cap none, fill := 0, use := 0,
    count := 0, produced := 0, consumed := 0 }

/-- The function `put` (lines 34-41): returns the new globals and the return
value `1`. -/
def put (cap : Nat) (b : Buf) (value : MatPtr) : Buf × Int :=
  ({ b with
      bigmatrix := b.bigmatrix.set b.fill value
      fill := (b.fill + 1) % cap
      count := increment_cnt b.count
      produced := increment_cnt b.produced }, 1)

/-- The function `get` (lines 43-50): returns the new globals and `tmp`. -/
def get (cap : Nat) (b : Buf) : Buf × MatPtr :=
  ({ b with
      use := (b.use + 1) % cap
      count := decrement_cnt b.count
      consumed := increment_cnt b.consumed }, b.bigmatrix.getD b.use none)

/-- The `i`-th live entry, counted from the `use` cursor. -/
def liveAt (cap : Nat) (b : Buf) (i : Nat) : MatPtr :=
  b.bigmatrix.getD ((b.use + i) % cap) none

/-- The live entries: the `count` slots from the `use` cursor on. -/
def live (cap : Nat) (b : Buf) : List MatPtr :=
  (List.range b.count.toNat).map (liveAt cap b)

/-- The cursors and the counter describe a ring of `cap` slots. -/
def RingOK (cap : Nat) (b : Buf) : Prop :=
  b.bigmatrix.length = cap ∧ b.use < cap ∧ 0 ≤ b.count ∧ b.count ≤ cap ∧
    b.fill = (b.use + b.count.toNat) % cap

instance (cap : Nat) (b : Buf) : Decidable (RingOK cap b) := by
  unfold RingOK; infer_instance

/-- A call of the buffer interface. -/
inductive Op where
  | put (value : MatPtr)
  | get
  deriving DecidableEq, Repr

/-- Runs a sequence of calls, each `put` made only with `count < cap` and each
`get` only with `count > 0` (otherwise the sequence is rejected); returns the
final globals and the results of the `get` calls in order. -/
def runOps (cap : Nat) : List Op → Buf → Option (Buf × List MatPtr)
  | [], b => some (b, [])
  | Op.put v :: rest, b =>
      if b.count < cap then runOps cap rest (put cap b v).1 else none
  | Op.get :: rest, b =>
      if 0 < b.count then
        (runOps cap rest (get cap b).1).map (fun r => (r.1, (get cap b).2 :: r.2))
      else none

/-- The arguments of the `put` calls of a sequence, in order. -/
def putArgs : List Op → List MatPtr
  | [] => []
  | Op.put v :: rest => v :: putArgs rest
  | Op.get :: rest => putArgs rest

/-! ## Threads, mutex, condition variables -/

/-- A worker thread: the `i`-th `prod_worker` or the `j`-th `cons_worker`
created by `main`. -/
inductive Tid where
  | prod (i : Nat)
  | cons (j : Nat)
  deriving DecidableEq, Repr

/-- Observable calls, recorded in the order of the interleaving: the matrix
returned by `GenMatrixRandom`, the arguments and the result of a call of
`MatrixMultiply` (`none` is `NULL`), the argument of `FreeMatrix`, the argument
of `put` and the result of `get`. -/
inductive Event where
  | gen (id : Nat)
  | mul (a b r : Option Nat)
  | free (id : Nat)
  | put (v : MatPtr)
  | get (v : MatPtr)
  deriving DecidableEq, Repr

/-- The command line configuration (`pcmatrix.c`): the two globals and the
number of workers of each kind (`main` creates `numw` of both). -/
structure Cfg where
  BOUNDED_BUFFER_SIZE : Nat
  NUMBER_OF_MATRICES : Int
  producers : Nat
  consumers : Nat
  deriving DecidableEq, Repr

/-- Everything the threads share: the globals of `prodcons.c`, the mutex (the
thread that locked it last, if it is locked), the wait sets of the two
condition variables, and the allocation counter and call record of the matrix
module. -/
structure Shared where
  buf : Buf
  mutex : Option Tid
  emptyQ : List Nat
  fullQ : List Nat
  nextId : Nat
  trace : List Event
  deriving DecidableEq, Repr

/-- The record `ProdConsStats`. -/
structure ProdConsStats where
  sumtotal : Int
  matrixtotal : Int
  multtotal : Int
  deriving DecidableEq, Repr

/-- One scheduling decision: the thread that executes its next statement, the
outcome of the matrix module should the statement create a matrix (dimensions
and element sum), and the waiter a `pthread_cond_signal` picks. -/
structure Act where
  tid : Tid
  rows : Nat
  cols : Nat
  sum : Int
  wake : Nat
  deriving DecidableEq, Repr

/-- Modelled from the spec: `GenMatrixRandom` of `matrix.c` (not in the
sources) returns a fresh matrix of arbitrary dimensions and contents. -/
def GenMatrixRandom (id : Nat) (a : Act) : Matrix :=
  { id := id, rows := a.rows, cols := a.cols, sum := a.sum }

/-- Modelled from the spec: `MatrixMultiply` of `matrix.c` (not in the
sources) returns a fresh matrix when the column count of the first equals the
row count of the second, and `NULL` otherwise. -/
def MatrixMultiply (m1 m2 : MatPtr) (id : Nat) (sum : Int) : MatPtr :=
  match m1, m2 with
  | some x, some y =>
      if x.cols = y.rows then some { id := id, rows := x.rows, cols := y.cols, sum := sum }
      else none
  | _, _ => none

/-- Modelled from the spec: `FreeMatrix` of `matrix.c` (not in the sources)
releases the matrix; the release is recorded. -/
def FreeMatrix (m : MatPtr) (tr : List Event) : List Event :=
  match m with
  | some x => tr ++ [Event.free x.id]
  | none => tr

/-- The call `pthread_mutex_lock`: returns only when the mutex is free. -/
def mutex_lock (t : Tid) (sh : Shared) : Option Shared :=
  if sh.mutex = none then some { sh with mutex := some t } else none

/-- The call `pthread_mutex_unlock`: the mutex is free afterwards, also when
the caller is not the thread that locked it. -/
def mutex_unlock (sh : Shared) : Shared :=
  { sh with mutex := none }

/-- The call `pthread_cond_signal` on a wait set: no effect when nobody waits,
otherwise the chosen waiter `k` leaves the wait set. -/
def cond_signal (q : List Nat) (k : Nat) : Option (List Nat) :=
  if q = [] then some []
  else if k ∈ q then some (q.erase k) else none

/-- The call `pthread_cond_broadcast`: every waiter leaves the wait set. -/
def cond_broadcast (_q : List Nat) : List Nat := []

/-! ## The producer (`prod_worker`, lines 53-80) -/

/-- Program points of `prod_worker`. -/
inductive PPc where
  | loopTest      -- line 61
  | gen           -- line 62
  | lock          -- line 63
  | waitTest      -- lines 64-65, the test and the call of pthread_cond_wait
  | inWait        -- line 65, inside pthread_cond_wait
  | putIf         -- lines 67-72
  | unlock        -- line 73
  | exitLock      -- line 76
  | exitBroadcast -- lines 77-79
  | done
  deriving DecidableEq, Repr

/-- Program points of the producer between acquiring and releasing the mutex. -/
def PPc.critical : PPc → Bool
  | PPc.waitTest => true
  | PPc.putIf => true
  | PPc.unlock => true
  | PPc.exitBroadcast => true
  | _ => false

/-- Program points of the producer after its production loop. -/
def PPc.exiting : PPc → Bool
  | PPc.exitLock => true
  | PPc.exitBroadcast => true
  | PPc.done => true
  | _ => false

/-- The locals of one `prod_worker`. -/
structure PLocal where
  pc : PPc
  m : MatPtr
  stats : ProdConsStats
  deriving DecidableEq, Repr

/-- The locals at thread start (lines 55-59). -/
def PLocal.init : PLocal :=
  { pc := PPc.loopTest, m := none,
    stats := { sumtotal := 0, matrixtotal := 0, multtotal := 0 } }

/-- One statement of producer `i`. -/
def prodStep (cfg : Cfg) (i : Nat) (a : Act) (sh : Shared) (p : PLocal) :
    Option (Shared × PLocal) :=
  match p.pc with
  | PPc.loopTest =>
      if get_cnt sh.buf.produced < cfg.NUMBER_OF_MATRICES then
        some (sh, { p with pc := PPc.gen })
      else some (sh, { p with pc := PPc.exitLock })
  | PPc.gen =>
      some ({ sh with nextId := sh.nextId + 1, trace := sh.trace ++ [Event.gen sh.nextId] },
        { p with m := some (GenMatrixRandom sh.nextId a), pc := PPc.lock })
  | PPc.lock =>
      (mutex_lock (Tid.prod i) sh).map (fun sh1 => (sh1, { p with pc := PPc.waitTest }))
  | PPc.waitTest =>
      if get_cnt sh.buf.count = (cfg.BOUNDED_BUFFER_SIZE : Int) ∧
          get_cnt sh.buf.produced < cfg.NUMBER_OF_MATRICES then
        some ({ mutex_unlock sh with emptyQ := sh.emptyQ ++ [i] }, { p with pc := PPc.inWait })
      else some (sh, { p with pc := PPc.putIf })
  | PPc.inWait =>
      if i ∈ sh.emptyQ then none
      else (mutex_lock (Tid.prod i) sh).map (fun sh1 => (sh1, { p with pc := PPc.waitTest }))
  | PPc.putIf =>
      if get_cnt sh.buf.produced < cfg.NUMBER_OF_MATRICES then
        (cond_signal sh.fullQ a.wake).map (fun q =>
          ({ sh with
              buf := (put cfg.BOUNDED_BUFFER_SIZE sh.buf p.m).1
              fullQ := q
              trace := sh.trace ++ [Event.put p.m] },
           { p with
              stats := { p.stats with
                sumtotal := p.stats.sumtotal + SumMatrix p.m
                matrixtotal := p.stats.matrixtotal + 1 }
              pc := PPc.unlock }))
      else
        (cond_signal sh.fullQ a.wake).map (fun q =>
          ({ sh with fullQ := q }, { p with pc := PPc.unlock }))
  | PPc.unlock => some (mutex_unlock sh, { p with pc := PPc.loopTest })
  | PPc.exitLock =>
      (mutex_lock (Tid.prod i) sh).map (fun sh1 => (sh1, { p with pc := PPc.exitBroadcast }))
  | PPc.exitBroadcast =>
      some (mutex_unlock { sh with fullQ := cond_broadcast sh.fullQ }, { p with pc := PPc.done })
  | PPc.done => none

/-! ## The consumer (`cons_worker`, lines 83-187) -/

/-- Program points of `cons_worker`. -/
inductive CPc where
  | loopTest      -- line 91
  | lock          -- line 92
  | wait1Test     -- lines 94-95
  | inWait1       -- line 95, inside pthread_cond_wait
  | get1          -- lines 97-102
  | check1        -- lines 103-109
  | wait2Test     -- lines 110-111
  | inWait2       -- line 111, inside pthread_cond_wait
  | get2          -- lines 114-122
  | mult          -- line 125 and line 152
  | whileNull     -- line 127
  | freeM2        -- lines 129-130
  | wait3Test     -- lines 132-133
  | inWait3       -- line 133, inside pthread_cond_wait
  | check3        -- lines 137-140
  | get3          -- lines 142-150
  | success       -- lines 156-173
  | unlockOk      -- line 175
  | cleanup       -- lines 178-181, label exit_loop
  | cleanupUnlock -- line 182
  | exitLock      -- line 183
  | exitBroadcast -- lines 184-186
  | done
  deriving DecidableEq, Repr

/-- Program points of the consumer between line 92 and line 175. -/
def CPc.critical : CPc → Bool
  | CPc.wait1Test => true
  | CPc.get1 => true
  | CPc.check1 => true
  | CPc.wait2Test => true
  | CPc.get2 => true
  | CPc.mult => true
  | CPc.whileNull => true
  | CPc.freeM2 => true
  | CPc.wait3Test => true
  | CPc.check3 => true
  | CPc.get3 => true
  | CPc.success => true
  | CPc.unlockOk => true
  | _ => false

/-- Program points of the consumer from the label `exit_loop` on. -/
def CPc.exiting : CPc → Bool
  | CPc.cleanup => true
  | CPc.cleanupUnlock => true
  | CPc.exitLock => true
  | CPc.exitBroadcast => true
  | CPc.done => true
  | _ => false

/-- Program points of the consumer inside `pthread_cond_wait`. -/
def CPc.waiting : CPc → Bool
  | CPc.inWait1 => true
  | CPc.inWait2 => true
  | CPc.inWait3 => true
  | _ => false

/-- Program points of the consumer reached after a wait loop on `full` and
before the withdrawal it guards. -/
def CPc.atGet : CPc → Bool
  | CPc.get1 => true
  | CPc.get2 => true
  | CPc.check3 => true
  | CPc.get3 => true
  | _ => false

/-- Program points of the consumer at which `m1` is `NULL`. -/
def CPc.m1Null : CPc → Bool
  | CPc.loopTest => true
  | CPc.lock => true
  | CPc.wait1Test => true
  | CPc.inWait1 => true
  | CPc.get1 => true
  | CPc.unlockOk => true
  | CPc.cleanupUnlock => true
  | CPc.exitLock => true
  | CPc.exitBroadcast => true
  | CPc.done => true
  | _ => false

/-- Program points of the consumer at which `m2` and `m3` are `NULL`. -/
def CPc.m23Null : CPc → Bool
  | CPc.mult => false
  | CPc.whileNull => false
  | CPc.freeM2 => false
  | CPc.success => false
  | _ => true

/-- Program points of the consumer at which it can be the thread that locked
the mutex last: between line 92 and line 175, and in the cleanup. -/
def CPc.holding : CPc → Bool
  | CPc.cleanup => true
  | CPc.cleanupUnlock => true
  | CPc.exitBroadcast => true
  | pc => pc.critical

/-- The locals of one `cons_worker`. -/
structure CLocal where
  pc : CPc
  m1 : MatPtr
  m2 : MatPtr
  m3 : MatPtr
  stats : ProdConsStats
  deriving DecidableEq, Repr

/-- The locals at thread start (lines 85-89). -/
def CLocal.init : CLocal :=
  { pc := CPc.loopTest, m1 := none, m2 := none, m3 := none,
    stats := { sumtotal := 0, matrixtotal := 0, multtotal := 0 } }

/-- The statements `m = get(); stats->sumtotal += SumMatrix(m);
stats->matrixtotal++; pthread_cond_signal(&empty);` shared by lines 98-101,
115-118 and 143-146: the new shared state, the matrix and the new statistics. -/
def withdraw (cfg : Cfg) (a : Act) (sh : Shared) (st : ProdConsStats) :
    Option (Shared × MatPtr × ProdConsStats) :=
  (cond_signal sh.emptyQ a.wake).map (fun q =>
    ({ sh with
        buf := (get cfg.BOUNDED_BUFFER_SIZE sh.buf).1
        emptyQ := q
        trace := sh.trace ++ [Event.get (get cfg.BOUNDED_BUFFER_SIZE sh.buf).2] },
     (get cfg.BOUNDED_BUFFER_SIZE sh.buf).2,
     { st with
        sumtotal := st.sumtotal + SumMatrix (get cfg.BOUNDED_BUFFER_SIZE sh.buf).2
        matrixtotal := st.matrixtotal + 1 }))

/-- The test of the three wait loops of the consumer: the buffer is empty and
not everything has been consumed. -/
def consMustWait (cfg : Cfg) (sh : Shared) : Prop :=
  get_cnt sh.buf.count = 0 ∧ get_cnt sh.buf.consumed < cfg.NUMBER_OF_MATRICES

instance (cfg : Cfg) (sh : Shared) : Decidable (consMustWait cfg sh) := by
  unfold consMustWait; infer_instance

/-- The test of lines 103 and 137: the buffer is empty and everything has been
consumed. -/
def consFinished (cfg : Cfg) (sh : Shared) : Prop :=
  get_cnt sh.buf.count = 0 ∧ get_cnt sh.buf.consumed = cfg.NUMBER_OF_MATRICES

instance (cfg : Cfg) (sh : Shared) : Decidable (consFinished cfg sh) := by
  unfold consFinished; infer_instance

/-- The call `pthread_cond_wait(&full, &mutex)` of consumer `j`: the mutex is
released and the thread joins the wait set. -/
def waitFull (j : Nat) (sh : Shared) : Shared :=
  { mutex_unlock sh with fullQ := sh.fullQ ++ [j] }

/-- The return from `pthread_cond_wait(&full, &mutex)`: possible once the
thread has left the wait set and the mutex is free. -/
def wakeFull (j : Nat) (sh : Shared) : Option Shared :=
  if j ∈ sh.fullQ then none else mutex_lock (Tid.cons j) sh

/-- One statement of consumer `j`. -/
def consStep (cfg : Cfg) (j : Nat) (a : Act) (sh : Shared) (c : CLocal) :
    Option (Shared × CLocal) :=
  match c.pc with
  | CPc.loopTest =>
      if get_cnt sh.buf.consumed < cfg.NUMBER_OF_MATRICES then
        some (sh, { c with pc := CPc.lock })
      else some (sh, { c with pc := CPc.cleanup })
  | CPc.lock =>
      (mutex_lock (Tid.cons j) sh).map (fun sh1 => (sh1, { c with pc := CPc.wait1Test }))
  | CPc.wait1Test =>
      if consMustWait cfg sh then some (waitFull j sh, { c with pc := CPc.inWait1 })
      else some (sh, { c with pc := CPc.get1 })
  | CPc.inWait1 =>
      (wakeFull j sh).map (fun sh1 => (sh1, { c with pc := CPc.wait1Test }))
  | CPc.get1 =>
      if get_cnt sh.buf.consumed < cfg.NUMBER_OF_MATRICES then
        (withdraw cfg a sh c.stats).map (fun r =>
          (r.1, { c with m1 := r.2.1, stats := r.2.2, pc := CPc.check1 }))
      else some (sh, { c with pc := CPc.check1 })
  | CPc.check1 =>
      if consFinished cfg sh then some (sh, { c with pc := CPc.cleanup })
      else some (sh, { c with pc := CPc.wait2Test })
  | CPc.wait2Test =>
      if consMustWait cfg sh then some (waitFull j sh, { c with pc := CPc.inWait2 })
      else some (sh, { c with pc := CPc.get2 })
  | CPc.inWait2 =>
      (wakeFull j sh).map (fun sh1 => (sh1, { c with pc := CPc.wait2Test }))
  | CPc.get2 =>
      if get_cnt sh.buf.consumed < cfg.NUMBER_OF_MATRICES then
        (withdraw cfg a sh c.stats).map (fun r =>
          (r.1, { c with m2 := r.2.1, stats := r.2.2, pc := CPc.mult }))
      else some (sh, { c with pc := CPc.cleanup })
  | CPc.mult =>
      match MatrixMultiply c.m1 c.m2 sh.nextId a.sum with
      | some r =>
          some ({ sh with
                  nextId := sh.nextId + 1
                  trace := sh.trace ++
                    [Event.mul (c.m1.map Matrix.id) (c.m2.map Matrix.id) (some r.id)] },
                { c with m3 := some r, pc := CPc.whileNull })
      | none =>
          some ({ sh with
                  trace := sh.trace ++
                    [Event.mul (c.m1.map Matrix.id) (c.m2.map Matrix.id) none] },
                { c with m3 := none, pc := CPc.whileNull })
  | CPc.whileNull =>
      if c.m3 = none then some (sh, { c with pc := CPc.freeM2 })
      else some (sh, { c with pc := CPc.success })
  | CPc.freeM2 =>
      some ({ sh with trace := FreeMatrix c.m2 sh.trace },
        { c with m2 := none, pc := CPc.wait3Test })
  | CPc.wait3Test =>
      if consMustWait cfg sh then some (waitFull j sh, { c with pc := CPc.inWait3 })
      else some (sh, { c with pc := CPc.check3 })
  | CPc.inWait3 =>
      (wakeFull j sh).map (fun sh1 => (sh1, { c with pc := CPc.wait3Test }))
  | CPc.check3 =>
      if consFinished cfg sh then some (sh, { c with pc := CPc.cleanup })
      else some (sh, { c with pc := CPc.get3 })
  | CPc.get3 =>
      if get_cnt sh.buf.consumed < cfg.NUMBER_OF_MATRICES then
        (withdraw cfg a sh c.stats).map (fun r =>
          (r.1, { c with m2 := r.2.1, stats := r.2.2, pc := CPc.mult }))
      else some (sh, { c with pc := CPc.cleanup })
  | CPc.success =>
      some ({ sh with
              trace := FreeMatrix c.m1 (FreeMatrix c.m2 (FreeMatrix c.m3 sh.trace)) },
        { c with
            stats := { c.stats with multtotal := c.stats.multtotal + 1 }
            m1 := none, m2 := none, m3 := none, pc := CPc.unlockOk })
  | CPc.unlockOk => some (mutex_unlock sh, { c with pc := CPc.loopTest })
  | CPc.cleanup =>
      some ({ sh with
              trace := FreeMatrix c.m3 (FreeMatrix c.m2 (FreeMatrix c.m1 sh.trace)) },
        { c with m1 := none, m2 := none, m3 := none, pc := CPc.cleanupUnlock })
  | CPc.cleanupUnlock => some (mutex_unlock sh, { c with pc := CPc.exitLock })
  | CPc.exitLock =>
      (mutex_lock (Tid.cons j) sh).map (fun sh1 => (sh1, { c with pc := CPc.exitBroadcast }))
  | CPc.exitBroadcast =>
      some (mutex_unlock { sh with emptyQ := cond_broadcast sh.emptyQ },
        { c with pc := CPc.done })
  | CPc.done => none

/-- Runs consumer `j` alone for `n` statements. -/
def consRun (cfg : Cfg) (j : Nat) (a : Act) : Nat → Shared × CLocal → Option (Shared × CLocal)
  | 0, x => some x
  | n + 1, x => (consStep cfg j a x.1 x.2).bind (consRun cfg j a n)

/-! ## The whole program -/

/-- The state of the program: the shared globals and the locals of every
worker. -/
structure State where
  sh : Shared
  prods : List PLocal
  conss : List CLocal
  deriving DecidableEq, Repr

/-- The state after `main` has allocated the buffer, called `initialize()` and
created the threads (`pcmatrix.c`, lines 104-117). -/
def State.init (cfg : Cfg) : State :=
  { sh := { buf := Buf.init cfg.BOUNDED_BUFFER_SIZE, mutex := none, emptyQ := [],
            fullQ := [], nextId := 0, trace := [] }
    prods := List.replicate cfg.producers PLocal.init
    conss := List.replicate cfg.consumers CLocal.init }

/-- One step of the program: the scheduled thread executes its next
statement; `none` when that thread does not exist, has terminated or is
blocked. -/
def step (cfg : Cfg) (s : State) (a : Act) : Option State :=
  match a.tid with
  | Tid.prod i =>
      match s.prods[i]? with
      | none => none
      | some p =>
          (prodStep cfg i a s.sh p).map (fun r =>
            { s with sh := r.1, prods := s.prods.set i r.2 })
  | Tid.cons j =>
      match s.conss[j]? with
      | none => none
      | some c =>
          (consStep cfg j a s.sh c).map (fun r =>
            { s with sh := r.1, conss := s.conss.set j r.2 })

/-- Runs a schedule from a state. -/
def run (cfg : Cfg) : List Act → State → Option State
  | [], s => some s
  | a :: rest, s => (step cfg s a).bind (run cfg rest)

/-- The states some schedule reaches from the initial state. -/
def Reachable (cfg : Cfg) (s : State) : Prop :=
  ∃ acts, run cfg acts (State.init cfg) = some s

/-- The state a schedule leads to (the initial state if the schedule is not
executable). -/
def runFrom (cfg : Cfg) (acts : List Act) : State :=
  (run cfg acts (State.init cfg)).getD (State.init cfg)

/-- The scheduling decision that lets thread `t` execute its next statement
in the shared state `sh`: a `pthread_cond_signal` picks the first waiter. -/
def nextAct (t : Tid) (sh : Shared) : Act :=
  match t with
  | Tid.prod _ => { tid := t, rows := 1, cols := 1, sum := 0, wake := sh.fullQ.headD 0 }
  | Tid.cons _ => { tid := t, rows := 1, cols := 1, sum := 0, wake := sh.emptyQ.headD 0 }

/-- Every worker has terminated. -/
def AllDone (s : State) : Prop :=
  (∀ p ∈ s.prods, p.pc = PPc.done) ∧ (∀ c ∈ s.conss, c.pc = CPc.done)

instance (s : State) : Decidable (AllDone s) := by
  unfold AllDone; infer_instance

/-- Every worker has terminated or is blocked inside `pthread_cond_wait`: the
producers on `empty`, the consumers on `full`. -/
def AllBlocked (s : State) : Prop :=
  (∀ i p, s.prods[i]? = some p →
    p.pc = PPc.done ∨ (p.pc = PPc.inWait ∧ i ∈ s.sh.emptyQ)) ∧
  (∀ j c, s.conss[j]? = some c →
    c.pc = CPc.done ∨ (c.pc.waiting = true ∧ j ∈ s.sh.fullQ))

/-- The sum of a statistic over the producers. -/
def prodTotal (f : ProdConsStats → Int) (s : State) : Int :=
  (s.prods.map (fun p => f p.stats)).sum

/-- The sum of a statistic over the consumers. -/
def consTotal (f : ProdConsStats → Int) (s : State) : Int :=
  (s.conss.map (fun c => f c.stats)).sum

/-- The number of calls of `FreeMatrix` on the handle `id`. -/
def freeCount (s : State) (id : Nat) : Nat := s.sh.trace.count (Event.free id)

/-! ## The invariants -/

/-- What holds of producer `i` in every reachable state. -/
structure ProdOK (cfg : Cfg) (sh : Shared) (i : Nat) (p : PLocal) : Prop where
  excl : sh.buf.consumed < cfg.NUMBER_OF_MATRICES → p.pc.critical = true →
    sh.mutex = some (Tid.prod i)
  room : p.pc = PPc.putIf → sh.buf.produced < cfg.NUMBER_OF_MATRICES →
    sh.buf.count < cfg.BOUNDED_BUFFER_SIZE
  fin : p.pc.exiting = true → cfg.NUMBER_OF_MATRICES ≤ sh.buf.produced
  waits : i ∈ sh.emptyQ → p.pc = PPc.inWait

/-- What holds of consumer `j` in every reachable state. -/
structure ConsOK (cfg : Cfg) (sh : Shared) (j : Nat) (c : CLocal) : Prop where
  excl : sh.buf.consumed < cfg.NUMBER_OF_MATRICES → c.pc.critical = true →
    sh.mutex = some (Tid.cons j)
  avail : c.pc.atGet = true → sh.buf.consumed < cfg.NUMBER_OF_MATRICES →
    0 < sh.buf.count
  fin : c.pc.exiting = true → cfg.NUMBER_OF_MATRICES ≤ sh.buf.consumed
  waits : j ∈ sh.fullQ → c.pc.waiting = true
  null1 : c.pc.m1Null = true → c.m1 = none
  null23 : c.pc.m23Null = true → c.m2 = none ∧ c.m3 = none
  null3 : c.pc = CPc.freeM2 ∨ c.pc = CPc.mult → c.m3 = none

/-- The safety invariant of the program. -/
structure Inv (cfg : Cfg) (s : State) : Prop where
  ring : RingOK cfg.BOUNDED_BUFFER_SIZE s.sh.buf
  bal : s.sh.buf.count + s.sh.buf.consumed = s.sh.buf.produced
  prodLe : s.sh.buf.produced ≤ cfg.NUMBER_OF_MATRICES
  consGe : 0 ≤ s.sh.buf.consumed
  nprod : s.prods.length = cfg.producers
  ncons : s.conss.length = cfg.consumers
  prodOK : ∀ i p, s.prods[i]? = some p → ProdOK cfg s.sh i p
  consOK : ∀ j c, s.conss[j]? = some c → ConsOK cfg s.sh j c
  emptyLt : ∀ i ∈ s.sh.emptyQ, i < s.prods.length
  fullLt : ∀ j ∈ s.sh.fullQ, j < s.conss.length
  emptyNodup : s.sh.emptyQ.Nodup
  fullNodup : s.sh.fullQ.Nodup

/-- The statistics of the workers agree with the shared counters and with the
contents of the buffer. -/
structure SumInv (cfg : Cfg) (s : State) : Prop where
  made : prodTotal (fun st => st.matrixtotal) s = s.sh.buf.produced
  used : consTotal (fun st => st.matrixtotal) s = s.sh.buf.consumed
  sums : prodTotal (fun st => st.sumtotal) s =
    consTotal (fun st => st.sumtotal) s +
      ((live cfg.BOUNDED_BUFFER_SIZE s.sh.buf).map SumMatrix).sum

/-- Producer `i` exists, has not terminated and is not blocked on `empty`. -/
def ActiveP (s : State) (i : Nat) : Prop :=
  ∃ p, s.prods[i]? = some p ∧ p.pc ≠ PPc.done ∧ i ∉ s.sh.emptyQ

/-- Consumer `j` exists, has not terminated and is not blocked on `full`. -/
def ActiveC (s : State) (j : Nat) : Prop :=
  ∃ c, s.conss[j]? = some c ∧ c.pc ≠ CPc.done ∧ j ∉ s.sh.fullQ

/-- The progress invariant: whenever there is something to do, a thread that
can do it is awake. -/
structure LiveInv (cfg : Cfg) (s : State) : Prop where
  data : 0 < s.sh.buf.count → ∃ j, ActiveC s j
  space : s.sh.buf.count < cfg.BOUNDED_BUFFER_SIZE →
    s.sh.buf.produced < cfg.NUMBER_OF_MATRICES → ∃ i, ActiveP s i
  drainE : cfg.NUMBER_OF_MATRICES ≤ s.sh.buf.consumed → s.sh.emptyQ ≠ [] →
    ∃ j, ActiveC s j
  drainF : cfg.NUMBER_OF_MATRICES ≤ s.sh.buf.produced → s.sh.fullQ ≠ [] →
    ∃ i, ActiveP s i

/-- The thread recorded in the mutex is inside its locked region. -/
def HolderOK (s : State) : Prop :=
  match s.sh.mutex with
  | none => True
  | some (Tid.prod i) => ∃ p, s.prods[i]? = some p ∧ p.pc.critical = true
  | some (Tid.cons j) => ∃ c, s.conss[j]? = some c ∧ c.pc.holding = true

/-! ## The effect of a statement on the shared state, by kind -/

/-- The kinds of statements of a producer: those that leave the buffer and
the wait set `empty` alone, the call of `pthread_cond_wait`, the publication
of a matrix, and the final broadcast. -/
inductive ProdEffect (cfg : Cfg) (i : Nat) (a : Act) (sh : Shared) (p : PLocal)
    (r : Shared × PLocal) : Prop where
  | quiet (hbuf : r.1.buf = sh.buf) (hE : r.1.emptyQ = sh.emptyQ)
      (hF : ∀ k, k ∈ r.1.fullQ → k ∈ sh.fullQ) (hpc : r.2.pc ≠ PPc.done)
      (hst : r.2.stats = p.stats)
  | wait (hpc : p.pc = PPc.waitTest) (hfull : sh.buf.count = cfg.BOUNDED_BUFFER_SIZE)
      (hlt : sh.buf.produced < cfg.NUMBER_OF_MATRICES) (hbuf : r.1.buf = sh.buf)
      (hE : r.1.emptyQ = sh.emptyQ ++ [i]) (hF : r.1.fullQ = sh.fullQ)
      (hst : r.2.stats = p.stats)
  | put (hpc : p.pc = PPc.putIf) (hlt : sh.buf.produced < cfg.NUMBER_OF_MATRICES)
      (hbuf : r.1.buf = (put cfg.BOUNDED_BUFFER_SIZE sh.buf p.m).1)
      (hE : r.1.emptyQ = sh.emptyQ) (hF : cond_signal sh.fullQ a.wake = some r.1.fullQ)
      (hpc2 : r.2.pc = PPc.unlock)
      (hsum : r.2.stats.sumtotal = p.stats.sumtotal + SumMatrix p.m)
      (hmat : r.2.stats.matrixtotal = p.stats.matrixtotal + 1)
  | finish (hpc : p.pc = PPc.exitBroadcast) (hbuf : r.1.buf = sh.buf)
      (hE : r.1.emptyQ = sh.emptyQ) (hF : r.1.fullQ = []) (hpc2 : r.2.pc = PPc.done)
      (hst : r.2.stats = p.stats)

/-- The kinds of statements of a consumer: those that leave the buffer and
the wait set `full` alone, the call of `pthread_cond_wait`, the withdrawal of a
matrix, and the final broadcast. -/
inductive ConsEffect (cfg : Cfg) (j : Nat) (a : Act) (sh : Shared) (c : CLocal)
    (r : Shared × CLocal) : Prop where
  | quiet (hbuf : r.1.buf = sh.buf) (hE : r.1.emptyQ = sh.emptyQ)
      (hF : r.1.fullQ = sh.fullQ) (hpc : r.2.pc ≠ CPc.done)
      (hsum : r.2.stats.sumtotal = c.stats.sumtotal)
      (hmat : r.2.stats.matrixtotal = c.stats.matrixtotal)
  | wait (hw : consMustWait cfg sh) (hbuf : r.1.buf = sh.buf)
      (hE : r.1.emptyQ = sh.emptyQ) (hF : r.1.fullQ = sh.fullQ ++ [j])
      (hst : r.2.stats = c.stats)
  | get (hpc : c.pc.atGet = true) (hlt : sh.buf.consumed < cfg.NUMBER_OF_MATRICES)
      (hbuf : r.1.buf = (get cfg.BOUNDED_BUFFER_SIZE sh.buf).1)
      (hE : cond_signal sh.emptyQ a.wake = some r.1.emptyQ) (hF : r.1.fullQ = sh.fullQ)
      (hpc2 : r.2.pc ≠ CPc.done)
      (hsum : r.2.stats.sumtotal =
        c.stats.sumtotal + SumMatrix (get cfg.BOUNDED_BUFFER_SIZE sh.buf).2)
      (hmat : r.2.stats.matrixtotal = c.stats.matrixtotal + 1)
  | finish (hpc : c.pc = CPc.exitBroadcast) (hbuf : r.1.buf = sh.buf)
      (hE : r.1.emptyQ = []) (hF : r.1.fullQ = sh.fullQ) (hpc2 : r.2.pc = CPc.done)
      (hst : r.2.stats = c.stats)

/-! ## The variant -/

/-- How far a producer is from termination: an upper bound on the number of
its statements before it terminates or publishes, plus what its signals and
its broadcast may cost (`K`); `fin` tells whether `produced` has reached the
target. -/
def rankP (K : Int) (fin : Bool) : PPc → Int
  | PPc.loopTest => if fin then 3 + K else 11 + K
  | PPc.gen => 10 + K
  | PPc.lock => 9 + K
  | PPc.waitTest => 8 + K
  | PPc.inWait => 9 + K
  | PPc.putIf => 7 + K
  | PPc.unlock => if fin then 4 + K else 12 + K
  | PPc.exitLock => 2 + K
  | PPc.exitBroadcast => 1 + K
  | PPc.done => 0

/-- How far a consumer is from termination or from its next withdrawal. -/
def rankC (K : Int) : CPc → Int
  | CPc.loopTest => 11 + K
  | CPc.lock => 10 + K
  | CPc.wait1Test => 9 + K
  | CPc.inWait1 => 10 + K
  | CPc.get1 => 8 + K
  | CPc.check1 => 7 + K
  | CPc.wait2Test => 6 + K
  | CPc.inWait2 => 7 + K
  | CPc.get2 => 5 + K
  | CPc.mult => 15 + K
  | CPc.whileNull => 14 + K
  | CPc.freeM2 => 8 + K
  | CPc.wait3Test => 7 + K
  | CPc.inWait3 => 8 + K
  | CPc.check3 => 6 + K
  | CPc.get3 => 5 + K
  | CPc.success => 13 + K
  | CPc.unlockOk => 12 + K
  | CPc.cleanup => 4 + K
  | CPc.cleanupUnlock => 3 + K
  | CPc.exitLock => 2 + K
  | CPc.exitBroadcast => 1 + K
  | CPc.done => 0

/-- The cost of waking every waiter of one condition variable. -/
def wakeCost (cfg : Cfg) : Int := 2 * ((cfg.producers : Int) + (cfg.consumers : Int))

/-- The part of the variant that a statement of a producer changes besides its
own rank. -/
def sharedCost (cfg : Cfg) (sh : Shared) : Int :=
  8 * (cfg.NUMBER_OF_MATRICES - sh.buf.produced) +
    13 * (cfg.NUMBER_OF_MATRICES - sh.buf.consumed) -
    2 * (sh.emptyQ.length : Int) - 2 * (sh.fullQ.length : Int)

/-- The variant: it decreases with every statement of every thread. -/
def variant (cfg : Cfg) (s : State) : Int :=
  sharedCost cfg s.sh +
    (s.prods.map (fun p =>
      rankP (wakeCost cfg) (decide (cfg.NUMBER_OF_MATRICES ≤ s.sh.buf.produced)) p.pc)).sum +
    (s.conss.map (fun c => rankC (wakeCost cfg) c.pc)).sum +
    2 * ((cfg.producers : Int) + (cfg.consumers : Int))

/-- The number of statements no execution exceeds. -/
def stepBound (cfg : Cfg) : Int :=
  21 * cfg.NUMBER_OF_MATRICES +
    ((cfg.producers : Int) + (cfg.consumers : Int)) *
      (13 + 2 * ((cfg.producers : Int) + (cfg.consumers : Int)))

/-! ## The calls recorded during a pairing -/

/-- The calls recorded while the consumer holding `A` withdraws, tries and
discards the matrix `b`. -/
def discardEvents (A b : Matrix) : List Event :=
  [Event.get (some b), Event.mul (some A.id) (some b.id) none, Event.free b.id]

/-- The calls recorded during one pairing of `A` with `C` after discarding the
matrices `Bs`; `p` is the handle of the product. -/
def pairingEvents (A : Matrix) (Bs : List Matrix) (C : Matrix) (p : Nat) : List Event :=
  [Event.get (some A)] ++ Bs.flatMap (discardEvents A) ++
    [Event.get (some C), Event.mul (some A.id) (some C.id) (some p), Event.free p,
      Event.free C.id, Event.free A.id]

/-- The statistics after adding `n` matrices of total element sum `x` and `k`
multiplications. -/
def ProdConsStats.add (st : ProdConsStats) (x n k : Int) : ProdConsStats :=
  { sumtotal := st.sumtotal + x, matrixtotal := st.matrixtotal + n,
    multtotal := st.multtotal + k }

/-! ## Concrete runs -/

/-- A step of producer `i` that creates a 2x2 matrix with element sum 3. -/
def pAct (i : Nat) : Act := { tid := Tid.prod i, rows := 2, cols := 2, sum := 3, wake := 0 }

/-- A step of consumer `j`; a product it computes has element sum 5. -/
def cAct (j : Nat) : Act := { tid := Tid.cons j, rows := 2, cols := 2, sum := 5, wake := 0 }

/-- A step of producer `i` that creates a matrix of the given dimensions. -/
def genAct (i : Nat) (m : Matrix) : Act :=
  { tid := Tid.prod i, rows := m.rows, cols := m.cols, sum := m.sum, wake := 0 }

/-- The scenario of the specification: capacity 1, target 4, one worker of
each kind. -/
def scenarioCfg : Cfg :=
  { BOUNDED_BUFFER_SIZE := 1, NUMBER_OF_MATRICES := 4, producers := 1, consumers := 1 }

/-- A complete schedule of the scenario: each thread runs until it blocks or
terminates, the producer first. -/
def scenarioSchedule : List Act :=
  List.replicate 10 (pAct 0) ++ List.replicate 6 (cAct 0) ++ List.replicate 8 (pAct 0) ++
  List.replicate 7 (cAct 0) ++ List.replicate 8 (pAct 0) ++ List.replicate 6 (cAct 0) ++
  List.replicate 7 (pAct 0) ++ List.replicate 12 (cAct 0)

/-- The final state of the scenario. -/
def scenarioFinal : State := runFrom scenarioCfg scenarioSchedule

/-- The state of the scenario in which the producer is about to publish its
first matrix. -/
def scenarioAtPut : State := runFrom scenarioCfg (List.replicate 4 (pAct 0))

/-- The state of the scenario in which the producer waits for space while the
consumer has not started. -/
def scenarioProducerWaits : State := runFrom scenarioCfg (List.replicate 10 (pAct 0))

/-- The state of the capacity 1, target 4 scenario in which the consumer, after
its second multiplication, has left the loop at line 91. -/
def scenarioAtExit : State := runFrom scenarioCfg (scenarioSchedule.take 60)

/-- A buffer of two slots with both cursors on the second slot. -/
def demoBuf : Buf :=
  { bigmatrix := [none, none], fill := 1, use := 1, count := 0, produced := 3,
    consumed := 3 }

/-- Three publications and three withdrawals on two slots; the third
publication wraps around. -/
def demoOps : List Op :=
  [Op.put (some ⟨0, 1, 1, 5⟩), Op.put (some ⟨1, 1, 2, 6⟩), Op.get,
    Op.put (some ⟨2, 2, 2, 7⟩), Op.get, Op.get]

/-- The globals after `demoOps`. -/
def demoOpsBuf : Buf :=
  { bigmatrix := [some ⟨2, 2, 2, 7⟩, some ⟨1, 1, 2, 6⟩], fill := 1, use := 1, count := 0,
    produced := 3, consumed := 3 }

/-- The matrices withdrawn by `demoOps`, in order. -/
def demoOpsOut : List MatPtr :=
  [some ⟨0, 1, 1, 5⟩, some ⟨1, 1, 2, 6⟩, some ⟨2, 2, 2, 7⟩]

/-- The scenario of the specification with two incompatible matrices: the
buffer receives a 2x3 matrix, then a 2x2 and a 1x1 matrix (neither has 3
rows), then a 3x1 matrix. -/
def pairingCfg : Cfg :=
  { BOUNDED_BUFFER_SIZE := 4, NUMBER_OF_MATRICES := 6, producers := 1, consumers := 1 }

/-- The matrices of the pairing scenario, in the order of their creation. -/
def pairingStream : List Matrix :=
  [⟨0, 2, 3, 10⟩, ⟨1, 2, 2, 20⟩, ⟨2, 1, 1, 30⟩, ⟨3, 3, 1, 40⟩]

/-- The state of the pairing scenario after the producer has published the
four matrices and before the consumer starts. -/
def pairingStart : State :=
  runFrom pairingCfg (pairingStream.flatMap (fun m => List.replicate 6 (genAct 0 m)))

/-- The scenario of the specification in which the target is reached while the
consumer holds a lone first matrix: capacity 2, target 3, all matrices 2x2. -/
def loneCfg : Cfg :=
  { BOUNDED_BUFFER_SIZE := 2, NUMBER_OF_MATRICES := 3, producers := 1, consumers := 1 }

/-- The state of that scenario in which the consumer has multiplied the first
two matrices and has just withdrawn the third and last one as `m1`. -/
def loneObserved : State :=
  runFrom loneCfg (List.replicate 16 (pAct 0) ++ List.replicate 11 (cAct 0) ++
    List.replicate 7 (pAct 0) ++ List.replicate 4 (cAct 0))

/-- Two producers race for a target of one matrix: `./pcMatrix 2 1 1`. -/
def raceCfg : Cfg :=
  { BOUNDED_BUFFER_SIZE := 1, NUMBER_OF_MATRICES := 1, producers := 2, consumers := 2 }

/-- Both producers pass the loop test of line 61 and generate a matrix; then
producer 0 publishes and terminates, producer 1 finds the target reached and
terminates, consumer 0 withdraws the matrix and terminates, consumer 1
terminates. -/
def raceSchedule : List Act :=
  List.replicate 2 (pAct 0) ++ List.replicate 2 (pAct 1) ++ List.replicate 7 (pAct 0) ++
  List.replicate 7 (pAct 1) ++ List.replicate 9 (cAct 0) ++ List.replicate 5 (cAct 1)

/-- The final state of the race. -/
def raceFinal : State := runFrom raceCfg raceSchedule

/-! ## Ownership of the matrix handles: definitions -/

/-- The handle a pointer denotes, as a multiset: nothing for `NULL`. -/
def ptrIds (m : MatPtr) : Multiset Nat :=
  match m with
  | some x => {x.id}
  | none => 0

/-- The handle a producer has generated and neither published nor dropped. -/
def PLocal.pending (p : PLocal) : Multiset Nat :=
  match p.pc with
  | PPc.lock => ptrIds p.m
  | PPc.waitTest => ptrIds p.m
  | PPc.inWait => ptrIds p.m
  | PPc.putIf => ptrIds p.m
  | _ => 0

/-- The handles a consumer holds in `m1`, `m2` and `m3`. -/
def CLocal.held (c : CLocal) : Multiset Nat := ptrIds c.m1 + ptrIds c.m2 + ptrIds c.m3

/-- The handles live in the buffer. -/
def liveIds (cap : Nat) (b : Buf) : Multiset Nat := ((live cap b).map ptrIds).sum

/-- The handle released by a recorded call. -/
def Event.freed : Event → Multiset Nat
  | Event.free id => {id}
  | _ => 0

/-- The handle handed to the consumers by a recorded call: the argument of a
`put` and the result of a successful `MatrixMultiply`. -/
def Event.made : Event → Multiset Nat
  | Event.put v => ptrIds v
  | Event.mul _ _ (some r) => {r}
  | _ => 0

/-- The handles released so far. -/
def freedIds (tr : List Event) : Multiset Nat := (tr.map Event.freed).sum

/-- The handles published or computed so far. -/
def madeIds (tr : List Event) : Multiset Nat := (tr.map Event.made).sum

/-- The handles some thread or the buffer owns. -/
def owned (cfg : Cfg) (s : State) : Multiset Nat :=
  (s.prods.map PLocal.pending).sum + liveIds cfg.BOUNDED_BUFFER_SIZE s.sh.buf +
    (s.conss.map CLocal.held).sum

/-- Ownership: no handle is owned twice or owned after its release or released
twice; and what has been published or computed is in the buffer, held by a
consumer or released. -/
structure OwnInv (cfg : Cfg) (s : State) : Prop where
  nodup : (owned cfg s + freedIds s.sh.trace).Nodup
  fresh : ∀ id ∈ owned cfg s + freedIds s.sh.trace, id < s.sh.nextId
  acct : liveIds cfg.BOUNDED_BUFFER_SIZE s.sh.buf + (s.conss.map CLocal.held).sum +
    freedIds s.sh.trace = madeIds s.sh.trace

/-- What a statement of a producer does to the ownership of handles. -/
inductive ProdOwn (cfg : Cfg) (sh : Shared) (p : PLocal) (r : Shared × PLocal) : Prop where
  | frame (hp : r.2.pending = p.pending) (hl : r.1.buf = sh.buf)
      (ht : freedIds r.1.trace = freedIds sh.trace)
      (hm : madeIds r.1.trace = madeIds sh.trace) (hn : r.1.nextId = sh.nextId)
  | gen (hp0 : p.pending = 0) (hp : r.2.pending = {sh.nextId}) (hl : r.1.buf = sh.buf)
      (ht : freedIds r.1.trace = freedIds sh.trace)
      (hm : madeIds r.1.trace = madeIds sh.trace) (hn : r.1.nextId = sh.nextId + 1)
  | put (hpc : p.pc = PPc.putIf) (hlt : sh.buf.produced < cfg.NUMBER_OF_MATRICES)
      (hp0 : p.pending = ptrIds p.m) (hp : r.2.pending = 0)
      (hl : r.1.buf = (put cfg.BOUNDED_BUFFER_SIZE sh.buf p.m).1)
      (ht : freedIds r.1.trace = freedIds sh.trace)
      (hm : madeIds r.1.trace = madeIds sh.trace + ptrIds p.m)
      (hn : r.1.nextId = sh.nextId)
  | drop (hp : r.2.pending = 0) (hl : r.1.buf = sh.buf)
      (ht : freedIds r.1.trace = freedIds sh.trace)
      (hm : madeIds r.1.trace = madeIds sh.trace) (hn : r.1.nextId = sh.nextId)

/-- What a statement of a consumer does to the ownership of handles. -/
inductive ConsOwn (cfg : Cfg) (sh : Shared) (c : CLocal) (r : Shared × CLocal) : Prop where
  | frame (hh : r.2.held = c.held) (hl : r.1.buf = sh.buf)
      (ht : freedIds r.1.trace = freedIds sh.trace)
      (hm : madeIds r.1.trace = madeIds sh.trace) (hn : r.1.nextId = sh.nextId)
  | get (hpc : c.pc.atGet = true) (hlt : sh.buf.consumed < cfg.NUMBER_OF_MATRICES)
      (hh : r.2.held = c.held + ptrIds (get cfg.BOUNDED_BUFFER_SIZE sh.buf).2)
      (hl : r.1.buf = (get cfg.BOUNDED_BUFFER_SIZE sh.buf).1)
      (ht : freedIds r.1.trace = freedIds sh.trace)
      (hm : madeIds r.1.trace = madeIds sh.trace) (hn : r.1.nextId = sh.nextId)
  | mul (hh : r.2.held = c.held + {sh.nextId}) (hl : r.1.buf = sh.buf)
      (ht : freedIds r.1.trace = freedIds sh.trace)
      (hm : madeIds r.1.trace = madeIds sh.trace + {sh.nextId})
      (hn : r.1.nextId = sh.nextId + 1)
  | free (X : Multiset Nat) (hh : c.held = r.2.held + X) (hl : r.1.buf = sh.buf)
      (ht : freedIds r.1.trace = freedIds sh.trace + X)
      (hm : madeIds r.1.trace = madeIds sh.trace) (hn : r.1.nextId = sh.nextId)

/-! ### Ring buffer lemmas -/

theorem ringOK_init (cap : Nat) (hcap : 1 ≤ cap) : RingOK cap (Buf.init cap) := by
  refine ⟨by simp [Buf.init], by simp [Buf.init]; omega, by simp [Buf.init],
    by simp [Buf.init], ?_⟩
  simp [Buf.init]

theorem live_init (cap : Nat) : live cap (Buf.init cap) = [] := by
  simp [live, Buf.init]

theorem ringOK_put (cap : Nat) (b : Buf) (v : MatPtr) (h : RingOK cap b)
    (hlt : b.count < cap) : RingOK cap (put cap b v).1 := by
  obtain ⟨hlen, huse, h0, _, hfill⟩ := h
  refine ⟨by simp [put, hlen], by simpa [put] using huse,
    by simp [put, increment_cnt]; omega, by simp [put, increment_cnt]; omega, ?_⟩
  simp only [put, increment_cnt]
  rw [hfill]
  have : (b.count + 1).toNat = b.count.toNat + 1 := by omega
  rw [this, Nat.mod_add_mod, Nat.add_assoc]

theorem ringOK_get (cap : Nat) (b : Buf) (h : RingOK cap b)
    (hpos : 0 < b.count) : RingOK cap (get cap b).1 := by
  obtain ⟨hlen, huse, h0, hle, hfill⟩ := h
  have hcap : 0 < cap := by omega
  refine ⟨by simp [get, hlen], by simp only [get]; exact Nat.mod_lt _ hcap,
    by simp [get, decrement_cnt]; omega, by simp [get, decrement_cnt]; omega, ?_⟩
  simp only [get, decrement_cnt]
  rw [hfill, Nat.mod_add_mod]
  have : b.count.toNat = (b.count - 1).toNat + 1 := by omega
  rw [this]
  congr 1
  omega

/-- Two offsets below the capacity that name the same slot are equal. -/
theorem slot_inj (cap u i j : Nat) (hi : i < cap) (hj : j < cap)
    (h : (u + i) % cap = (u + j) % cap) : i = j := by
  have h1 : (u + i) ≡ (u + j) [MOD cap] := h
  have h2 : i ≡ j [MOD cap] := Nat.ModEq.add_left_cancel' u h1
  have h3 : i % cap = j % cap := h2
  rwa [Nat.mod_eq_of_lt hi, Nat.mod_eq_of_lt hj] at h3

theorem live_put (cap : Nat) (b : Buf) (v : MatPtr) (h : RingOK cap b)
    (hlt : b.count < cap) : live cap (put cap b v).1 = live cap b ++ [v] := by
  obtain ⟨hlen, huse, h0, _, hfill⟩ := h
  have hc : (b.count + 1).toNat = b.count.toNat + 1 := by omega
  have hcap : 0 < cap := by omega
  simp only [live, put, increment_cnt, hc, List.range_succ, List.map_append,
    List.map_cons, List.map_nil]
  congr 1
  · apply List.map_congr_left
    intro i hi
    have hi2 : i < b.count.toNat := by simpa using hi
    simp only [liveAt]
    rw [List.getD_eq_getElem?_getD, List.getD_eq_getElem?_getD, List.getElem?_set]
    have hne : b.fill ≠ (b.use + i) % cap := by
      intro heq
      rw [hfill] at heq
      have := slot_inj cap b.use _ _ (by omega) (by omega) heq
      omega
    simp [hne]
  · simp only [liveAt]
    rw [List.getD_eq_getElem?_getD, ← hfill, List.getElem?_set]
    have hfl : b.fill < b.bigmatrix.length := by
      rw [hlen, hfill]; exact Nat.mod_lt _ hcap
    simp [hfl]

theorem live_get (cap : Nat) (b : Buf) (h : RingOK cap b)
    (hpos : 0 < b.count) : live cap b = (get cap b).2 :: live cap (get cap b).1 := by
  obtain ⟨hlen, huse, h0, hle, hfill⟩ := h
  have hc : b.count.toNat = (b.count - 1).toNat + 1 := by omega
  simp only [live, get, decrement_cnt]
  rw [hc, List.range_succ_eq_map, List.map_cons, List.map_map]
  congr 1
  · simp [liveAt, Nat.mod_eq_of_lt huse]
  · apply List.map_congr_left
    intro i _
    simp only [liveAt, Function.comp]
    congr 1
    rw [Nat.mod_add_mod]
    congr 1
    omega

theorem mutex_absurd {m : Option Tid} {t w : Tid} (h1 : m = some t)
    (h2 : m = none ∨ m = some w) (hne : w ≠ t) : False := by
  rcases h2 with h | h
  · rw [h] at h1; cases h1
  · rw [h] at h1; cases h1; exact hne rfl

theorem prodOK_stable {cfg : Cfg} {sh sh' : Shared} {i : Nat} {p : PLocal} (w : Tid)
    (h : ProdOK cfg sh i p) (hw : w ≠ Tid.prod i)
    (hc : sh.buf.consumed ≤ sh'.buf.consumed) (hp : sh.buf.produced ≤ sh'.buf.produced)
    (hq : ∀ k, k ∈ sh'.emptyQ → k ∈ sh.emptyQ ∨ w = Tid.prod k)
    (hcp : sh'.buf.consumed ≤ sh'.buf.produced)
    (hfr : (sh'.buf = sh.buf ∧ sh'.mutex = sh.mutex) ∨
      (sh.buf.consumed < cfg.NUMBER_OF_MATRICES → sh.mutex = none ∨ sh.mutex = some w)) :
    ProdOK cfg sh' i p := by
  constructor
  · intro hlt hcrit
    rcases hfr with ⟨hb, hm⟩ | hown
    · rw [hm]; rw [hb] at hlt; exact h.excl hlt hcrit
    · have hlt' : sh.buf.consumed < cfg.NUMBER_OF_MATRICES := by omega
      exact (mutex_absurd (h.excl hlt' hcrit) (hown hlt') hw).elim
  · intro hpc hlt
    rcases hfr with ⟨hb, _⟩ | hown
    · rw [hb] at hlt ⊢; exact h.room hpc hlt
    · have hlt' : sh.buf.consumed < cfg.NUMBER_OF_MATRICES := by omega
      exact (mutex_absurd (h.excl hlt' (by rw [hpc]; rfl)) (hown hlt') hw).elim
  · intro hex
    have := h.fin hex
    omega
  · intro hmem
    rcases hq i hmem with h1 | h1
    · exact h.waits h1
    · exact (hw h1).elim

theorem atGet_critical (pc : CPc) (h : pc.atGet = true) : pc.critical = true := by
  cases pc <;> simp_all [CPc.atGet, CPc.critical]

theorem consOK_stable {cfg : Cfg} {sh sh' : Shared} {j : Nat} {c : CLocal} (w : Tid)
    (h : ConsOK cfg sh j c) (hw : w ≠ Tid.cons j)
    (hc : sh.buf.consumed ≤ sh'.buf.consumed)
    (hq : ∀ k, k ∈ sh'.fullQ → k ∈ sh.fullQ ∨ w = Tid.cons k)
    (hfr : (sh'.buf = sh.buf ∧ sh'.mutex = sh.mutex) ∨
      (sh.buf.consumed < cfg.NUMBER_OF_MATRICES → sh.mutex = none ∨ sh.mutex = some w)) :
    ConsOK cfg sh' j c := by
  constructor
  · intro hlt hcrit
    rcases hfr with ⟨hb, hm⟩ | hown
    · rw [hm]; rw [hb] at hlt; exact h.excl hlt hcrit
    · have hlt' : sh.buf.consumed < cfg.NUMBER_OF_MATRICES := by omega
      exact (mutex_absurd (h.excl hlt' hcrit) (hown hlt') hw).elim
  · intro hpc hlt
    rcases hfr with ⟨hb, _⟩ | hown
    · rw [hb] at hlt ⊢; exact h.avail hpc hlt
    · have hlt' : sh.buf.consumed < cfg.NUMBER_OF_MATRICES := by omega
      exact (mutex_absurd (h.excl hlt' (atGet_critical _ hpc)) (hown hlt') hw).elim
  · intro hex
    have := h.fin hex
    omega
  · intro hmem
    rcases hq j hmem with h1 | h1
    · exact h.waits h1
    · exact (hw h1).elim
  · exact h.null1
  · exact h.null23
  · exact h.null3

theorem lookup_set {α : Type} {l : List α} {i k : Nat} {x y z : α} (hx : l[i]? = some x)
    (hk : (l.set i y)[k]? = some z) : (k = i ∧ z = y) ∨ (k ≠ i ∧ l[k]? = some z) := by
  rw [List.getElem?_set] at hk
  have hi : i < l.length := (List.getElem?_eq_some.mp hx).1
  by_cases hik : i = k
  · subst hik
    simp [hi] at hk
    exact Or.inl ⟨rfl, hk.symm⟩
  · simp [hik] at hk
    exact Or.inr ⟨fun h => hik h.symm, hk⟩

/-! ## Preservation of the invariant -/

/-- A step of producer `i` that re-establishes the facts about the shared
state and about itself preserves the invariant. -/
theorem inv_prod_update {cfg : Cfg} {s : State} {i : Nat} {p p' : PLocal} {sh' : Shared}
    (hinv : Inv cfg s) (hp : s.prods[i]? = some p)
    (hring : RingOK cfg.BOUNDED_BUFFER_SIZE sh'.buf)
    (hbal : sh'.buf.count + sh'.buf.consumed = sh'.buf.produced)
    (hle : sh'.buf.produced ≤ cfg.NUMBER_OF_MATRICES)
    (hc : s.sh.buf.consumed ≤ sh'.buf.consumed)
    (hpr : s.sh.buf.produced ≤ sh'.buf.produced)
    (hfr : (sh'.buf = s.sh.buf ∧ sh'.mutex = s.sh.mutex) ∨
      (s.sh.buf.consumed < cfg.NUMBER_OF_MATRICES →
        s.sh.mutex = none ∨ s.sh.mutex = some (Tid.prod i)))
    (hself : ProdOK cfg sh' i p')
    (hqe : ∀ k, k ∈ sh'.emptyQ → k ∈ s.sh.emptyQ ∨ k = i)
    (hqf : ∀ k, k ∈ sh'.fullQ → k ∈ s.sh.fullQ)
    (hnde : sh'.emptyQ.Nodup) (hndf : sh'.fullQ.Nodup) :
    Inv cfg { s with sh := sh', prods := s.prods.set i p' } := by
  have hi : i < s.prods.length := (List.getElem?_eq_some.mp hp).1
  have hcp : sh'.buf.consumed ≤ sh'.buf.produced := by
    have := hring.2.2.1; omega
  refine ⟨hring, hbal, hle, ?_, ?_, hinv.ncons, ?_, ?_, ?_, ?_, hnde, hndf⟩
  · have := hinv.consGe; simp only; omega
  · simp [hinv.nprod]
  · intro k q hk
    rcases lookup_set hp hk with ⟨rfl, rfl⟩ | ⟨hne, hq⟩
    · exact hself
    · refine prodOK_stable (Tid.prod i) (hinv.prodOK k q hq) ?_ hc hpr ?_ hcp hfr
      · intro h; cases h; exact hne rfl
      · intro k' hk'
        rcases hqe k' hk' with h | h
        · exact Or.inl h
        · exact Or.inr (by rw [h])
  · intro k q hk
    refine consOK_stable (Tid.prod i) (hinv.consOK k q hk) ?_ hc ?_ hfr
    · intro h; cases h
    · intro k' hk'; exact Or.inl (hqf k' hk')
  · intro k hk
    simp only [List.length_set]
    rcases hqe k hk with h | h
    · exact hinv.emptyLt k h
    · rw [h]; exact hi
  · intro k hk
    exact hinv.fullLt k (hqf k hk)

/-- A step of consumer `j` that re-establishes the facts about the shared
state and about itself preserves the invariant. -/
theorem inv_cons_update {cfg : Cfg} {s : State} {j : Nat} {c c' : CLocal} {sh' : Shared}
    (hinv : Inv cfg s) (hp : s.conss[j]? = some c)
    (hring : RingOK cfg.BOUNDED_BUFFER_SIZE sh'.buf)
    (hbal : sh'.buf.count + sh'.buf.consumed = sh'.buf.produced)
    (hle : sh'.buf.produced ≤ cfg.NUMBER_OF_MATRICES)
    (hc : s.sh.buf.consumed ≤ sh'.buf.consumed)
    (hpr : s.sh.buf.produced ≤ sh'.buf.produced)
    (hfr : (sh'.buf = s.sh.buf ∧ sh'.mutex = s.sh.mutex) ∨
      (s.sh.buf.consumed < cfg.NUMBER_OF_MATRICES →
        s.sh.mutex = none ∨ s.sh.mutex = some (Tid.cons j)))
    (hself : ConsOK cfg sh' j c')
    (hqe : ∀ k, k ∈ sh'.emptyQ → k ∈ s.sh.emptyQ)
    (hqf : ∀ k, k ∈ sh'.fullQ → k ∈ s.sh.fullQ ∨ k = j)
    (hnde : sh'.emptyQ.Nodup) (hndf : sh'.fullQ.Nodup) :
    Inv cfg { s with sh := sh', conss := s.conss.set j c' } := by
  have hi : j < s.conss.length := (List.getElem?_eq_some.mp hp).1
  have hcp : sh'.buf.consumed ≤ sh'.buf.produced := by
    have := hring.2.2.1; omega
  refine ⟨hring, hbal, hle, ?_, hinv.nprod, ?_, ?_, ?_, ?_, ?_, hnde, hndf⟩
  · have := hinv.consGe; simp only; omega
  · simp [hinv.ncons]
  · intro k q hk
    refine prodOK_stable (Tid.cons j) (hinv.prodOK k q hk) ?_ hc hpr ?_ hcp hfr
    · intro h; cases h
    · intro k' hk'; exact Or.inl (hqe k' hk')
  · intro k q hk
    rcases lookup_set hp hk with ⟨rfl, rfl⟩ | ⟨hne, hq⟩
    · exact hself
    · refine consOK_stable (Tid.cons j) (hinv.consOK k q hq) ?_ hc ?_ hfr
      · intro h; cases h; exact hne rfl
      · intro k' hk'
        rcases hqf k' hk' with h | h
        · exact Or.inl h
        · exact Or.inr (by rw [h])
  · intro k hk
    exact hinv.emptyLt k (hqe k hk)
  · intro k hk
    simp only [List.length_set]
    rcases hqf k hk with h | h
    · exact hinv.fullLt k h
    · rw [h]; exact hi

theorem mutex_lock_some {t : Tid} {sh sh1 : Shared} (h : mutex_lock t sh = some sh1) :
    sh.mutex = none ∧ sh1 = { sh with mutex := some t } := by
  unfold mutex_lock at h
  split at h
  · next hm => cases h; exact ⟨hm, rfl⟩
  · cases h

theorem cond_signal_mem {q q' : List Nat} {k : Nat} (h : cond_signal q k = some q') :
    ∀ x, x ∈ q' → x ∈ q := by
  unfold cond_signal at h
  split at h
  · cases h; intro x hx; cases hx
  · split at h
    · cases h; intro x hx; exact List.mem_of_mem_erase hx
    · cases h

theorem cond_signal_nodup {q q' : List Nat} {k : Nat} (h : cond_signal q k = some q')
    (hnd : q.Nodup) : q'.Nodup := by
  unfold cond_signal at h
  split at h
  · cases h; exact List.nodup_nil
  · split at h
    · cases h; exact hnd.erase k
    · cases h

theorem nodup_snoc {q : List Nat} {i : Nat} (hnd : q.Nodup) (hi : i ∉ q) :
    (q ++ [i]).Nodup := by
  rw [List.nodup_append]
  refine ⟨hnd, List.nodup_singleton i, ?_⟩
  intro x hx hx'
  simp at hx'
  subst hx'
  exact hi hx

theorem inv_prodStep {cfg : Cfg} {s : State} {i : Nat} {a : Act} {p : PLocal}
    {r : Shared × PLocal} (hinv : Inv cfg s)
    (hp : s.prods[i]? = some p) (h : prodStep cfg i a s.sh p = some r) :
    Inv cfg { s with sh := r.1, prods := s.prods.set i r.2 } := by
  have hP := hinv.prodOK i p hp
  obtain ⟨hexcl, hroom, hfin, hwaits⟩ := hP
  have hR := hinv.ring
  have hbal := hinv.bal
  have hle := hinv.prodLe
  have hcap := hR.2.2.2.1
  have hnde := hinv.emptyNodup
  have hndf := hinv.fullNodup
  unfold prodStep at h
  split at h
  next hpc =>
    -- line 61
    rw [hpc] at hexcl hroom hfin hwaits
    split at h <;> cases h <;>
      refine inv_prod_update hinv hp hR hbal hle le_rfl le_rfl (Or.inl ⟨rfl, rfl⟩) ?_
        (fun k hk => Or.inl hk) (fun k hk => hk) hnde hndf <;>
      constructor <;> simp_all [PPc.critical, PPc.exiting, get_cnt]
  next hpc =>
    -- line 62
    rw [hpc] at hexcl hroom hfin hwaits
    cases h
    refine inv_prod_update hinv hp hR hbal hle le_rfl le_rfl (Or.inl ⟨rfl, rfl⟩) ?_
        (fun k hk => Or.inl hk) (fun k hk => hk) hnde hndf
    constructor <;> simp_all [PPc.critical, PPc.exiting, get_cnt]
  next hpc =>
    -- line 63
    rw [hpc] at hexcl hroom hfin hwaits
    obtain ⟨sh1, hl, rfl⟩ := Option.map_eq_some'.mp h
    obtain ⟨hm, rfl⟩ := mutex_lock_some hl
    refine inv_prod_update hinv hp hR hbal hle le_rfl le_rfl (Or.inr (fun _ => Or.inl hm)) ?_
        (fun k hk => Or.inl hk) (fun k hk => hk) hnde hndf
    constructor <;> simp_all [PPc.critical, PPc.exiting, get_cnt]
  next hpc =>
    -- lines 64-65
    rw [hpc] at hexcl hroom hfin hwaits
    have hni : i ∉ s.sh.emptyQ := fun hmem => by simpa using hwaits hmem
    split at h
    · next hw =>
      cases h
      refine inv_prod_update hinv hp hR hbal hle le_rfl le_rfl
        (Or.inr (fun hlt => Or.inr (hexcl hlt rfl))) ?_
        (fun k hk => by simpa [mutex_unlock] using hk) (fun k hk => hk)
        (nodup_snoc hnde hni) hndf
      constructor <;> simp_all [PPc.critical, PPc.exiting, get_cnt, mutex_unlock]
    · next hw =>
      cases h
      refine inv_prod_update hinv hp hR hbal hle le_rfl le_rfl (Or.inl ⟨rfl, rfl⟩) ?_
        (fun k hk => Or.inl hk) (fun k hk => hk) hnde hndf
      constructor <;> simp_all [PPc.critical, PPc.exiting, get_cnt]
      intro hlt
      have := hw
      omega
  next hpc =>
    -- line 65, return from pthread_cond_wait
    rw [hpc] at hexcl hroom hfin hwaits
    split at h
    · cases h
    · obtain ⟨sh1, hl, rfl⟩ := Option.map_eq_some'.mp h
      obtain ⟨hm, rfl⟩ := mutex_lock_some hl
      refine inv_prod_update hinv hp hR hbal hle le_rfl le_rfl (Or.inr (fun _ => Or.inl hm)) ?_
          (fun k hk => Or.inl hk) (fun k hk => hk) hnde hndf
      constructor <;> simp_all [PPc.critical, PPc.exiting, get_cnt]
  next hpc =>
    -- lines 67-72
    rw [hpc] at hexcl hroom hfin hwaits
    have hni : i ∉ s.sh.emptyQ := fun hmem => by simpa using hwaits hmem
    split at h
    · next hlt =>
      obtain ⟨q, hq, rfl⟩ := Option.map_eq_some'.mp h
      simp only [get_cnt] at hlt
      have hroom' := hroom rfl hlt
      refine inv_prod_update hinv hp (ringOK_put _ _ _ hR hroom') ?_ ?_ ?_ ?_
        (Or.inr (fun hlt => Or.inr (hexcl hlt rfl))) ?_
        (fun k hk => Or.inl hk) (cond_signal_mem hq) hnde (cond_signal_nodup hq hndf)
      · simp only [put, increment_cnt]; omega
      · simp only [put, increment_cnt]; omega
      · simp only [put]; omega
      · simp only [put, increment_cnt]; omega
      · constructor <;> simp_all [PPc.critical, PPc.exiting, get_cnt, put]
    · next hlt =>
      obtain ⟨q, hq, rfl⟩ := Option.map_eq_some'.mp h
      refine inv_prod_update hinv hp hR hbal hle le_rfl le_rfl (Or.inl ⟨rfl, rfl⟩) ?_
        (fun k hk => Or.inl hk) (cond_signal_mem hq) hnde (cond_signal_nodup hq hndf)
      constructor <;> simp_all [PPc.critical, PPc.exiting, get_cnt]
  next hpc =>
    -- line 73
    rw [hpc] at hexcl hroom hfin hwaits
    cases h
    refine inv_prod_update hinv hp hR hbal hle le_rfl le_rfl
      (Or.inr (fun hlt => Or.inr (hexcl hlt rfl))) ?_
      (fun k hk => Or.inl hk) (fun k hk => hk) hnde hndf
    constructor <;> simp_all [PPc.critical, PPc.exiting, get_cnt, mutex_unlock]
  next hpc =>
    -- line 76
    rw [hpc] at hexcl hroom hfin hwaits
    obtain ⟨sh1, hl, rfl⟩ := Option.map_eq_some'.mp h
    obtain ⟨hm, rfl⟩ := mutex_lock_some hl
    refine inv_prod_update hinv hp hR hbal hle le_rfl le_rfl (Or.inr (fun _ => Or.inl hm)) ?_
        (fun k hk => Or.inl hk) (fun k hk => hk) hnde hndf
    constructor <;> simp_all [PPc.critical, PPc.exiting, get_cnt]
  next hpc =>
    -- lines 77-79
    rw [hpc] at hexcl hroom hfin hwaits
    cases h
    refine inv_prod_update hinv hp hR hbal hle le_rfl le_rfl
      (Or.inr (fun hlt => Or.inr (hexcl hlt rfl))) ?_
      (fun k hk => Or.inl hk) (fun k hk => by simp [mutex_unlock, cond_broadcast] at hk)
      hnde (by simp [mutex_unlock, cond_broadcast])
    constructor <;> simp_all [PPc.critical, PPc.exiting, get_cnt, mutex_unlock]
  next hpc => cases h

set_option maxHeartbeats 400000 in
theorem inv_consStep {cfg : Cfg} {s : State} {j : Nat} {a : Act} {c : CLocal}
    {r : Shared × CLocal} (hinv : Inv cfg s)
    (hp : s.conss[j]? = some c) (h : consStep cfg j a s.sh c = some r) :
    Inv cfg { s with sh := r.1, conss := s.conss.set j r.2 } := by
  have hC := hinv.consOK j c hp
  obtain ⟨hexcl, havail, hfin, hwaits, hn1, hn23, hn3⟩ := hC
  have hR := hinv.ring
  have hbal := hinv.bal
  have hle := hinv.prodLe
  have hcnt := hR.2.2.1
  have hnde := hinv.emptyNodup
  have hndf := hinv.fullNodup
  unfold consStep at h
  split at h
  next hpc =>
    -- line 91
    rw [hpc] at hexcl havail hfin hwaits hn1 hn23 hn3
    split at h <;> cases h <;>
      refine inv_cons_update hinv hp hR hbal hle le_rfl le_rfl (Or.inl ⟨rfl, rfl⟩) ?_
        (fun k hk => hk) (fun k hk => Or.inl hk) hnde hndf <;>
      (clear hinv hp hR hnde hndf
       constructor <;>
         simp_all [CPc.critical, CPc.exiting, CPc.waiting, CPc.atGet, CPc.m1Null,
           CPc.m23Null, get_cnt, mutex_unlock, waitFull, consMustWait, consFinished])
  next hpc =>
    -- line 92
    rw [hpc] at hexcl havail hfin hwaits hn1 hn23 hn3
    obtain ⟨sh1, hl, rfl⟩ := Option.map_eq_some'.mp h
    obtain ⟨hm, rfl⟩ := mutex_lock_some hl
    refine inv_cons_update hinv hp hR hbal hle le_rfl le_rfl (Or.inr (fun _ => Or.inl hm)) ?_
      (fun k hk => hk) (fun k hk => Or.inl hk) hnde hndf
    (clear hinv hp hR hnde hndf
     constructor <;>
       simp_all [CPc.critical, CPc.exiting, CPc.waiting, CPc.atGet, CPc.m1Null,
         CPc.m23Null, get_cnt, mutex_unlock, waitFull, consMustWait, consFinished])
  next hpc =>
    -- lines 94-95
    rw [hpc] at hexcl havail hfin hwaits hn1 hn23 hn3
    have hnj : j ∉ s.sh.fullQ := fun hmem => by simpa [CPc.waiting] using hwaits hmem
    split at h
    · next hw =>
      cases h
      refine inv_cons_update hinv hp hR hbal hle le_rfl le_rfl
        (Or.inr (fun hlt => Or.inr (hexcl hlt rfl))) ?_
        (fun k hk => hk) (fun k hk => by simpa [waitFull, mutex_unlock] using hk)
        hnde (nodup_snoc hndf hnj)
      (clear hinv hp hR hnde hndf
       constructor <;>
         simp_all [CPc.critical, CPc.exiting, CPc.waiting, CPc.atGet, CPc.m1Null,
           CPc.m23Null, get_cnt, mutex_unlock, waitFull, consMustWait, consFinished])
    · next hw =>
      cases h
      refine inv_cons_update hinv hp hR hbal hle le_rfl le_rfl (Or.inl ⟨rfl, rfl⟩) ?_
        (fun k hk => hk) (fun k hk => Or.inl hk) hnde hndf
      (clear hinv hp hR hnde hndf
       constructor <;>
         simp_all [CPc.critical, CPc.exiting, CPc.waiting, CPc.atGet, CPc.m1Null,
           CPc.m23Null, get_cnt, mutex_unlock, waitFull, consMustWait, consFinished])
      intro hlt
      have := hw
      omega
  next hpc =>
    -- line 95, return from pthread_cond_wait
    rw [hpc] at hexcl havail hfin hwaits hn1 hn23 hn3
    obtain ⟨sh1, hl, rfl⟩ := Option.map_eq_some'.mp h
    unfold wakeFull at hl
    split at hl
    · cases hl
    · obtain ⟨hm, rfl⟩ := mutex_lock_some hl
      refine inv_cons_update hinv hp hR hbal hle le_rfl le_rfl (Or.inr (fun _ => Or.inl hm)) ?_
        (fun k hk => hk) (fun k hk => Or.inl hk) hnde hndf
      (clear hinv hp hR hnde hndf
       constructor <;>
         simp_all [CPc.critical, CPc.exiting, CPc.waiting, CPc.atGet, CPc.m1Null,
           CPc.m23Null, get_cnt, mutex_unlock, waitFull, consMustWait, consFinished])
  next hpc =>
    -- lines 97-102
    rw [hpc] at hexcl havail hfin hwaits hn1 hn23 hn3
    have hnj : j ∉ s.sh.fullQ := fun hmem => by simpa [CPc.waiting] using hwaits hmem
    split at h
    · next hlt =>
      obtain ⟨r1, hwd, rfl⟩ := Option.map_eq_some'.mp h
      obtain ⟨q, hq, rfl⟩ := Option.map_eq_some'.mp hwd
      simp only [get_cnt] at hlt
      have hpos := havail rfl hlt
      refine inv_cons_update hinv hp (ringOK_get _ _ hR hpos) ?_ ?_ ?_ ?_
        (Or.inr (fun hlt => Or.inr (hexcl hlt rfl))) ?_
        (cond_signal_mem hq) (fun k hk => Or.inl hk) (cond_signal_nodup hq hnde) hndf
      · simp only [get, increment_cnt, decrement_cnt]; omega
      · simp only [get]; omega
      · simp only [get, increment_cnt]; omega
      · simp only [get]; omega
      · (clear hinv hp hR hnde hndf
         constructor <;>
           simp_all [CPc.critical, CPc.exiting, CPc.waiting, CPc.atGet, CPc.m1Null,
             CPc.m23Null, get_cnt, mutex_unlock, waitFull, consMustWait, consFinished, get])
    · next hlt =>
      cases h
      refine inv_cons_update hinv hp hR hbal hle le_rfl le_rfl (Or.inl ⟨rfl, rfl⟩) ?_
        (fun k hk => hk) (fun k hk => Or.inl hk) hnde hndf
      (clear hinv hp hR hnde hndf
       constructor <;>
         simp_all [CPc.critical, CPc.exiting, CPc.waiting, CPc.atGet, CPc.m1Null,
           CPc.m23Null, get_cnt, mutex_unlock, waitFull, consMustWait, consFinished])
  next hpc =>
    -- lines 103-109
    rw [hpc] at hexcl havail hfin hwaits hn1 hn23 hn3
    split at h <;> cases h <;>
      refine inv_cons_update hinv hp hR hbal hle le_rfl le_rfl (Or.inl ⟨rfl, rfl⟩) ?_
        (fun k hk => hk) (fun k hk => Or.inl hk) hnde hndf <;>
      (clear hinv hp hR hnde hndf
       constructor <;>
         simp_all [CPc.critical, CPc.exiting, CPc.waiting, CPc.atGet, CPc.m1Null,
           CPc.m23Null, get_cnt, mutex_unlock, waitFull, consMustWait, consFinished])
  next hpc =>
    -- lines 110-111
    rw [hpc] at hexcl havail hfin hwaits hn1 hn23 hn3
    have hnj : j ∉ s.sh.fullQ := fun hmem => by simpa [CPc.waiting] using hwaits hmem
    split at h
    · next hw =>
      cases h
      refine inv_cons_update hinv hp hR hbal hle le_rfl le_rfl
        (Or.inr (fun hlt => Or.inr (hexcl hlt rfl))) ?_
        (fun k hk => hk) (fun k hk => by simpa [waitFull, mutex_unlock] using hk)
        hnde (nodup_snoc hndf hnj)
      (clear hinv hp hR hnde hndf
       constructor <;>
         simp_all [CPc.critical, CPc.exiting, CPc.waiting, CPc.atGet, CPc.m1Null,
           CPc.m23Null, get_cnt, mutex_unlock, waitFull, consMustWait, consFinished])
    · next hw =>
      cases h
      refine inv_cons_update hinv hp hR hbal hle le_rfl le_rfl (Or.inl ⟨rfl, rfl⟩) ?_
        (fun k hk => hk) (fun k hk => Or.inl hk) hnde hndf
      (clear hinv hp hR hnde hndf
       constructor <;>
         simp_all [CPc.critical, CPc.exiting, CPc.waiting, CPc.atGet, CPc.m1Null,
           CPc.m23Null, get_cnt, mutex_unlock, waitFull, consMustWait, consFinished])
      intro hlt
      have := hw
      omega
  next hpc =>
    -- line 111, return from pthread_cond_wait
    rw [hpc] at hexcl havail hfin hwaits hn1 hn23 hn3
    obtain ⟨sh1, hl, rfl⟩ := Option.map_eq_some'.mp h
    unfold wakeFull at hl
    split at hl
    · cases hl
    · obtain ⟨hm, rfl⟩ := mutex_lock_some hl
      refine inv_cons_update hinv hp hR hbal hle le_rfl le_rfl (Or.inr (fun _ => Or.inl hm)) ?_
        (fun k hk => hk) (fun k hk => Or.inl hk) hnde hndf
      (clear hinv hp hR hnde hndf
       constructor <;>
         simp_all [CPc.critical, CPc.exiting, CPc.waiting, CPc.atGet, CPc.m1Null,
           CPc.m23Null, get_cnt, mutex_unlock, waitFull, consMustWait, consFinished])
  next hpc =>
    -- lines 114-122
    rw [hpc] at hexcl havail hfin hwaits hn1 hn23 hn3
    have hnj : j ∉ s.sh.fullQ := fun hmem => by simpa [CPc.waiting] using hwaits hmem
    split at h
    · next hlt =>
      obtain ⟨r1, hwd, rfl⟩ := Option.map_eq_some'.mp h
      obtain ⟨q, hq, rfl⟩ := Option.map_eq_some'.mp hwd
      simp only [get_cnt] at hlt
      have hpos := havail rfl hlt
      refine inv_cons_update hinv hp (ringOK_get _ _ hR hpos) ?_ ?_ ?_ ?_
        (Or.inr (fun hlt => Or.inr (hexcl hlt rfl))) ?_
        (cond_signal_mem hq) (fun k hk => Or.inl hk) (cond_signal_nodup hq hnde) hndf
      · simp only [get, increment_cnt, decrement_cnt]; omega
      · simp only [get]; omega
      · simp only [get, increment_cnt]; omega
      · simp only [get]; omega
      · (clear hinv hp hR hnde hndf
         constructor <;>
           simp_all [CPc.critical, CPc.exiting, CPc.waiting, CPc.atGet, CPc.m1Null,
             CPc.m23Null, get_cnt, mutex_unlock, waitFull, consMustWait, consFinished, get])
    · next hlt =>
      cases h
      refine inv_cons_update hinv hp hR hbal hle le_rfl le_rfl (Or.inl ⟨rfl, rfl⟩) ?_
        (fun k hk => hk) (fun k hk => Or.inl hk) hnde hndf
      (clear hinv hp hR hnde hndf
       constructor <;>
         simp_all [CPc.critical, CPc.exiting, CPc.waiting, CPc.atGet, CPc.m1Null,
           CPc.m23Null, get_cnt, mutex_unlock, waitFull, consMustWait, consFinished])
  next hpc =>
    -- lines 125 and 152
    rw [hpc] at hexcl havail hfin hwaits hn1 hn23 hn3
    split at h <;> cases h <;>
      refine inv_cons_update hinv hp hR hbal hle le_rfl le_rfl (Or.inl ⟨rfl, rfl⟩) ?_
        (fun k hk => hk) (fun k hk => Or.inl hk) hnde hndf <;>
      (clear hinv hp hR hnde hndf
       constructor <;>
         simp_all [CPc.critical, CPc.exiting, CPc.waiting, CPc.atGet, CPc.m1Null,
           CPc.m23Null, get_cnt, mutex_unlock, waitFull, consMustWait, consFinished])
  next hpc =>
    -- line 127
    rw [hpc] at hexcl havail hfin hwaits hn1 hn23 hn3
    split at h <;> cases h <;>
      refine inv_cons_update hinv hp hR hbal hle le_rfl le_rfl (Or.inl ⟨rfl, rfl⟩) ?_
        (fun k hk => hk) (fun k hk => Or.inl hk) hnde hndf <;>
      (clear hinv hp hR hnde hndf
       constructor <;>
         simp_all [CPc.critical, CPc.exiting, CPc.waiting, CPc.atGet, CPc.m1Null,
           CPc.m23Null, get_cnt, mutex_unlock, waitFull, consMustWait, consFinished])
  next hpc =>
    -- lines 129-130
    rw [hpc] at hexcl havail hfin hwaits hn1 hn23 hn3
    cases h
    refine inv_cons_update hinv hp hR hbal hle le_rfl le_rfl (Or.inl ⟨rfl, rfl⟩) ?_
      (fun k hk => hk) (fun k hk => Or.inl hk) hnde hndf
    (clear hinv hp hR hnde hndf
     constructor <;>
       simp_all [CPc.critical, CPc.exiting, CPc.waiting, CPc.atGet, CPc.m1Null,
         CPc.m23Null, get_cnt, mutex_unlock, waitFull, consMustWait, consFinished])
  next hpc =>
    -- lines 132-133
    rw [hpc] at hexcl havail hfin hwaits hn1 hn23 hn3
    have hnj : j ∉ s.sh.fullQ := fun hmem => by simpa [CPc.waiting] using hwaits hmem
    split at h
    · next hw =>
      cases h
      refine inv_cons_update hinv hp hR hbal hle le_rfl le_rfl
        (Or.inr (fun hlt => Or.inr (hexcl hlt rfl))) ?_
        (fun k hk => hk) (fun k hk => by simpa [waitFull, mutex_unlock] using hk)
        hnde (nodup_snoc hndf hnj)
      (clear hinv hp hR hnde hndf
       constructor <;>
         simp_all [CPc.critical, CPc.exiting, CPc.waiting, CPc.atGet, CPc.m1Null,
           CPc.m23Null, get_cnt, mutex_unlock, waitFull, consMustWait, consFinished])
    · next hw =>
      cases h
      refine inv_cons_update hinv hp hR hbal hle le_rfl le_rfl (Or.inl ⟨rfl, rfl⟩) ?_
        (fun k hk => hk) (fun k hk => Or.inl hk) hnde hndf
      (clear hinv hp hR hnde hndf
       constructor <;>
         simp_all [CPc.critical, CPc.exiting, CPc.waiting, CPc.atGet, CPc.m1Null,
           CPc.m23Null, get_cnt, mutex_unlock, waitFull, consMustWait, consFinished])
      intro hlt
      have := hw
      omega
  next hpc =>
    -- line 133, return from pthread_cond_wait
    rw [hpc] at hexcl havail hfin hwaits hn1 hn23 hn3
    obtain ⟨sh1, hl, rfl⟩ := Option.map_eq_some'.mp h
    unfold wakeFull at hl
    split at hl
    · cases hl
    · obtain ⟨hm, rfl⟩ := mutex_lock_some hl
      refine inv_cons_update hinv hp hR hbal hle le_rfl le_rfl (Or.inr (fun _ => Or.inl hm)) ?_
        (fun k hk => hk) (fun k hk => Or.inl hk) hnde hndf
      (clear hinv hp hR hnde hndf
       constructor <;>
         simp_all [CPc.critical, CPc.exiting, CPc.waiting, CPc.atGet, CPc.m1Null,
           CPc.m23Null, get_cnt, mutex_unlock, waitFull, consMustWait, consFinished])
  next hpc =>
    -- lines 137-140
    rw [hpc] at hexcl havail hfin hwaits hn1 hn23 hn3
    split at h <;> cases h <;>
      refine inv_cons_update hinv hp hR hbal hle le_rfl le_rfl (Or.inl ⟨rfl, rfl⟩) ?_
        (fun k hk => hk) (fun k hk => Or.inl hk) hnde hndf <;>
      (clear hinv hp hR hnde hndf
       constructor <;>
         simp_all [CPc.critical, CPc.exiting, CPc.waiting, CPc.atGet, CPc.m1Null,
           CPc.m23Null, get_cnt, mutex_unlock, waitFull, consMustWait, consFinished])
  next hpc =>
    -- lines 142-150
    rw [hpc] at hexcl havail hfin hwaits hn1 hn23 hn3
    have hnj : j ∉ s.sh.fullQ := fun hmem => by simpa [CPc.waiting] using hwaits hmem
    split at h
    · next hlt =>
      obtain ⟨r1, hwd, rfl⟩ := Option.map_eq_some'.mp h
      obtain ⟨q, hq, rfl⟩ := Option.map_eq_some'.mp hwd
      simp only [get_cnt] at hlt
      have hpos := havail rfl hlt
      refine inv_cons_update hinv hp (ringOK_get _ _ hR hpos) ?_ ?_ ?_ ?_
        (Or.inr (fun hlt => Or.inr (hexcl hlt rfl))) ?_
        (cond_signal_mem hq) (fun k hk => Or.inl hk) (cond_signal_nodup hq hnde) hndf
      · simp only [get, increment_cnt, decrement_cnt]; omega
      · simp only [get]; omega
      · simp only [get, increment_cnt]; omega
      · simp only [get]; omega
      · (clear hinv hp hR hnde hndf
         constructor <;>
           simp_all [CPc.critical, CPc.exiting, CPc.waiting, CPc.atGet, CPc.m1Null,
             CPc.m23Null, get_cnt, mutex_unlock, waitFull, consMustWait, consFinished, get])
    · next hlt =>
      cases h
      refine inv_cons_update hinv hp hR hbal hle le_rfl le_rfl (Or.inl ⟨rfl, rfl⟩) ?_
        (fun k hk => hk) (fun k hk => Or.inl hk) hnde hndf
      (clear hinv hp hR hnde hndf
       constructor <;>
         simp_all [CPc.critical, CPc.exiting, CPc.waiting, CPc.atGet, CPc.m1Null,
           CPc.m23Null, get_cnt, mutex_unlock, waitFull, consMustWait, consFinished])
  next hpc =>
    -- lines 156-173
    rw [hpc] at hexcl havail hfin hwaits hn1 hn23 hn3
    cases h
    refine inv_cons_update hinv hp hR hbal hle le_rfl le_rfl (Or.inl ⟨rfl, rfl⟩) ?_
      (fun k hk => hk) (fun k hk => Or.inl hk) hnde hndf
    (clear hinv hp hR hnde hndf
     constructor <;>
       simp_all [CPc.critical, CPc.exiting, CPc.waiting, CPc.atGet, CPc.m1Null,
         CPc.m23Null, get_cnt, mutex_unlock, waitFull, consMustWait, consFinished])
  next hpc =>
    -- line 175
    rw [hpc] at hexcl havail hfin hwaits hn1 hn23 hn3
    cases h
    refine inv_cons_update hinv hp hR hbal hle le_rfl le_rfl
      (Or.inr (fun hlt => ?_)) ?_
      (fun k hk => hk) (fun k hk => Or.inl hk) hnde hndf
    · exact Or.inr (hexcl hlt rfl)
    · (clear hinv hp hR hnde hndf
       constructor <;>
         simp_all [CPc.critical, CPc.exiting, CPc.waiting, CPc.atGet, CPc.m1Null,
           CPc.m23Null, get_cnt, mutex_unlock, waitFull, consMustWait, consFinished])
  next hpc =>
    -- lines 178-181
    rw [hpc] at hexcl havail hfin hwaits hn1 hn23 hn3
    cases h
    refine inv_cons_update hinv hp hR hbal hle le_rfl le_rfl (Or.inl ⟨rfl, rfl⟩) ?_
      (fun k hk => hk) (fun k hk => Or.inl hk) hnde hndf
    (clear hinv hp hR hnde hndf
     constructor <;>
       simp_all [CPc.critical, CPc.exiting, CPc.waiting, CPc.atGet, CPc.m1Null,
         CPc.m23Null, get_cnt, mutex_unlock, waitFull, consMustWait, consFinished])
  next hpc =>
    -- line 182
    rw [hpc] at hexcl havail hfin hwaits hn1 hn23 hn3
    cases h
    refine inv_cons_update hinv hp hR hbal hle le_rfl le_rfl
      (Or.inr (fun hlt => ?_)) ?_
      (fun k hk => hk) (fun k hk => Or.inl hk) hnde hndf
    · exact absurd hlt (not_lt.mpr (hfin rfl))
    · (clear hinv hp hR hnde hndf
       constructor <;>
         simp_all [CPc.critical, CPc.exiting, CPc.waiting, CPc.atGet, CPc.m1Null,
           CPc.m23Null, get_cnt, mutex_unlock, waitFull, consMustWait, consFinished])
  next hpc =>
    -- line 183
    rw [hpc] at hexcl havail hfin hwaits hn1 hn23 hn3
    obtain ⟨sh1, hl, rfl⟩ := Option.map_eq_some'.mp h
    obtain ⟨hm, rfl⟩ := mutex_lock_some hl
    refine inv_cons_update hinv hp hR hbal hle le_rfl le_rfl (Or.inr (fun _ => Or.inl hm)) ?_
      (fun k hk => hk) (fun k hk => Or.inl hk) hnde hndf
    (clear hinv hp hR hnde hndf
     constructor <;>
       simp_all [CPc.critical, CPc.exiting, CPc.waiting, CPc.atGet, CPc.m1Null,
         CPc.m23Null, get_cnt, mutex_unlock, waitFull, consMustWait, consFinished])
  next hpc =>
    -- lines 184-186
    rw [hpc] at hexcl havail hfin hwaits hn1 hn23 hn3
    cases h
    refine inv_cons_update hinv hp hR hbal hle le_rfl le_rfl
      (Or.inr (fun hlt => ?_)) ?_
      (fun k hk => by simp [mutex_unlock, cond_broadcast] at hk) (fun k hk => Or.inl hk)
      (by simp [mutex_unlock, cond_broadcast]) hndf
    · exact absurd hlt (not_lt.mpr (hfin rfl))
    · (clear hinv hp hR hnde hndf
       constructor <;>
         simp_all [CPc.critical, CPc.exiting, CPc.waiting, CPc.atGet, CPc.m1Null,
           CPc.m23Null, get_cnt, mutex_unlock, waitFull, consMustWait, consFinished])
  next hpc => cases h

theorem inv_init (cfg : Cfg) (hB : 1 ≤ cfg.BOUNDED_BUFFER_SIZE)
    (hN : 0 ≤ cfg.NUMBER_OF_MATRICES) : Inv cfg (State.init cfg) := by
  refine ⟨ringOK_init _ hB, by simp [State.init, Buf.init], by simpa [State.init, Buf.init],
    by simp [State.init, Buf.init], by simp [State.init], by simp [State.init], ?_, ?_,
    by simp [State.init], by simp [State.init], by simp [State.init], by simp [State.init]⟩
  · intro i p hp
    simp only [State.init, List.getElem?_replicate] at hp
    split at hp
    · cases hp
      constructor <;> simp [State.init, PLocal.init, PPc.critical, PPc.exiting]
    · cases hp
  · intro j c hc
    simp only [State.init, List.getElem?_replicate] at hc
    split at hc
    · cases hc
      constructor <;>
        simp [State.init, CLocal.init, CPc.critical, CPc.exiting, CPc.atGet, CPc.waiting,
          CPc.m1Null, CPc.m23Null]
    · cases hc

theorem inv_step {cfg : Cfg} {s s' : State} {a : Act} (hinv : Inv cfg s)
    (h : step cfg s a = some s') : Inv cfg s' := by
  unfold step at h
  split at h
  · split at h
    · cases h
    · next p hp =>
      obtain ⟨r, hr, rfl⟩ := Option.map_eq_some'.mp h
      exact inv_prodStep hinv hp hr
  · split at h
    · cases h
    · next c hc =>
      obtain ⟨r, hr, rfl⟩ := Option.map_eq_some'.mp h
      exact inv_consStep hinv hc hr

theorem inv_run {cfg : Cfg} (acts : List Act) : ∀ {s s' : State}, Inv cfg s →
    run cfg acts s = some s' → Inv cfg s' := by
  induction acts with
  | nil => intro s s' hinv h; cases h; exact hinv
  | cons a rest ih =>
    intro s s' hinv h
    simp only [run] at h
    obtain ⟨s1, h1, h2⟩ := Option.bind_eq_some.mp h
    exact ih (inv_step hinv h1) h2

theorem inv_reachable {cfg : Cfg} {s : State} (hB : 1 ≤ cfg.BOUNDED_BUFFER_SIZE)
    (hN : 0 ≤ cfg.NUMBER_OF_MATRICES) (h : Reachable cfg s) : Inv cfg s := by
  obtain ⟨acts, hacts⟩ := h
  exact inv_run acts (inv_init cfg hB hN) hacts

theorem prodStep_effect {cfg : Cfg} {i : Nat} {a : Act} {sh : Shared} {p : PLocal}
    {r : Shared × PLocal} (h : prodStep cfg i a sh p = some r) :
    ProdEffect cfg i a sh p r := by
  unfold prodStep at h
  split at h
  · split at h <;> cases h <;> exact .quiet rfl rfl (fun k hk => hk) (by simp) rfl
  · cases h; exact .quiet rfl rfl (fun k hk => hk) (by simp) rfl
  · obtain ⟨sh1, hl, rfl⟩ := Option.map_eq_some'.mp h
    obtain ⟨hm, rfl⟩ := mutex_lock_some hl
    exact .quiet rfl rfl (fun k hk => hk) (by simp) rfl
  · next hpc =>
    split at h
    · next hw => cases h; exact .wait hpc hw.1 hw.2 rfl rfl rfl rfl
    · cases h; exact .quiet rfl rfl (fun k hk => hk) (by simp) rfl
  · split at h
    · cases h
    · obtain ⟨sh1, hl, rfl⟩ := Option.map_eq_some'.mp h
      obtain ⟨hm, rfl⟩ := mutex_lock_some hl
      exact .quiet rfl rfl (fun k hk => hk) (by simp) rfl
  · next hpc =>
    split at h
    · next hlt =>
      obtain ⟨q, hq, rfl⟩ := Option.map_eq_some'.mp h
      exact .put hpc hlt rfl rfl hq rfl rfl rfl
    · obtain ⟨q, hq, rfl⟩ := Option.map_eq_some'.mp h
      exact .quiet rfl rfl (cond_signal_mem hq) (by simp) rfl
  · cases h; exact .quiet rfl rfl (fun k hk => hk) (by simp) rfl
  · obtain ⟨sh1, hl, rfl⟩ := Option.map_eq_some'.mp h
    obtain ⟨hm, rfl⟩ := mutex_lock_some hl
    exact .quiet rfl rfl (fun k hk => hk) (by simp) rfl
  · next hpc => cases h; exact .finish hpc rfl rfl rfl rfl rfl
  · cases h

theorem consStep_effect {cfg : Cfg} {j : Nat} {a : Act} {sh : Shared} {c : CLocal}
    {r : Shared × CLocal} (h : consStep cfg j a sh c = some r) :
    ConsEffect cfg j a sh c r := by
  unfold consStep at h
  split at h
  -- line 91
  · split at h <;> cases h <;> exact .quiet rfl rfl rfl (by simp) rfl rfl
  -- line 92
  · obtain ⟨sh1, hl, rfl⟩ := Option.map_eq_some'.mp h
    obtain ⟨hm, rfl⟩ := mutex_lock_some hl
    exact .quiet rfl rfl rfl (by simp) rfl rfl
  -- lines 94-95
  · split at h
    · next hw => cases h; exact .wait hw rfl rfl rfl rfl
    · cases h; exact .quiet rfl rfl rfl (by simp) rfl rfl
  · obtain ⟨sh1, hl, rfl⟩ := Option.map_eq_some'.mp h
    unfold wakeFull at hl
    split at hl
    · cases hl
    · obtain ⟨hm, rfl⟩ := mutex_lock_some hl
      exact .quiet rfl rfl rfl (by simp) rfl rfl
  -- lines 97-102
  · next hpc =>
    split at h
    · next hlt =>
      obtain ⟨r1, hwd, rfl⟩ := Option.map_eq_some'.mp h
      obtain ⟨q, hq, rfl⟩ := Option.map_eq_some'.mp hwd
      exact .get (by rw [hpc]; rfl) hlt rfl hq rfl (by simp) rfl rfl
    · cases h; exact .quiet rfl rfl rfl (by simp) rfl rfl
  -- lines 103-109
  · split at h <;> cases h <;> exact .quiet rfl rfl rfl (by simp) rfl rfl
  -- lines 110-111
  · split at h
    · next hw => cases h; exact .wait hw rfl rfl rfl rfl
    · cases h; exact .quiet rfl rfl rfl (by simp) rfl rfl
  · obtain ⟨sh1, hl, rfl⟩ := Option.map_eq_some'.mp h
    unfold wakeFull at hl
    split at hl
    · cases hl
    · obtain ⟨hm, rfl⟩ := mutex_lock_some hl
      exact .quiet rfl rfl rfl (by simp) rfl rfl
  -- lines 114-122
  · next hpc =>
    split at h
    · next hlt =>
      obtain ⟨r1, hwd, rfl⟩ := Option.map_eq_some'.mp h
      obtain ⟨q, hq, rfl⟩ := Option.map_eq_some'.mp hwd
      exact .get (by rw [hpc]; rfl) hlt rfl hq rfl (by simp) rfl rfl
    · cases h; exact .quiet rfl rfl rfl (by simp) rfl rfl
  -- lines 125 and 152
  · split at h <;> cases h <;> exact .quiet rfl rfl rfl (by simp) rfl rfl
  -- line 127
  · split at h <;> cases h <;> exact .quiet rfl rfl rfl (by simp) rfl rfl
  -- lines 129-130
  · cases h; exact .quiet rfl rfl rfl (by simp) rfl rfl
  -- lines 132-133
  · split at h
    · next hw => cases h; exact .wait hw rfl rfl rfl rfl
    · cases h; exact .quiet rfl rfl rfl (by simp) rfl rfl
  · obtain ⟨sh1, hl, rfl⟩ := Option.map_eq_some'.mp h
    unfold wakeFull at hl
    split at hl
    · cases hl
    · obtain ⟨hm, rfl⟩ := mutex_lock_some hl
      exact .quiet rfl rfl rfl (by simp) rfl rfl
  -- lines 137-140
  · split at h <;> cases h <;> exact .quiet rfl rfl rfl (by simp) rfl rfl
  -- lines 142-150
  · next hpc =>
    split at h
    · next hlt =>
      obtain ⟨r1, hwd, rfl⟩ := Option.map_eq_some'.mp h
      obtain ⟨q, hq, rfl⟩ := Option.map_eq_some'.mp hwd
      exact .get (by rw [hpc]; rfl) hlt rfl hq rfl (by simp) rfl rfl
    · cases h; exact .quiet rfl rfl rfl (by simp) rfl rfl
  -- lines 156-173
  · cases h; exact .quiet rfl rfl rfl (by simp) rfl rfl
  -- line 175
  · cases h; exact .quiet rfl rfl rfl (by simp) rfl rfl
  -- lines 178-181
  · cases h; exact .quiet rfl rfl rfl (by simp) rfl rfl
  -- line 182
  · cases h; exact .quiet rfl rfl rfl (by simp) rfl rfl
  -- line 183
  · obtain ⟨sh1, hl, rfl⟩ := Option.map_eq_some'.mp h
    obtain ⟨hm, rfl⟩ := mutex_lock_some hl
    exact .quiet rfl rfl rfl (by simp) rfl rfl
  -- lines 184-186
  · next hpc => cases h; exact .finish hpc rfl rfl rfl rfl rfl
  · cases h

/-! ## The statistics -/

theorem sum_map_set {α : Type} (f : α → Int) : ∀ (l : List α) (i : Nat) (x y : α),
    l[i]? = some x → ((l.set i y).map f).sum = (l.map f).sum - f x + f y := by
  intro l
  induction l with
  | nil => intro i x y h; simp at h
  | cons a l ih =>
    intro i x y h
    cases i with
    | zero =>
      simp at h
      subst h
      simp only [List.set_cons_zero, List.map_cons, List.sum_cons]
      omega
    | succ n =>
      simp at h
      simp only [List.set_cons_succ, List.map_cons, List.sum_cons, ih n x y h]
      omega

theorem sumInv_init (cfg : Cfg) : SumInv cfg (State.init cfg) := by
  constructor
  · simp [prodTotal, State.init, PLocal.init, Buf.init]
  · simp [consTotal, State.init, CLocal.init, Buf.init]
  · simp [prodTotal, consTotal, State.init, PLocal.init, CLocal.init, live_init]

theorem sumInv_prodStep {cfg : Cfg} {s : State} {i : Nat} {a : Act} {p : PLocal}
    {r : Shared × PLocal} (hinv : Inv cfg s) (hs : SumInv cfg s)
    (hp : s.prods[i]? = some p) (h : prodStep cfg i a s.sh p = some r) :
    SumInv cfg { s with sh := r.1, prods := s.prods.set i r.2 } := by
  obtain ⟨hmade, hused, hsums⟩ := hs
  simp only [prodTotal, consTotal] at hmade hused hsums
  have key : ∀ f : ProdConsStats → Int,
      ((s.prods.set i r.2).map (fun p => f p.stats)).sum =
        (s.prods.map (fun p => f p.stats)).sum - f p.stats + f r.2.stats :=
    fun f => sum_map_set (fun p => f p.stats) s.prods i p r.2 hp
  have same : (r.1.buf = s.sh.buf ∧ r.2.stats = p.stats) →
      SumInv cfg { s with sh := r.1, prods := s.prods.set i r.2 } := by
    rintro ⟨hb, hst⟩
    constructor
    · simp only [prodTotal, key, hst, hb]; omega
    · simp only [consTotal, hb]; exact hused
    · simp only [prodTotal, consTotal, key, hst, hb]; omega
  cases prodStep_effect h with
  | quiet hbuf hE hF hpc hst => exact same ⟨hbuf, hst⟩
  | wait hpc hfull hlt hbuf hE hF hst => exact same ⟨hbuf, hst⟩
  | finish hpc hbuf hE hF hpc2 hst => exact same ⟨hbuf, hst⟩
  | put hpc hlt hbuf hE hF hpc2 hsum hmat =>
    have hroom := (hinv.prodOK i p hp).room hpc hlt
    have hlive := live_put _ _ p.m hinv.ring hroom
    constructor
    · simp only [prodTotal, key, hmat, hbuf, put, increment_cnt]; omega
    · simp only [consTotal, hbuf, put]; exact hused
    · simp only [prodTotal, consTotal, key, hsum, hbuf, hlive, List.map_append,
        List.sum_append, List.map_cons, List.map_nil, List.sum_cons, List.sum_nil]
      omega

theorem sumInv_consStep {cfg : Cfg} {s : State} {j : Nat} {a : Act} {c : CLocal}
    {r : Shared × CLocal} (hinv : Inv cfg s) (hs : SumInv cfg s)
    (hp : s.conss[j]? = some c) (h : consStep cfg j a s.sh c = some r) :
    SumInv cfg { s with sh := r.1, conss := s.conss.set j r.2 } := by
  obtain ⟨hmade, hused, hsums⟩ := hs
  simp only [prodTotal, consTotal] at hmade hused hsums
  have key : ∀ f : ProdConsStats → Int,
      ((s.conss.set j r.2).map (fun c => f c.stats)).sum =
        (s.conss.map (fun c => f c.stats)).sum - f c.stats + f r.2.stats :=
    fun f => sum_map_set (fun c => f c.stats) s.conss j c r.2 hp
  have same : (r.1.buf = s.sh.buf ∧ r.2.stats.sumtotal = c.stats.sumtotal ∧
      r.2.stats.matrixtotal = c.stats.matrixtotal) →
      SumInv cfg { s with sh := r.1, conss := s.conss.set j r.2 } := by
    rintro ⟨hb, hst1, hst2⟩
    constructor
    · simp only [prodTotal, hb]; exact hmade
    · simp only [consTotal, key, hst2, hb]; omega
    · simp only [prodTotal, consTotal, key, hst1, hb]; omega
  cases consStep_effect h with
  | quiet hbuf hE hF hpc hsum hmat => exact same ⟨hbuf, hsum, hmat⟩
  | wait hw hbuf hE hF hst => exact same ⟨hbuf, by rw [hst], by rw [hst]⟩
  | finish hpc hbuf hE hF hpc2 hst => exact same ⟨hbuf, by rw [hst], by rw [hst]⟩
  | get hpc hlt hbuf hE hF hpc2 hsum hmat =>
    have hpos := (hinv.consOK j c hp).avail hpc hlt
    have hlive := live_get _ _ hinv.ring hpos
    rw [hlive] at hsums
    constructor
    · simp only [prodTotal, hbuf, get]; exact hmade
    · simp only [consTotal, key, hmat, hbuf, get, increment_cnt]; omega
    · simp only [prodTotal, consTotal, key, hsum, hbuf]
      simp only [List.map_cons, List.sum_cons] at hsums
      omega

theorem sumInv_step {cfg : Cfg} {s s' : State} {a : Act} (hinv : Inv cfg s)
    (hs : SumInv cfg s) (h : step cfg s a = some s') : SumInv cfg s' := by
  unfold step at h
  split at h
  · split at h
    · cases h
    · next p hp =>
      obtain ⟨r, hr, rfl⟩ := Option.map_eq_some'.mp h
      exact sumInv_prodStep hinv hs hp hr
  · split at h
    · cases h
    · next c hc =>
      obtain ⟨r, hr, rfl⟩ := Option.map_eq_some'.mp h
      exact sumInv_consStep hinv hs hc hr

theorem sumInv_run {cfg : Cfg} (acts : List Act) : ∀ {s s' : State}, Inv cfg s →
    SumInv cfg s → run cfg acts s = some s' → SumInv cfg s' := by
  induction acts with
  | nil => intro s s' _ hs h; cases h; exact hs
  | cons a rest ih =>
    intro s s' hinv hs h
    simp only [run] at h
    obtain ⟨s1, h1, h2⟩ := Option.bind_eq_some.mp h
    exact ih (inv_step hinv h1) (sumInv_step hinv hs h1) h2

theorem sumInv_reachable {cfg : Cfg} {s : State} (hB : 1 ≤ cfg.BOUNDED_BUFFER_SIZE)
    (hN : 0 ≤ cfg.NUMBER_OF_MATRICES) (h : Reachable cfg s) : SumInv cfg s := by
  obtain ⟨acts, hacts⟩ := h
  exact sumInv_run acts (inv_init cfg hB hN) (sumInv_init cfg) hacts

/-! ## Progress -/

theorem prod_enabled {cfg : Cfg} {s : State} {i : Nat} {a : Act} {p : PLocal}
    {r : Shared × PLocal} (hinv : Inv cfg s) (hp : s.prods[i]? = some p)
    (h : prodStep cfg i a s.sh p = some r) : i ∉ s.sh.emptyQ := by
  intro hmem
  have hpc := (hinv.prodOK i p hp).waits hmem
  simp [prodStep, hpc, hmem] at h

theorem cons_enabled {cfg : Cfg} {s : State} {j : Nat} {a : Act} {c : CLocal}
    {r : Shared × CLocal} (hinv : Inv cfg s) (hp : s.conss[j]? = some c)
    (h : consStep cfg j a s.sh c = some r) : j ∉ s.sh.fullQ := by
  intro hmem
  have hpc := (hinv.consOK j c hp).waits hmem
  unfold consStep at h
  split at h <;> simp_all [CPc.waiting, wakeFull]

theorem activeP_other {s : State} {sh' : Shared} {i k : Nat} {p' : PLocal}
    (h : ActiveP s k) (hne : k ≠ i)
    (hq : ∀ x, x ∈ sh'.emptyQ → x ∈ s.sh.emptyQ ∨ x = i) :
    ActiveP { s with sh := sh', prods := s.prods.set i p' } k := by
  obtain ⟨p, hp, hpc, hnq⟩ := h
  refine ⟨p, ?_, hpc, ?_⟩
  · simp only []
    rw [List.getElem?_set_ne (fun h => hne h.symm)]
    exact hp
  · intro hmem
    rcases hq k hmem with h1 | h1
    · exact hnq h1
    · exact hne h1

theorem activeP_self {s : State} {sh' : Shared} {i : Nat} {p p' : PLocal}
    (hp : s.prods[i]? = some p) (hpc : p'.pc ≠ PPc.done) (hq : i ∉ sh'.emptyQ) :
    ActiveP { s with sh := sh', prods := s.prods.set i p' } i := by
  refine ⟨p', ?_, hpc, hq⟩
  simp only []
  rw [List.getElem?_set_self (List.getElem?_eq_some.mp hp).1]

theorem activeP_keep {s : State} {sh' : Shared} {k : Nat} {cs : List CLocal}
    (h : ActiveP s k) (hq : ∀ x, x ∈ sh'.emptyQ → x ∈ s.sh.emptyQ) :
    ActiveP { s with sh := sh', conss := cs } k := by
  obtain ⟨p, hp, hpc, hnq⟩ := h
  exact ⟨p, hp, hpc, fun hmem => hnq (hq k hmem)⟩

theorem activeC_other {s : State} {sh' : Shared} {j k : Nat} {c' : CLocal}
    (h : ActiveC s k) (hne : k ≠ j) (hq : ∀ x, x ∈ sh'.fullQ → x ∈ s.sh.fullQ ∨ x = j) :
    ActiveC { s with sh := sh', conss := s.conss.set j c' } k := by
  obtain ⟨c, hc, hpc, hnq⟩ := h
  refine ⟨c, ?_, hpc, ?_⟩
  · simp only []
    rw [List.getElem?_set_ne (fun h => hne h.symm)]
    exact hc
  · intro hmem
    rcases hq k hmem with h1 | h1
    · exact hnq h1
    · exact hne h1

theorem activeC_self {s : State} {sh' : Shared} {j : Nat} {c c' : CLocal}
    (hc : s.conss[j]? = some c) (hpc : c'.pc ≠ CPc.done) (hq : j ∉ sh'.fullQ) :
    ActiveC { s with sh := sh', conss := s.conss.set j c' } j := by
  refine ⟨c', ?_, hpc, hq⟩
  simp only []
  rw [List.getElem?_set_self (List.getElem?_eq_some.mp hc).1]

theorem activeC_keep {s : State} {sh' : Shared} {k : Nat} {ps : List PLocal}
    (h : ActiveC s k) (hq : ∀ x, x ∈ sh'.fullQ → x ∈ s.sh.fullQ) :
    ActiveC { s with sh := sh', prods := ps } k := by
  obtain ⟨c, hc, hpc, hnq⟩ := h
  exact ⟨c, hc, hpc, fun hmem => hnq (hq k hmem)⟩

/-- After a `pthread_cond_signal` on `full` some consumer is awake, provided
not everything has been consumed. -/
theorem signal_full_active {cfg : Cfg} {s : State} {sh' : Shared} {ps : List PLocal} {k : Nat}
    (hinv : Inv cfg s) (hC : 1 ≤ cfg.consumers)
    (hlt : s.sh.buf.consumed < cfg.NUMBER_OF_MATRICES)
    (hsig : cond_signal s.sh.fullQ k = some sh'.fullQ) :
    ∃ j, ActiveC { s with sh := sh', prods := ps } j := by
  unfold cond_signal at hsig
  split at hsig
  · next hnil =>
    have h0 : 0 < s.conss.length := by rw [hinv.ncons]; exact hC
    refine ⟨0, s.conss[0], List.getElem?_eq_getElem h0, ?_, ?_⟩
    · intro hd
      have := (hinv.consOK 0 _ (List.getElem?_eq_getElem h0)).fin (by rw [hd]; rfl)
      omega
    · rw [← Option.some.inj hsig]; simp
  · split at hsig
    · next hmem =>
      have hk := hinv.fullLt k hmem
      refine ⟨k, s.conss[k], List.getElem?_eq_getElem hk, ?_, ?_⟩
      · intro hd
        have := (hinv.consOK k _ (List.getElem?_eq_getElem hk)).waits hmem
        rw [hd] at this
        simp [CPc.waiting] at this
      · have : sh'.fullQ = s.sh.fullQ.erase k := (Option.some.inj hsig).symm
        simp only [this]
        exact hinv.fullNodup.not_mem_erase
    · cases hsig

/-- After a `pthread_cond_signal` on `empty` some producer is awake, provided
not everything has been produced. -/
theorem signal_empty_active {cfg : Cfg} {s : State} {sh' : Shared} {cs : List CLocal} {k : Nat}
    (hinv : Inv cfg s) (hP : 1 ≤ cfg.producers)
    (hlt : s.sh.buf.produced < cfg.NUMBER_OF_MATRICES)
    (hsig : cond_signal s.sh.emptyQ k = some sh'.emptyQ) :
    ∃ i, ActiveP { s with sh := sh', conss := cs } i := by
  unfold cond_signal at hsig
  split at hsig
  · next hnil =>
    have h0 : 0 < s.prods.length := by rw [hinv.nprod]; exact hP
    refine ⟨0, s.prods[0], List.getElem?_eq_getElem h0, ?_, ?_⟩
    · intro hd
      have := (hinv.prodOK 0 _ (List.getElem?_eq_getElem h0)).fin (by rw [hd]; rfl)
      omega
    · rw [← Option.some.inj hsig]; simp
  · split at hsig
    · next hmem =>
      have hk := hinv.emptyLt k hmem
      refine ⟨k, s.prods[k], List.getElem?_eq_getElem hk, ?_, ?_⟩
      · intro hd
        have := (hinv.prodOK k _ (List.getElem?_eq_getElem hk)).waits hmem
        rw [hd] at this
        cases this
      · have : sh'.emptyQ = s.sh.emptyQ.erase k := (Option.some.inj hsig).symm
        simp only [this]
        exact hinv.emptyNodup.not_mem_erase
    · cases hsig

theorem liveInv_init (cfg : Cfg) (hP : 1 ≤ cfg.producers) :
    LiveInv cfg (State.init cfg) := by
  constructor
  · simp [State.init, Buf.init]
  · intro _ _
    refine ⟨0, PLocal.init, ?_, by simp [PLocal.init], by simp [State.init]⟩
    simp [State.init, List.getElem?_replicate]
    omega
  · simp [State.init]
  · simp [State.init]

theorem liveInv_prodStep {cfg : Cfg} {s : State} {i : Nat} {a : Act} {p : PLocal}
    {r : Shared × PLocal} (hC : 1 ≤ cfg.consumers) (hinv : Inv cfg s) (hl : LiveInv cfg s)
    (hp : s.prods[i]? = some p) (h : prodStep cfg i a s.sh p = some r) :
    LiveInv cfg { s with sh := r.1, prods := s.prods.set i r.2 } := by
  have hen := prod_enabled hinv hp h
  have hcnt := hinv.ring.2.2.1
  have hbal := hinv.bal
  have hOK := hinv.prodOK i p hp
  cases prodStep_effect h with
  | quiet hbuf hE hF hpc hst =>
    have hPa : ∀ k, ActiveP s k →
        ActiveP { s with sh := r.1, prods := s.prods.set i r.2 } k := by
      intro k hk
      by_cases hki : k = i
      · subst hki; exact activeP_self hp hpc (by rw [hE]; exact hen)
      · exact activeP_other hk hki (fun x hx => Or.inl (by rw [hE] at hx; exact hx))
    have hCa : ∀ k, ActiveC s k →
        ActiveC { s with sh := r.1, prods := s.prods.set i r.2 } k :=
      fun k hk => activeC_keep hk hF
    constructor
    · intro h1
      simp only [hbuf] at h1
      obtain ⟨k, hk⟩ := hl.data h1
      exact ⟨k, hCa k hk⟩
    · intro h1 h2
      simp only [hbuf] at h1 h2
      obtain ⟨k, hk⟩ := hl.space h1 h2
      exact ⟨k, hPa k hk⟩
    · intro h1 h2
      simp only [hbuf, hE] at h1 h2
      obtain ⟨k, hk⟩ := hl.drainE h1 h2
      exact ⟨k, hCa k hk⟩
    · intro h1 h2
      simp only [hbuf] at h1
      have h3 : s.sh.fullQ ≠ [] := by
        intro hnil
        apply h2
        apply List.eq_nil_iff_forall_not_mem.mpr
        intro x hx
        have := hF x hx
        rw [hnil] at this
        cases this
      obtain ⟨k, hk⟩ := hl.drainF h1 h3
      exact ⟨k, hPa k hk⟩
  | wait hpc hfull hlt hbuf hE hF hst =>
    constructor
    · intro h1
      simp only [hbuf] at h1
      obtain ⟨k, hk⟩ := hl.data h1
      exact ⟨k, activeC_keep hk (fun x hx => by rw [hF] at hx; exact hx)⟩
    · intro h1 h2
      simp only [hbuf] at h1
      omega
    · intro h1 h2
      simp only [hbuf] at h1
      omega
    · intro h1 h2
      simp only [hbuf] at h1
      omega
  | put hpc hlt hbuf hE hF hpc2 hsum hmat =>
    have hself : ActiveP { s with sh := r.1, prods := s.prods.set i r.2 } i :=
      activeP_self hp (by rw [hpc2]; simp) (by rw [hE]; exact hen)
    constructor
    · intro _
      exact signal_full_active hinv hC (by omega) hF
    · intro _ _
      exact ⟨i, hself⟩
    · intro h1 h2
      simp only [hbuf, put] at h1
      omega
    · intro _ _
      exact ⟨i, hself⟩
  | finish hpc hbuf hE hF hpc2 hst =>
    have hfin := hOK.fin (by rw [hpc]; rfl)
    have hCa : ∀ k, ActiveC s k →
        ActiveC { s with sh := r.1, prods := s.prods.set i r.2 } k :=
      fun k hk => activeC_keep hk (fun x hx => by rw [hF] at hx; cases hx)
    constructor
    · intro h1
      simp only [hbuf] at h1
      obtain ⟨k, hk⟩ := hl.data h1
      exact ⟨k, hCa k hk⟩
    · intro h1 h2
      simp only [hbuf] at h2
      omega
    · intro h1 h2
      simp only [hbuf, hE] at h1 h2
      obtain ⟨k, hk⟩ := hl.drainE h1 h2
      exact ⟨k, hCa k hk⟩
    · intro h1 h2
      exact (h2 hF).elim

theorem liveInv_consStep {cfg : Cfg} {s : State} {j : Nat} {a : Act} {c : CLocal}
    {r : Shared × CLocal} (hP : 1 ≤ cfg.producers) (hinv : Inv cfg s) (hl : LiveInv cfg s)
    (hp : s.conss[j]? = some c) (h : consStep cfg j a s.sh c = some r) :
    LiveInv cfg { s with sh := r.1, conss := s.conss.set j r.2 } := by
  have hen := cons_enabled hinv hp h
  have hcnt := hinv.ring.2.2.1
  have hbal := hinv.bal
  have hle := hinv.prodLe
  have hOK := hinv.consOK j c hp
  cases consStep_effect h with
  | quiet hbuf hE hF hpc hsum hmat =>
    have hCa : ∀ k, ActiveC s k →
        ActiveC { s with sh := r.1, conss := s.conss.set j r.2 } k := by
      intro k hk
      by_cases hkj : k = j
      · subst hkj; exact activeC_self hp hpc (by rw [hF]; exact hen)
      · exact activeC_other hk hkj (fun x hx => Or.inl (by rw [hF] at hx; exact hx))
    have hPa : ∀ k, ActiveP s k →
        ActiveP { s with sh := r.1, conss := s.conss.set j r.2 } k :=
      fun k hk => activeP_keep hk (fun x hx => by rw [hE] at hx; exact hx)
    constructor
    · intro h1
      simp only [hbuf] at h1
      obtain ⟨k, hk⟩ := hl.data h1
      exact ⟨k, hCa k hk⟩
    · intro h1 h2
      simp only [hbuf] at h1 h2
      obtain ⟨k, hk⟩ := hl.space h1 h2
      exact ⟨k, hPa k hk⟩
    · intro h1 h2
      simp only [hbuf, hE] at h1 h2
      obtain ⟨k, hk⟩ := hl.drainE h1 h2
      exact ⟨k, hCa k hk⟩
    · intro h1 h2
      simp only [hbuf, hF] at h1 h2
      obtain ⟨k, hk⟩ := hl.drainF h1 h2
      exact ⟨k, hPa k hk⟩
  | wait hw hbuf hE hF hst =>
    obtain ⟨hw1, hw2⟩ := hw
    simp only [get_cnt] at hw1 hw2
    constructor
    · intro h1
      simp only [hbuf] at h1
      omega
    · intro h1 h2
      simp only [hbuf] at h1 h2
      obtain ⟨k, hk⟩ := hl.space h1 h2
      exact ⟨k, activeP_keep hk (fun x hx => by rw [hE] at hx; exact hx)⟩
    · intro h1 h2
      simp only [hbuf] at h1
      omega
    · intro h1 h2
      simp only [hbuf] at h1
      omega
  | get hpc hlt hbuf hE hF hpc2 hsum hmat =>
    have hself : ActiveC { s with sh := r.1, conss := s.conss.set j r.2 } j :=
      activeC_self hp hpc2 (by rw [hF]; exact hen)
    have hPa : ∀ k, ActiveP s k →
        ActiveP { s with sh := r.1, conss := s.conss.set j r.2 } k :=
      fun k hk => activeP_keep hk (cond_signal_mem hE)
    constructor
    · intro _
      exact ⟨j, hself⟩
    · intro h1 h2
      simp only [hbuf, get] at h2
      exact signal_empty_active hinv hP h2 hE
    · intro _ _
      exact ⟨j, hself⟩
    · intro h1 h2
      simp only [hbuf, hF, get] at h1 h2
      obtain ⟨k, hk⟩ := hl.drainF h1 h2
      exact ⟨k, hPa k hk⟩
  | finish hpc hbuf hE hF hpc2 hst =>
    have hfin := hOK.fin (by rw [hpc]; rfl)
    have hPa : ∀ k, ActiveP s k →
        ActiveP { s with sh := r.1, conss := s.conss.set j r.2 } k :=
      fun k hk => activeP_keep hk (fun x hx => by rw [hE] at hx; cases hx)
    constructor
    · intro h1
      simp only [hbuf] at h1
      omega
    · intro h1 h2
      simp only [hbuf] at h1 h2
      obtain ⟨k, hk⟩ := hl.space h1 h2
      exact ⟨k, hPa k hk⟩
    · intro h1 h2
      exact (h2 hE).elim
    · intro h1 h2
      simp only [hbuf, hF] at h1 h2
      obtain ⟨k, hk⟩ := hl.drainF h1 h2
      exact ⟨k, hPa k hk⟩

theorem liveInv_step {cfg : Cfg} {s s' : State} {a : Act} (hP : 1 ≤ cfg.producers)
    (hC : 1 ≤ cfg.consumers) (hinv : Inv cfg s) (hl : LiveInv cfg s)
    (h : step cfg s a = some s') : LiveInv cfg s' := by
  unfold step at h
  split at h
  · split at h
    · cases h
    · next p hp =>
      obtain ⟨r, hr, rfl⟩ := Option.map_eq_some'.mp h
      exact liveInv_prodStep hC hinv hl hp hr
  · split at h
    · cases h
    · next c hc =>
      obtain ⟨r, hr, rfl⟩ := Option.map_eq_some'.mp h
      exact liveInv_consStep hP hinv hl hc hr

theorem liveInv_run {cfg : Cfg} (hP : 1 ≤ cfg.producers) (hC : 1 ≤ cfg.consumers)
    (acts : List Act) : ∀ {s s' : State}, Inv cfg s → LiveInv cfg s →
    run cfg acts s = some s' → LiveInv cfg s' := by
  induction acts with
  | nil => intro s s' _ hs h; cases h; exact hs
  | cons a rest ih =>
    intro s s' hinv hs h
    simp only [run] at h
    obtain ⟨s1, h1, h2⟩ := Option.bind_eq_some.mp h
    exact ih (inv_step hinv h1) (liveInv_step hP hC hinv hs h1) h2

theorem liveInv_reachable {cfg : Cfg} {s : State} (hB : 1 ≤ cfg.BOUNDED_BUFFER_SIZE)
    (hN : 0 ≤ cfg.NUMBER_OF_MATRICES) (hP : 1 ≤ cfg.producers) (hC : 1 ≤ cfg.consumers)
    (h : Reachable cfg s) : LiveInv cfg s := by
  obtain ⟨acts, hacts⟩ := h
  exact liveInv_run hP hC acts (inv_init cfg hB hN) (liveInv_init cfg hP) hacts

/-! ## The claims about reachable states -/

theorem scenarioFinal_reachable : Reachable scenarioCfg scenarioFinal :=
  ⟨scenarioSchedule, by rfl⟩

theorem scenarioAtPut_reachable : Reachable scenarioCfg scenarioAtPut :=
  ⟨List.replicate 4 (pAct 0), by rfl⟩

theorem scenarioProducerWaits_reachable : Reachable scenarioCfg scenarioProducerWaits :=
  ⟨List.replicate 10 (pAct 0), by rfl⟩

theorem getElem?_zero_mem {α : Type} (l : List α) (h : 1 ≤ l.length) :
    ∃ x, l[0]? = some x ∧ x ∈ l := by
  cases l with
  | nil => simp at h
  | cons a t => exact ⟨a, by simp, List.mem_cons_self a t⟩

/-- When all workers have terminated both counters have reached the target and
the buffer is empty. -/
theorem allDone_counters {cfg : Cfg} {s : State} (hinv : Inv cfg s)
    (hP : 1 ≤ cfg.producers) (hC : 1 ≤ cfg.consumers) (hd : AllDone s) :
    s.sh.buf.produced = cfg.NUMBER_OF_MATRICES ∧
      s.sh.buf.consumed = cfg.NUMBER_OF_MATRICES ∧ s.sh.buf.count = 0 := by
  obtain ⟨p, hp, hpm⟩ := getElem?_zero_mem s.prods (by rw [hinv.nprod]; exact hP)
  obtain ⟨c, hc, hcm⟩ := getElem?_zero_mem s.conss (by rw [hinv.ncons]; exact hC)
  have h1 := (hinv.prodOK 0 p hp).fin (by rw [hd.1 p hpm]; rfl)
  have h2 := (hinv.consOK 0 c hc).fin (by rw [hd.2 c hcm]; rfl)
  have h3 := hinv.prodLe
  have h4 := hinv.bal
  have h5 := hinv.ring.2.2.1
  omega

/-- C1. In every reachable state the `produced` counter is at most
`NUMBER_OF_MATRICES`, also when several producers race; and once all workers
have terminated, the sum of the producers' `matrixtotal`, the sum of the
consumers' `matrixtotal`, the `produced` counter and the `consumed` counter
are all equal to `NUMBER_OF_MATRICES`. -/
theorem totals_reach_target (cfg : Cfg) (s : State)
    (hB : 1 ≤ cfg.BOUNDED_BUFFER_SIZE) (hN : 0 ≤ cfg.NUMBER_OF_MATRICES)
    (hP : 1 ≤ cfg.producers) (hC : 1 ≤ cfg.consumers) (hr : Reachable cfg s) :
    s.sh.buf.produced ≤ cfg.NUMBER_OF_MATRICES ∧
    (AllDone s →
      prodTotal (fun st => st.matrixtotal) s = cfg.NUMBER_OF_MATRICES ∧
      consTotal (fun st => st.matrixtotal) s = cfg.NUMBER_OF_MATRICES ∧
      s.sh.buf.produced = cfg.NUMBER_OF_MATRICES ∧
      s.sh.buf.consumed = cfg.NUMBER_OF_MATRICES) := by
  have hinv := inv_reachable hB hN hr
  have hs := sumInv_reachable hB hN hr
  refine ⟨hinv.prodLe, fun hd => ?_⟩
  obtain ⟨h1, h2, _⟩ := allDone_counters hinv hP hC hd
  exact ⟨by rw [hs.made, h1], by rw [hs.used, h2], h1, h2⟩

theorem totals_reach_target_witness :
    Reachable scenarioCfg scenarioFinal ∧ AllDone scenarioFinal ∧
      prodTotal (fun st => st.matrixtotal) scenarioFinal = 4 ∧
      consTotal (fun st => st.matrixtotal) scenarioFinal = 4 ∧
      scenarioFinal.sh.buf.produced = 4 ∧ scenarioFinal.sh.buf.consumed = 4 :=
  ⟨scenarioFinal_reachable, by decide,
    (totals_reach_target scenarioCfg scenarioFinal (by decide) (by decide) (by decide)
      (by decide) scenarioFinal_reachable).2 (by decide)⟩

/-- C2. In every reachable state the sum of the producers' `sumtotal` equals
the sum of the consumers' `sumtotal` plus the element sums of the matrices
live in the buffer; once all workers have terminated the two sums are equal. -/
theorem sums_reconcile (cfg : Cfg) (s : State)
    (hB : 1 ≤ cfg.BOUNDED_BUFFER_SIZE) (hN : 0 ≤ cfg.NUMBER_OF_MATRICES)
    (hP : 1 ≤ cfg.producers) (hC : 1 ≤ cfg.consumers) (hr : Reachable cfg s) :
    prodTotal (fun st => st.sumtotal) s =
      consTotal (fun st => st.sumtotal) s +
        ((live cfg.BOUNDED_BUFFER_SIZE s.sh.buf).map SumMatrix).sum ∧
    (AllDone s →
      prodTotal (fun st => st.sumtotal) s = consTotal (fun st => st.sumtotal) s) := by
  have hinv := inv_reachable hB hN hr
  have hs := sumInv_reachable hB hN hr
  refine ⟨hs.sums, fun hd => ?_⟩
  obtain ⟨_, _, h0⟩ := allDone_counters hinv hP hC hd
  have := hs.sums
  simp only [live, h0, Int.toNat_zero, List.range_zero, List.map_nil, List.sum_nil,
    add_zero] at this
  exact this

theorem sums_reconcile_witness :
    Reachable scenarioCfg scenarioFinal ∧ AllDone scenarioFinal ∧
      prodTotal (fun st => st.sumtotal) scenarioFinal = 12 ∧
      prodTotal (fun st => st.sumtotal) scenarioFinal =
        consTotal (fun st => st.sumtotal) scenarioFinal :=
  ⟨scenarioFinal_reachable, by decide, by decide,
    (sums_reconcile scenarioCfg scenarioFinal (by decide) (by decide) (by decide)
      (by decide) scenarioFinal_reachable).2 (by decide)⟩

/-- C3. In every reachable state the in-buffer counter lies between 0 and
`BOUNDED_BUFFER_SIZE`, equals `produced - consumed`, and is the number of live
entries from the `use` cursor up to the `fill` cursor; and every step from such
a state either leaves the buffer alone, or is a `put` executed with
`count < BOUNDED_BUFFER_SIZE` that appends its argument to the live entries, or
is a `get` executed with `count > 0` that removes the oldest live entry. -/
theorem count_within_capacity (cfg : Cfg) (s : State)
    (hB : 1 ≤ cfg.BOUNDED_BUFFER_SIZE) (hN : 0 ≤ cfg.NUMBER_OF_MATRICES)
    (hr : Reachable cfg s) :
    (0 ≤ s.sh.buf.count ∧ s.sh.buf.count ≤ cfg.BOUNDED_BUFFER_SIZE ∧
      s.sh.buf.count = s.sh.buf.produced - s.sh.buf.consumed ∧
      (live cfg.BOUNDED_BUFFER_SIZE s.sh.buf).length = s.sh.buf.count.toNat ∧
      s.sh.buf.use < cfg.BOUNDED_BUFFER_SIZE ∧
      s.sh.buf.fill = (s.sh.buf.use + s.sh.buf.count.toNat) % cfg.BOUNDED_BUFFER_SIZE) ∧
    ∀ a s', step cfg s a = some s' →
      s'.sh.buf = s.sh.buf ∨
      (s.sh.buf.count < cfg.BOUNDED_BUFFER_SIZE ∧
        ∃ v, s'.sh.buf = (put cfg.BOUNDED_BUFFER_SIZE s.sh.buf v).1 ∧
          live cfg.BOUNDED_BUFFER_SIZE s'.sh.buf =
            live cfg.BOUNDED_BUFFER_SIZE s.sh.buf ++ [v]) ∨
      (0 < s.sh.buf.count ∧
        s'.sh.buf = (get cfg.BOUNDED_BUFFER_SIZE s.sh.buf).1 ∧
        live cfg.BOUNDED_BUFFER_SIZE s.sh.buf =
          (get cfg.BOUNDED_BUFFER_SIZE s.sh.buf).2 ::
            live cfg.BOUNDED_BUFFER_SIZE s'.sh.buf) := by
  have hinv := inv_reachable hB hN hr
  obtain ⟨hlen, huse, h0, hcap, hfill⟩ := hinv.ring
  refine ⟨⟨h0, hcap, ?_, by simp [live], huse, hfill⟩, ?_⟩
  · have := hinv.bal; omega
  · intro a s' h
    unfold step at h
    split at h
    · split at h
      · cases h
      · next p hp =>
        obtain ⟨r, hr, rfl⟩ := Option.map_eq_some'.mp h
        cases prodStep_effect hr with
        | quiet hbuf hE hF hpc hst => exact Or.inl hbuf
        | wait hpc hfull hlt hbuf hE hF hst => exact Or.inl hbuf
        | finish hpc hbuf hE hF hpc2 hst => exact Or.inl hbuf
        | put hpc hlt hbuf hE hF hpc2 hsum hmat =>
          have hroom := (hinv.prodOK _ p hp).room hpc hlt
          refine Or.inr (Or.inl ⟨hroom, p.m, hbuf, ?_⟩)
          simp only [hbuf]
          exact live_put _ _ p.m hinv.ring hroom
    · split at h
      · cases h
      · next c hc =>
        obtain ⟨r, hr, rfl⟩ := Option.map_eq_some'.mp h
        cases consStep_effect hr with
        | quiet hbuf hE hF hpc hsum hmat => exact Or.inl hbuf
        | wait hw hbuf hE hF hst => exact Or.inl hbuf
        | finish hpc hbuf hE hF hpc2 hst => exact Or.inl hbuf
        | get hpc hlt hbuf hE hF hpc2 hsum hmat =>
          have hpos := (hinv.consOK _ c hc).avail hpc hlt
          refine Or.inr (Or.inr ⟨hpos, hbuf, ?_⟩)
          simp only [hbuf]
          exact live_get _ _ hinv.ring hpos

theorem count_within_capacity_witness :
    Reachable scenarioCfg scenarioAtPut ∧
      (0 ≤ scenarioAtPut.sh.buf.count ∧ scenarioAtPut.sh.buf.count ≤ (1 : Nat) ∧
        scenarioAtPut.sh.buf.count =
          scenarioAtPut.sh.buf.produced - scenarioAtPut.sh.buf.consumed ∧
        (live 1 scenarioAtPut.sh.buf).length = scenarioAtPut.sh.buf.count.toNat ∧
        scenarioAtPut.sh.buf.use < 1 ∧
        scenarioAtPut.sh.buf.fill =
          (scenarioAtPut.sh.buf.use + scenarioAtPut.sh.buf.count.toNat) % 1) ∧
      (step scenarioCfg scenarioAtPut (pAct 0)).map (fun s' => s'.sh.buf.count) = some 1 :=
  ⟨scenarioAtPut_reachable,
    (count_within_capacity scenarioCfg scenarioAtPut (by decide) (by decide)
      scenarioAtPut_reachable).1, by decide⟩

/-- A reachable state in which every worker has terminated or is blocked in
`pthread_cond_wait` is a state in which every worker has terminated. -/
theorem allBlocked_allDone {cfg : Cfg} {s : State}
    (hB : 1 ≤ cfg.BOUNDED_BUFFER_SIZE) (hN : 0 ≤ cfg.NUMBER_OF_MATRICES)
    (hP : 1 ≤ cfg.producers) (hC : 1 ≤ cfg.consumers) (hr : Reachable cfg s)
    (hb : AllBlocked s) : AllDone s := by
  by_contra hnd
  obtain ⟨hbp, hbc⟩ := hb
  have hinv := inv_reachable hB hN hr
  have hl := liveInv_reachable hB hN hP hC hr
  have noP : ∀ i, ¬ ActiveP s i := by
    rintro i ⟨p, hp, hpc, hq⟩
    rcases hbp i p hp with h | ⟨_, h⟩
    · exact hpc h
    · exact hq h
  have noC : ∀ j, ¬ ActiveC s j := by
    rintro j ⟨c, hc, hpc, hq⟩
    rcases hbc j c hc with h | ⟨_, h⟩
    · exact hpc h
    · exact hq h
  have hcnt : s.sh.buf.count = 0 := by
    by_contra hne
    have hpos : 0 < s.sh.buf.count := by have := hinv.ring.2.2.1; omega
    obtain ⟨j, hj⟩ := hl.data hpos
    exact noC j hj
  have hprod : cfg.NUMBER_OF_MATRICES ≤ s.sh.buf.produced := by
    by_contra hlt
    obtain ⟨i, hi⟩ := hl.space (by rw [hcnt]; exact_mod_cast hB) (by omega)
    exact noP i hi
  have hcons : cfg.NUMBER_OF_MATRICES ≤ s.sh.buf.consumed := by
    have := hinv.bal; omega
  apply hnd
  constructor
  · intro p hpm
    obtain ⟨i, hp⟩ := List.mem_iff_getElem?.mp hpm
    rcases hbp i p hp with h | ⟨_, h⟩
    · exact h
    · obtain ⟨j, hj⟩ := hl.drainE hcons (List.ne_nil_of_mem h)
      exact (noC j hj).elim
  · intro c hcm
    obtain ⟨j, hc⟩ := List.mem_iff_getElem?.mp hcm
    rcases hbc j c hc with h | ⟨_, h⟩
    · exact h
    · obtain ⟨i, hi⟩ := hl.drainF hprod (List.ne_nil_of_mem h)
      exact (noP i hi).elim

/-! ## The buffer interface alone -/

/-- C7. Postcondition of `put` and `get` on a buffer of `cap >= 1` slots with
both cursors below `cap`: `put` stores its argument in slot `fill`, advances
`fill` modulo `cap`, adds exactly 1 to `count` and to `produced`, returns 1
and leaves `use`, `consumed` and every other slot unchanged; `get` returns the
handle in slot `use`, advances `use` modulo `cap`, subtracts exactly 1 from
`count`, adds exactly 1 to `consumed` and leaves `fill`, `produced` and all
slots unchanged; both keep the cursors below `cap`. -/
theorem put_get_postcondition (cap : Nat) (b : Buf) (v : MatPtr) (hcap : 1 ≤ cap)
    (hlen : b.bigmatrix.length = cap) (hfill : b.fill < cap) (huse : b.use < cap) :
    ((put cap b v).1.bigmatrix[b.fill]? = some v ∧
      (∀ k, k ≠ b.fill → (put cap b v).1.bigmatrix[k]? = b.bigmatrix[k]?) ∧
      (put cap b v).1.fill = (b.fill + 1) % cap ∧
      (put cap b v).1.count = b.count + 1 ∧
      (put cap b v).1.produced = b.produced + 1 ∧
      (put cap b v).2 = 1 ∧
      (put cap b v).1.use = b.use ∧
      (put cap b v).1.consumed = b.consumed ∧
      (put cap b v).1.fill < cap ∧ (put cap b v).1.use < cap) ∧
    (b.bigmatrix[b.use]? = some (get cap b).2 ∧
      (get cap b).1.use = (b.use + 1) % cap ∧
      (get cap b).1.count = b.count - 1 ∧
      (get cap b).1.consumed = b.consumed + 1 ∧
      (get cap b).1.fill = b.fill ∧
      (get cap b).1.produced = b.produced ∧
      (get cap b).1.bigmatrix = b.bigmatrix ∧
      (get cap b).1.fill < cap ∧ (get cap b).1.use < cap) := by
  have hpos : 0 < cap := hcap
  refine ⟨⟨?_, ?_, rfl, rfl, rfl, rfl, rfl, rfl, Nat.mod_lt _ hpos, huse⟩,
    ⟨?_, rfl, rfl, rfl, rfl, rfl, rfl, hfill, Nat.mod_lt _ hpos⟩⟩
  · simp only [put]
    rw [List.getElem?_set_self (by rw [hlen]; exact hfill)]
  · intro k hk
    simp only [put]
    rw [List.getElem?_set_ne (fun h => hk h.symm)]
  · simp only [get]
    rw [List.getD_eq_getElem?_getD, List.getElem?_eq_getElem (by rw [hlen]; exact huse)]
    rfl

theorem put_get_postcondition_witness :
    (put 2 demoBuf (some ⟨7, 2, 3, 11⟩)).1 =
      { bigmatrix := [none, some ⟨7, 2, 3, 11⟩], fill := 0, use := 1, count := 1,
        produced := 4, consumed := 3 } ∧
    (put 2 demoBuf (some ⟨7, 2, 3, 11⟩)).1.fill < 2 ∧
    (get 2 (put 2 demoBuf (some ⟨7, 2, 3, 11⟩)).1).2 = some ⟨7, 2, 3, 11⟩ :=
  ⟨by decide,
    (put_get_postcondition 2 demoBuf (some ⟨7, 2, 3, 11⟩) (by decide) (by decide)
      (by decide) (by decide)).1.2.2.2.2.2.2.2.2.1, by decide⟩

theorem runOps_fifo_aux (cap : Nat) : ∀ (ops : List Op) (b b' : Buf) (outs : List MatPtr),
    RingOK cap b → runOps cap ops b = some (b', outs) →
    RingOK cap b' ∧ live cap b ++ putArgs ops = outs ++ live cap b' := by
  intro ops
  induction ops with
  | nil =>
    intro b b' outs hR h
    simp only [runOps, Option.some.injEq, Prod.mk.injEq] at h
    obtain ⟨rfl, rfl⟩ := h
    exact ⟨hR, by simp [putArgs]⟩
  | cons op rest ih =>
    intro b b' outs hR h
    cases op with
    | put v =>
      simp only [runOps] at h
      split at h
      · next hlt =>
        obtain ⟨hR', heq⟩ := ih _ b' outs (ringOK_put cap b v hR hlt) h
        refine ⟨hR', ?_⟩
        rw [← heq, live_put cap b v hR hlt]
        simp [putArgs]
      · cases h
    | get =>
      simp only [runOps] at h
      split at h
      · next hpos =>
        obtain ⟨r, hr, hrr⟩ := Option.map_eq_some'.mp h
        obtain ⟨b1, outs1⟩ := r
        simp only [Prod.mk.injEq] at hrr
        obtain ⟨rfl, rfl⟩ := hrr
        obtain ⟨hR', heq⟩ := ih _ b1 outs1 (ringOK_get cap b hR hpos) hr
        refine ⟨hR', ?_⟩
        rw [live_get cap b hR hpos]
        simp only [putArgs, List.cons_append, List.cons.injEq, true_and]
        exact heq
      · cases h

/-- C4. The ring buffer is FIFO: for every capacity `cap >= 1` and every
sequence of `put` and `get` calls from the initial state, each `put` made with
`count < cap` and each `get` with `count > 0`, the results of the `get` calls
are, in order, the arguments of the first `put` calls (the `k`-th `get` returns
the argument of the `k`-th `put`), and what has been put and not yet got is
what is live in the buffer. -/
theorem ring_buffer_fifo (cap : Nat) (ops : List Op) (b : Buf) (outs : List MatPtr)
    (hcap : 1 ≤ cap) (h : runOps cap ops (Buf.init cap) = some (b, outs)) :
    putArgs ops = outs ++ live cap b ∧
      (∀ k, k < outs.length → outs[k]? = (putArgs ops)[k]?) := by
  obtain ⟨_, heq⟩ := runOps_fifo_aux cap ops _ b outs (ringOK_init cap hcap) h
  rw [live_init, List.nil_append] at heq
  refine ⟨heq, fun k hk => ?_⟩
  rw [heq, List.getElem?_append_left hk]

theorem ring_buffer_fifo_witness :
    runOps 2 demoOps (Buf.init 2) = some (demoOpsBuf, demoOpsOut) ∧
    demoOpsBuf.fill = 1 ∧ demoOpsBuf.use = 1 ∧
    putArgs demoOps = demoOpsOut ++ live 2 demoOpsBuf :=
  ⟨by decide, by decide, by decide,
    (ring_buffer_fifo 2 demoOps demoOpsBuf demoOpsOut (by decide) (by decide)).1⟩

/-! ## The consumer alone -/

theorem consRun_add (cfg : Cfg) (j : Nat) (a : Act) (n m : Nat) (x : Shared × CLocal) :
    consRun cfg j a (n + m) x = (consRun cfg j a n x).bind (consRun cfg j a m) := by
  induction n generalizing x with
  | zero => simp [consRun]
  | succ n ih =>
    rw [Nat.add_right_comm, consRun, consRun]
    cases h : consStep cfg j a x.1 x.2 with
    | none => simp
    | some y => simp [ih]

/-- One failed pairing attempt: from the multiplication of `m1` with an
incompatible `m2` to the multiplication with the next matrix of the buffer. -/
theorem consRun_discard (cfg : Cfg) (j : Nat) (a : Act) (sh : Shared) (c : CLocal)
    (A X : Matrix) (hpc : c.pc = CPc.mult) (hm1 : c.m1 = some A) (hm2 : c.m2 = some X)
    (hinc : A.cols ≠ X.rows) (hpos : 0 < sh.buf.count)
    (hlt : sh.buf.consumed < cfg.NUMBER_OF_MATRICES) (hE : sh.emptyQ = []) :
    consRun cfg j a 6 (sh, c) =
      some ({ sh with
              buf := (get cfg.BOUNDED_BUFFER_SIZE sh.buf).1
              trace := sh.trace ++ [Event.mul (some A.id) (some X.id) none, Event.free X.id,
                Event.get (get cfg.BOUNDED_BUFFER_SIZE sh.buf).2] },
            { c with
              pc := CPc.mult
              m2 := (get cfg.BOUNDED_BUFFER_SIZE sh.buf).2
              m3 := none
              stats := { c.stats with
                sumtotal := c.stats.sumtotal +
                  SumMatrix (get cfg.BOUNDED_BUFFER_SIZE sh.buf).2
                matrixtotal := c.stats.matrixtotal + 1 } }) := by
  have hne : sh.buf.count ≠ 0 := by omega
  simp [consRun, consStep, hpc, hm1, hm2, MatrixMultiply, hinc, FreeMatrix, consMustWait,
    consFinished, get_cnt, hne, hlt, withdraw, cond_signal, hE]

theorem live_pos {cap : Nat} {b : Buf} {x : MatPtr} {l : List MatPtr}
    (h : live cap b = x :: l) : 0 < b.count := by
  have h1 : (live cap b).length = b.count.toNat := by simp [live]
  rw [h] at h1
  simp at h1
  omega

/-- The discard loop (lines 127-155): starting at the multiplication of `A`
with the first of the matrices `Bs ++ [C]`, the others still in the buffer, the
consumer discards every matrix of `Bs` and arrives at the multiplication of `A`
with `C`. -/
theorem consRun_discards (cfg : Cfg) (j : Nat) (a : Act) (A C : Matrix) (rest : List MatPtr) :
    ∀ (Bs : List Matrix) (sh : Shared) (c : CLocal) (pre : List Event) (bs bm : Int),
      c.pc = CPc.mult → c.m1 = some A → c.m3 = none →
      RingOK cfg.BOUNDED_BUFFER_SIZE sh.buf →
      c.m2 :: live cfg.BOUNDED_BUFFER_SIZE sh.buf = (Bs ++ [C]).map some ++ rest →
      sh.buf.consumed + Bs.length ≤ cfg.NUMBER_OF_MATRICES → sh.emptyQ = [] →
      (∀ b ∈ Bs, A.cols ≠ b.rows) →
      sh.trace = pre ++ [Event.get c.m2] →
      c.stats.sumtotal = bs + SumMatrix c.m2 → c.stats.matrixtotal = bm + 1 →
      ∃ b' tr' st',
        consRun cfg j a (6 * Bs.length) (sh, c) =
          some ({ sh with buf := b', trace := tr' },
                { c with pc := CPc.mult, m2 := some C, m3 := none, stats := st' }) ∧
        RingOK cfg.BOUNDED_BUFFER_SIZE b' ∧ live cfg.BOUNDED_BUFFER_SIZE b' = rest ∧
        b'.consumed = sh.buf.consumed + Bs.length ∧ b'.produced = sh.buf.produced ∧
        b'.fill = sh.buf.fill ∧ b'.bigmatrix = sh.buf.bigmatrix ∧
        tr' = pre ++ Bs.flatMap (discardEvents A) ++ [Event.get (some C)] ∧
        st'.sumtotal = bs + (Bs.map (fun b => b.sum)).sum + C.sum ∧
        st'.matrixtotal = bm + Bs.length + 1 ∧ st'.multtotal = c.stats.multtotal := by
  intro Bs
  induction Bs with
  | nil =>
    intro sh c pre bs bm hpc hm1 hm3 hR hl hN hE hinc htr hs hm
    simp only [List.nil_append, List.map_cons, List.map_nil, List.cons_append,
      List.cons.injEq] at hl
    obtain ⟨hm2, hlive⟩ := hl
    refine ⟨sh.buf, sh.trace, c.stats, ?_, hR, hlive, by simp, rfl, rfl, rfl, ?_, ?_, ?_, rfl⟩
    · simp only [Nat.mul_zero, List.length_nil, consRun]
      rw [← hpc, ← hm2, ← hm3]
    · simp [htr, hm2]
    · simp [hs, hm2, SumMatrix]
    · simp [hm]
  | cons B Bs ih =>
    intro sh c pre bs bm hpc hm1 hm3 hR hl hN hE hinc htr hs hm
    simp only [List.cons_append, List.map_cons, List.cons.injEq] at hl
    obtain ⟨hm2, hlive⟩ := hl
    have hne : ∃ x l, live cfg.BOUNDED_BUFFER_SIZE sh.buf = x :: l := by
      rw [hlive]
      cases Bs <;> simp
    obtain ⟨x, l, hxl⟩ := hne
    have hpos := live_pos hxl
    have hlg := live_get _ _ hR hpos
    simp only [List.length_cons, Nat.cast_add, Nat.cast_one] at hN
    have hstep := consRun_discard cfg j a sh c A B hpc hm1 hm2
      (hinc B (List.mem_cons_self B Bs)) hpos (by omega) hE
    obtain ⟨b', tr', st', hrun, hR', hl', hc', hp', hf', hb', htr', hs', hm', hmu'⟩ :=
      ih { sh with
            buf := (get cfg.BOUNDED_BUFFER_SIZE sh.buf).1
            trace := sh.trace ++ [Event.mul (some A.id) (some B.id) none, Event.free B.id,
              Event.get (get cfg.BOUNDED_BUFFER_SIZE sh.buf).2] }
         { c with
            pc := CPc.mult
            m2 := (get cfg.BOUNDED_BUFFER_SIZE sh.buf).2
            m3 := none
            stats := { c.stats with
              sumtotal := c.stats.sumtotal +
                SumMatrix (get cfg.BOUNDED_BUFFER_SIZE sh.buf).2
              matrixtotal := c.stats.matrixtotal + 1 } }
        (pre ++ discardEvents A B) (bs + B.sum) (bm + 1) rfl hm1 rfl
        (ringOK_get _ _ hR hpos)
        (by simp only []; rw [← hlg]; exact hlive)
        (by simp only [get, increment_cnt]; omega) hE
        (fun b hb => hinc b (List.mem_cons_of_mem B hb))
        (by simp [htr, hm2, discardEvents])
        (by simp only [hs, hm2, SumMatrix])
        (by simp only [hm])
    refine ⟨b', tr', st', ?_, hR', hl', ?_, ?_, ?_, ?_, ?_, ?_, ?_, ?_⟩
    · rw [show 6 * (B :: Bs).length = 6 + 6 * Bs.length by simp [Nat.mul_add]; omega,
        consRun_add, hstep]
      simp only [Option.some_bind]
      exact hrun
    · simp only [hc', get, increment_cnt, List.length_cons, Nat.cast_add, Nat.cast_one]
      omega
    · simp only [hp', get]
    · simp only [hf', get]
    · simp only [hb', get]
    · simp only [htr', List.flatMap_cons, List.append_assoc]
    · simp only [hs', List.map_cons, List.sum_cons]
      omega
    · simp only [hm', List.length_cons, Nat.cast_add, Nat.cast_one]
      omega
    · simp only [hmu']

/-- Lines 91-125: the consumer enters the loop, withdraws `m1` and `m2` from a
buffer holding at least two matrices and arrives at the multiplication. -/
theorem consRun_entry (cfg : Cfg) (j : Nat) (a : Act) (sh : Shared) (c : CLocal)
    (hpc : c.pc = CPc.loopTest) (hlt : sh.buf.consumed + 1 < cfg.NUMBER_OF_MATRICES)
    (hmx : sh.mutex = none) (hcnt : 1 < sh.buf.count) (hE : sh.emptyQ = []) :
    consRun cfg j a 7 (sh, c) =
      some ({ sh with
              mutex := some (Tid.cons j)
              buf := (get cfg.BOUNDED_BUFFER_SIZE (get cfg.BOUNDED_BUFFER_SIZE sh.buf).1).1
              trace := sh.trace ++ [Event.get (get cfg.BOUNDED_BUFFER_SIZE sh.buf).2,
                Event.get
                  (get cfg.BOUNDED_BUFFER_SIZE (get cfg.BOUNDED_BUFFER_SIZE sh.buf).1).2] },
            { c with
              pc := CPc.mult
              m1 := (get cfg.BOUNDED_BUFFER_SIZE sh.buf).2
              m2 := (get cfg.BOUNDED_BUFFER_SIZE (get cfg.BOUNDED_BUFFER_SIZE sh.buf).1).2
              stats := { c.stats with
                sumtotal := c.stats.sumtotal +
                  SumMatrix (get cfg.BOUNDED_BUFFER_SIZE sh.buf).2 +
                  SumMatrix
                    (get cfg.BOUNDED_BUFFER_SIZE (get cfg.BOUNDED_BUFFER_SIZE sh.buf).1).2
                matrixtotal := c.stats.matrixtotal + 1 + 1 } }) := by
  have h0 : sh.buf.count ≠ 0 := by omega
  have h1 : sh.buf.count ≠ 1 := by omega
  have h1' : ¬ sh.buf.count - 1 = 0 := by omega
  have hlt0 : sh.buf.consumed < cfg.NUMBER_OF_MATRICES := by omega
  simp [consRun, consStep, hpc, consMustWait, consFinished, get_cnt, h0, h1, h1', hlt, hlt0,
    withdraw, cond_signal, hE, mutex_lock, hmx, get, increment_cnt, decrement_cnt]

/-- Lines 125-175 when the matrices are compatible: multiplication, report,
release of the three matrices, unlock. -/
theorem consRun_success (cfg : Cfg) (j : Nat) (a : Act) (sh : Shared) (c : CLocal)
    (A C : Matrix) (hpc : c.pc = CPc.mult) (hm1 : c.m1 = some A) (hm2 : c.m2 = some C)
    (hcomp : A.cols = C.rows) :
    consRun cfg j a 4 (sh, c) =
      some ({ sh with
              mutex := none
              nextId := sh.nextId + 1
              trace := sh.trace ++ [Event.mul (some A.id) (some C.id) (some sh.nextId),
                Event.free sh.nextId, Event.free C.id, Event.free A.id] },
            { c with
              pc := CPc.loopTest
              m1 := none
              m2 := none
              m3 := none
              stats := { c.stats with multtotal := c.stats.multtotal + 1 } }) := by
  simp [consRun, consStep, hpc, hm1, hm2, MatrixMultiply, hcomp, FreeMatrix, mutex_unlock]

theorem list_set_same {α : Type} : ∀ (l : List α) (j : Nat) (x : α),
    l[j]? = some x → l.set j x = l := by
  intro l
  induction l with
  | nil => intro j x h; simp
  | cons a l ih =>
    intro j x h
    cases j with
    | zero => simp at h; simp [h]
    | succ n => simp at h; simp [ih n x h]

/-- A schedule that runs consumer `j` alone is the sequential run of that
consumer on the shared state. -/
theorem run_consRun (cfg : Cfg) (a : Act) (j : Nat) (ha : a.tid = Tid.cons j) :
    ∀ (n : Nat) (s : State) (c : CLocal), s.conss[j]? = some c →
      run cfg (List.replicate n a) s =
        (consRun cfg j a n (s.sh, c)).map
          (fun r => { s with sh := r.1, conss := s.conss.set j r.2 }) := by
  intro n
  induction n with
  | zero =>
    intro s c hc
    simp [run, consRun, list_set_same _ _ _ hc]
  | succ n ih =>
    intro s c hc
    simp only [List.replicate_succ, run, consRun, step, ha, hc]
    cases hstep : consStep cfg j a s.sh c with
    | none => simp
    | some r =>
      have hj : j < s.conss.length := (List.getElem?_eq_some.mp hc).1
      simp only [Option.map_some', Option.some_bind]
      rw [ih _ r.2 (by simp [List.getElem?_set_self hj])]
      simp [List.set_set]

/-- The pairing of lines 91-175 on the consumer alone. -/
theorem consRun_pairing (cfg : Cfg) (j : Nat) (a : Act) (A C : Matrix) (Bs : List Matrix)
    (rest : List MatPtr) (sh : Shared) (c : CLocal)
    (hpc : c.pc = CPc.loopTest) (hm3 : c.m3 = none)
    (hR : RingOK cfg.BOUNDED_BUFFER_SIZE sh.buf)
    (hl : live cfg.BOUNDED_BUFFER_SIZE sh.buf = (A :: Bs ++ [C]).map some ++ rest)
    (hN : sh.buf.consumed + (Bs.length + 2) ≤ cfg.NUMBER_OF_MATRICES)
    (hmx : sh.mutex = none) (hE : sh.emptyQ = [])
    (hinc : ∀ b ∈ Bs, A.cols ≠ b.rows) (hcomp : A.cols = C.rows) :
    ∃ b',
      consRun cfg j a (6 * Bs.length + 11) (sh, c) =
        some ({ sh with
                buf := b'
                nextId := sh.nextId + 1
                trace := sh.trace ++ pairingEvents A Bs C sh.nextId },
              { pc := CPc.loopTest, m1 := none, m2 := none, m3 := none,
                stats := c.stats.add (A.sum + (Bs.map (fun b => b.sum)).sum + C.sum)
                  (Bs.length + 2) 1 }) ∧
      RingOK cfg.BOUNDED_BUFFER_SIZE b' ∧ live cfg.BOUNDED_BUFFER_SIZE b' = rest ∧
      b'.consumed = sh.buf.consumed + (Bs.length + 2) ∧ b'.produced = sh.buf.produced ∧
      b'.fill = sh.buf.fill ∧ b'.bigmatrix = sh.buf.bigmatrix := by
  simp only [List.cons_append, List.map_cons] at hl
  have hpos := live_pos hl
  have hg1 := live_get _ _ hR hpos
  rw [hl] at hg1
  simp only [List.cons.injEq] at hg1
  obtain ⟨hA, hl1⟩ := hg1
  have hR1 := ringOK_get _ _ hR hpos
  have hne : ∃ x l, live cfg.BOUNDED_BUFFER_SIZE (get cfg.BOUNDED_BUFFER_SIZE sh.buf).1 =
      x :: l := by
    rw [← hl1]
    cases Bs <;> simp
  obtain ⟨x, l, hxl⟩ := hne
  have hpos1 := live_pos hxl
  have hg2 := live_get _ _ hR1 hpos1
  have hcnt : 1 < sh.buf.count := by
    simp only [get, decrement_cnt] at hpos1
    omega
  have hentry := consRun_entry cfg j a sh c hpc (by omega) hmx hcnt hE
  obtain ⟨b', tr', st', hrun, hR', hl', hc', hp', hf', hb', htr', hs', hm', hmu'⟩ :=
    consRun_discards cfg j a A C rest Bs
      { sh with
        mutex := some (Tid.cons j)
        buf := (get cfg.BOUNDED_BUFFER_SIZE (get cfg.BOUNDED_BUFFER_SIZE sh.buf).1).1
        trace := sh.trace ++ [Event.get (get cfg.BOUNDED_BUFFER_SIZE sh.buf).2,
          Event.get
            (get cfg.BOUNDED_BUFFER_SIZE (get cfg.BOUNDED_BUFFER_SIZE sh.buf).1).2] }
      { c with
        pc := CPc.mult
        m1 := (get cfg.BOUNDED_BUFFER_SIZE sh.buf).2
        m2 := (get cfg.BOUNDED_BUFFER_SIZE (get cfg.BOUNDED_BUFFER_SIZE sh.buf).1).2
        stats := { c.stats with
          sumtotal := c.stats.sumtotal +
            SumMatrix (get cfg.BOUNDED_BUFFER_SIZE sh.buf).2 +
            SumMatrix
              (get cfg.BOUNDED_BUFFER_SIZE (get cfg.BOUNDED_BUFFER_SIZE sh.buf).1).2
          matrixtotal := c.stats.matrixtotal + 1 + 1 } }
      (sh.trace ++ [Event.get (some A)]) (c.stats.sumtotal + A.sum) (c.stats.matrixtotal + 1)
      rfl hA.symm hm3 (ringOK_get _ _ hR1 hpos1)
      (by simp only []; rw [← hg2]; exact hl1.symm)
      (by simp only [get, increment_cnt]; omega) hE hinc
      (by simp [← hA])
      (by simp only [← hA, SumMatrix])
      rfl
  have hsucc := consRun_success cfg j a
    { sh with mutex := some (Tid.cons j), buf := b', trace := tr' }
    { c with
      pc := CPc.mult
      m1 := (get cfg.BOUNDED_BUFFER_SIZE sh.buf).2
      m2 := some C
      m3 := none
      stats := st' } A C rfl hA.symm rfl hcomp
  refine ⟨b', ?_, hR', hl', ?_, ?_, ?_, ?_⟩
  · rw [show 6 * Bs.length + 11 = 7 + (6 * Bs.length + 4) by omega, consRun_add, hentry]
    simp only [Option.some_bind]
    rw [consRun_add, hrun]
    simp only [Option.some_bind]
    rw [hsucc]
    simp only [Option.some.injEq, Prod.mk.injEq]
    refine ⟨?_, ?_⟩
    · simp [htr', pairingEvents, hmx]
    · simp only [ProdConsStats.add, CLocal.mk.injEq, true_and]
      cases hst : st'
      simp only [hst] at hs' hm' hmu'
      simp only [ProdConsStats.mk.injEq]
      refine ⟨?_, ?_, ?_⟩ <;> omega
  · simp only [hc', get, increment_cnt]; omega
  · simp only [hp', get]
  · simp only [hf', get]
  · simp only [hb', get]

/-- C8. The pairing algorithm of one consumer against a buffer that delivers
`A, B1, ..., Bk, C` where no `Bi` has as many rows as `A` has columns and `C`
has: running the consumer alone from the loop test for `6 k + 11` statements
is possible and ends at the loop test again; the recorded calls are the
withdrawal of `A`, then for each `Bi` in order its withdrawal, the failed
multiplication with the same first matrix `A` and its release, then the
withdrawal of `C`, the multiplication of `A` by `C`, and the release of the
product, of `C` and of `A`; nothing is put into the buffer; `multtotal` has
grown by exactly 1 and `matrixtotal` by exactly `k + 2`; `m1`, `m2` and `m3`
are `NULL` again. -/
theorem pairing_discards_until_compatible (cfg : Cfg) (s : State) (j : Nat) (c : CLocal)
    (a : Act) (A C : Matrix) (Bs : List Matrix) (rest : List MatPtr)
    (ha : a.tid = Tid.cons j) (hc : s.conss[j]? = some c)
    (hpc : c.pc = CPc.loopTest) (hm3 : c.m3 = none)
    (hR : RingOK cfg.BOUNDED_BUFFER_SIZE s.sh.buf)
    (hl : live cfg.BOUNDED_BUFFER_SIZE s.sh.buf = (A :: Bs ++ [C]).map some ++ rest)
    (hN : s.sh.buf.consumed + (Bs.length + 2) ≤ cfg.NUMBER_OF_MATRICES)
    (hmx : s.sh.mutex = none) (hE : s.sh.emptyQ = [])
    (hinc : ∀ b ∈ Bs, A.cols ≠ b.rows) (hcomp : A.cols = C.rows) :
    ∃ s', run cfg (List.replicate (6 * Bs.length + 11) a) s = some s' ∧
      s'.conss[j]? = some
        { pc := CPc.loopTest, m1 := none, m2 := none, m3 := none,
          stats := c.stats.add (A.sum + (Bs.map (fun b => b.sum)).sum + C.sum)
            (Bs.length + 2) 1 } ∧
      s'.sh.trace = s.sh.trace ++ pairingEvents A Bs C s.sh.nextId ∧
      live cfg.BOUNDED_BUFFER_SIZE s'.sh.buf = rest ∧
      s'.sh.buf.consumed = s.sh.buf.consumed + (Bs.length + 2) ∧
      s'.sh.buf.produced = s.sh.buf.produced ∧
      s'.sh.buf.fill = s.sh.buf.fill ∧
      s'.sh.buf.bigmatrix = s.sh.buf.bigmatrix ∧
      s'.sh.mutex = none ∧ s'.prods = s.prods := by
  obtain ⟨b', hrun, _, hl', hc', hp', hf', hb'⟩ :=
    consRun_pairing cfg j a A C Bs rest s.sh c hpc hm3 hR hl hN hmx hE hinc hcomp
  have hj : j < s.conss.length := (List.getElem?_eq_some.mp hc).1
  have hrun2 := run_consRun cfg a j ha (6 * Bs.length + 11) s c hc
  rw [hrun] at hrun2
  simp only [Option.map_some'] at hrun2
  exact ⟨_, hrun2, by simp [List.getElem?_set_self hj], rfl, hl', hc', hp', hf', hb', hmx,
    rfl⟩

theorem pairingStart_reachable : Reachable pairingCfg pairingStart :=
  ⟨pairingStream.flatMap (fun m => List.replicate 6 (genAct 0 m)), by rfl⟩

theorem pairing_discards_until_compatible_witness :
    live 4 pairingStart.sh.buf = pairingStream.map some ∧
    (run pairingCfg (List.replicate 23 (cAct 0)) pairingStart).map
        (fun s => (s.sh.trace.drop 8, s.conss)) =
      some ([Event.get (some ⟨0, 2, 3, 10⟩),
             Event.get (some ⟨1, 2, 2, 20⟩), Event.mul (some 0) (some 1) none, Event.free 1,
             Event.get (some ⟨2, 1, 1, 30⟩), Event.mul (some 0) (some 2) none, Event.free 2,
             Event.get (some ⟨3, 3, 1, 40⟩), Event.mul (some 0) (some 3) (some 4),
             Event.free 4, Event.free 3, Event.free 0],
            [{ pc := CPc.loopTest, m1 := none, m2 := none, m3 := none,
               stats := { sumtotal := 100, matrixtotal := 4, multtotal := 1 } }]) ∧
    ∃ s', run pairingCfg (List.replicate (6 * 2 + 11) (cAct 0)) pairingStart = some s' ∧
      s'.conss[0]? = some
        { pc := CPc.loopTest, m1 := none, m2 := none, m3 := none,
          stats := CLocal.init.stats.add (10 + (20 + (30 + 0)) + 40) ((2 : Nat) + 2) 1 } ∧
      s'.sh.trace = pairingStart.sh.trace ++
        pairingEvents ⟨0, 2, 3, 10⟩ [⟨1, 2, 2, 20⟩, ⟨2, 1, 1, 30⟩] ⟨3, 3, 1, 40⟩ 4 ∧
      live 4 s'.sh.buf = [] ∧
      s'.sh.buf.consumed = pairingStart.sh.buf.consumed + ((2 : Nat) + 2) ∧
      s'.sh.buf.produced = pairingStart.sh.buf.produced ∧
      s'.sh.buf.fill = pairingStart.sh.buf.fill ∧
      s'.sh.buf.bigmatrix = pairingStart.sh.buf.bigmatrix ∧
      s'.sh.mutex = none ∧ s'.prods = pairingStart.prods :=
  ⟨by decide, by decide,
    pairing_discards_until_compatible pairingCfg pairingStart 0 CLocal.init (cAct 0)
      ⟨0, 2, 3, 10⟩ ⟨3, 3, 1, 40⟩ [⟨1, 2, 2, 20⟩, ⟨2, 1, 1, 30⟩] [] rfl (by decide) rfl rfl
      (by decide) (by decide) (by decide) (by decide) (by decide) (by decide) (by decide)⟩

/-- Lines 103-109 or 137-140 followed by lines 178-186: the consumer sees the
buffer empty and everything consumed, releases what it holds, unlocks, locks,
broadcasts `empty`, unlocks and terminates. -/
theorem consRun_finish (cfg : Cfg) (j : Nat) (a : Act) (sh : Shared) (c : CLocal)
    (hpc : c.pc = CPc.check1 ∨ c.pc = CPc.check3) (hcnt : sh.buf.count = 0)
    (hcons : sh.buf.consumed = cfg.NUMBER_OF_MATRICES) :
    consRun cfg j a 5 (sh, c) =
      some ({ sh with
              mutex := none
              emptyQ := []
              trace := FreeMatrix c.m3 (FreeMatrix c.m2 (FreeMatrix c.m1 sh.trace)) },
            { c with pc := CPc.done, m1 := none, m2 := none, m3 := none }) := by
  rcases hpc with hpc | hpc <;>
    simp [consRun, consStep, hpc, consFinished, get_cnt, hcnt, hcons, mutex_unlock,
      mutex_lock, cond_broadcast]

/-- C9. End of stream while holding a lone first matrix: when a consumer that
holds `m1` (and neither `m2` nor `m3`) observes at line 103 or at line 137
that the buffer is empty and that `consumed` equals `NUMBER_OF_MATRICES`, its
next five statements are executable without any other thread and end in
termination: it performs no wait (the wait set `full` is unchanged) and no
`get` (the buffer globals are unchanged), releases `m1` exactly once (the only
recorded call), broadcasts `empty` (its wait set is empty afterwards) and
returns its statistics as they were, `multtotal` included.  Moreover, in every
reachable state a consumer at the label `exit_loop` holds neither `m2` nor
`m3`. -/
theorem lone_first_is_released (cfg : Cfg) (s : State) (j : Nat) (c : CLocal) (a : Act)
    (A : Matrix) (hB : 1 ≤ cfg.BOUNDED_BUFFER_SIZE) (hN : 0 ≤ cfg.NUMBER_OF_MATRICES)
    (ha : a.tid = Tid.cons j) (hc : s.conss[j]? = some c)
    (hpc : c.pc = CPc.check1 ∨ c.pc = CPc.check3)
    (hm1 : c.m1 = some A) (hm2 : c.m2 = none) (hm3 : c.m3 = none)
    (hcnt : s.sh.buf.count = 0) (hcons : s.sh.buf.consumed = cfg.NUMBER_OF_MATRICES) :
    run cfg (List.replicate 5 a) s =
      some { s with
        sh := { s.sh with
          mutex := none
          emptyQ := []
          trace := s.sh.trace ++ [Event.free A.id] }
        conss := s.conss.set j
          { pc := CPc.done, m1 := none, m2 := none, m3 := none, stats := c.stats } } ∧
    ∀ (s2 : State) (k : Nat) (c2 : CLocal), Reachable cfg s2 → s2.conss[k]? = some c2 →
      c2.pc = CPc.cleanup → c2.m2 = none ∧ c2.m3 = none := by
  constructor
  · rw [run_consRun cfg a j ha 5 s c hc, consRun_finish cfg j a s.sh c hpc hcnt hcons]
    simp [hm1, hm2, hm3, FreeMatrix]
  · intro s2 k c2 hr hc2 hpc2
    exact ((inv_reachable hB hN hr).consOK k c2 hc2).null23 (by rw [hpc2]; rfl)

theorem loneObserved_reachable : Reachable loneCfg loneObserved :=
  ⟨List.replicate 16 (pAct 0) ++ List.replicate 11 (cAct 0) ++
    List.replicate 7 (pAct 0) ++ List.replicate 4 (cAct 0), by rfl⟩

theorem lone_first_is_released_witness :
    loneObserved.conss[0]? = some
      { pc := CPc.check1, m1 := some ⟨2, 2, 2, 3⟩, m2 := none, m3 := none,
        stats := { sumtotal := 9, matrixtotal := 3, multtotal := 1 } } ∧
    loneObserved.sh.buf.count = 0 ∧ loneObserved.sh.buf.consumed = 3 ∧
    run loneCfg (List.replicate 5 (cAct 0)) loneObserved =
      some { loneObserved with
        sh := { loneObserved.sh with
          mutex := none
          emptyQ := []
          trace := loneObserved.sh.trace ++ [Event.free 2] }
        conss := loneObserved.conss.set 0
          { pc := CPc.done, m1 := none, m2 := none, m3 := none,
            stats := { sumtotal := 9, matrixtotal := 3, multtotal := 1 } } } :=
  ⟨by decide, by decide, by decide,
    (lone_first_is_released loneCfg loneObserved 0
      { pc := CPc.check1, m1 := some ⟨2, 2, 2, 3⟩, m2 := none, m3 := none,
        stats := { sumtotal := 9, matrixtotal := 3, multtotal := 1 } }
      (cAct 0) ⟨2, 2, 2, 3⟩ (by decide) (by decide) rfl (by decide) (Or.inl rfl) rfl rfl rfl
      (by decide) (by decide)).1⟩

/-! ## Where the code departs from the specification -/

/-- C5 fails on the code: in the race of two producers for a target of one
matrix all workers terminate, the matrix generated by producer 1 (handle 1) was
never published and `FreeMatrix` was never called on it, while the published
matrix (handle 0) was released exactly once. -/
theorem unpublished_matrix_never_released :
    Reachable raceCfg raceFinal ∧ AllDone raceFinal ∧
      raceFinal.sh.trace = [Event.gen 0, Event.gen 1, Event.put (some ⟨0, 2, 2, 3⟩),
        Event.get (some ⟨0, 2, 2, 3⟩), Event.free 0] ∧
      raceFinal.prods.map (fun p => p.m) = [some ⟨0, 2, 2, 3⟩, some ⟨1, 2, 2, 3⟩] ∧
      freeCount raceFinal 0 = 1 ∧ freeCount raceFinal 1 = 0 :=
  ⟨⟨raceSchedule, by rfl⟩, by decide, by decide, by decide, by decide, by decide⟩

/-- C10 fails on the code: in the capacity 1, target 4 scenario the consumer
reaches the label `exit_loop` from the loop test of line 91, holding no matrix
and not holding the mutex, and its next two statements end with the
`pthread_mutex_unlock` of line 182 executed on a mutex nobody holds. -/
theorem cleanup_unlocks_without_mutex :
    Reachable scenarioCfg scenarioAtExit ∧
      scenarioAtExit.conss.map (fun c => (c.pc, c.m1, c.m2, c.m3)) =
        [(CPc.cleanup, none, none, none)] ∧
      scenarioAtExit.sh.mutex = none ∧
      scenarioAtExit.sh.buf.consumed = 4 ∧
      (run scenarioCfg [cAct 0] scenarioAtExit).map
          (fun s => (s.conss.map (fun c => c.pc), s.sh.mutex)) =
        some ([CPc.cleanupUnlock], none) ∧
      (run scenarioCfg [cAct 0, cAct 0] scenarioAtExit).map
          (fun s => (s.conss.map (fun c => c.pc), s.sh.mutex)) =
        some ([CPc.exitLock], none) :=
  ⟨⟨scenarioSchedule.take 60, by rfl⟩, by decide, by decide, by decide, by decide, by decide⟩

/-- Every withdrawal is made by the holder of the mutex: a consumer about to
execute a `get` has acquired the mutex last. -/
theorem get_holds_mutex (cfg : Cfg) (s : State) (j : Nat) (c : CLocal)
    (hB : 1 ≤ cfg.BOUNDED_BUFFER_SIZE) (hN : 0 ≤ cfg.NUMBER_OF_MATRICES)
    (hr : Reachable cfg s) (hc : s.conss[j]? = some c)
    (hpc : c.pc = CPc.get1 ∨ c.pc = CPc.get2 ∨ c.pc = CPc.get3)
    (hlt : s.sh.buf.consumed < cfg.NUMBER_OF_MATRICES) :
    s.sh.mutex = some (Tid.cons j) := by
  refine ((inv_reachable hB hN hr).consOK j c hc).excl hlt ?_
  rcases hpc with h | h | h <;> rw [h] <;> rfl

/-! ## Every state that is not final has a successor -/

theorem prodStep_mutex {cfg : Cfg} {i : Nat} {a : Act} {sh : Shared} {p : PLocal}
    {r : Shared × PLocal} (h : prodStep cfg i a sh p = some r) :
    r.1.mutex = none ∨ (r.1.mutex = some (Tid.prod i) ∧ r.2.pc.critical = true) ∨
      (r.1.mutex = sh.mutex ∧ (p.pc.critical = true → r.2.pc.critical = true)) := by
  unfold prodStep at h
  split at h
  · next hpc => split at h <;> cases h <;> simp [hpc, PPc.critical]
  · next hpc => cases h; simp [hpc, PPc.critical]
  · obtain ⟨sh1, hl, rfl⟩ := Option.map_eq_some'.mp h
    obtain ⟨hm, rfl⟩ := mutex_lock_some hl
    simp [PPc.critical]
  · next hpc => split at h <;> cases h <;> simp [hpc, PPc.critical, mutex_unlock]
  · split at h
    · cases h
    · obtain ⟨sh1, hl, rfl⟩ := Option.map_eq_some'.mp h
      obtain ⟨hm, rfl⟩ := mutex_lock_some hl
      simp [PPc.critical]
  · next hpc =>
    split at h <;> obtain ⟨q, hq, rfl⟩ := Option.map_eq_some'.mp h <;>
      simp [hpc, PPc.critical]
  · cases h; simp [mutex_unlock]
  · obtain ⟨sh1, hl, rfl⟩ := Option.map_eq_some'.mp h
    obtain ⟨hm, rfl⟩ := mutex_lock_some hl
    simp [PPc.critical]
  · cases h; simp [mutex_unlock]
  · cases h

theorem consStep_mutex {cfg : Cfg} {j : Nat} {a : Act} {sh : Shared} {c : CLocal}
    {r : Shared × CLocal} (h : consStep cfg j a sh c = some r) :
    r.1.mutex = none ∨ (r.1.mutex = some (Tid.cons j) ∧ r.2.pc.holding = true) ∨
      (r.1.mutex = sh.mutex ∧ (c.pc.holding = true → r.2.pc.holding = true)) := by
  unfold consStep at h
  split at h
  all_goals first
    | (cases h; simp_all [CPc.holding, CPc.critical, mutex_unlock])
    | (split at h <;> cases h <;> simp_all [CPc.holding, CPc.critical, mutex_unlock, waitFull])
    | (obtain ⟨sh1, hl, rfl⟩ := Option.map_eq_some'.mp h
       obtain ⟨hm, rfl⟩ := mutex_lock_some hl
       simp [CPc.holding, CPc.critical])
    | (obtain ⟨sh1, hl, rfl⟩ := Option.map_eq_some'.mp h
       unfold wakeFull at hl
       split at hl
       · cases hl
       · obtain ⟨hm, rfl⟩ := mutex_lock_some hl
         simp [CPc.holding, CPc.critical])
    | (split at h
       · obtain ⟨r1, hwd, rfl⟩ := Option.map_eq_some'.mp h
         obtain ⟨q, hq, rfl⟩ := Option.map_eq_some'.mp hwd
         simp_all [CPc.holding, CPc.critical]
       · cases h
         simp_all [CPc.holding, CPc.critical])
    | cases h

theorem holderOK_step {cfg : Cfg} {s s' : State} {a : Act} (hh : HolderOK s)
    (h : step cfg s a = some s') : HolderOK s' := by
  unfold step at h
  split at h
  · next i hi =>
    split at h
    · cases h
    · next p hp =>
      obtain ⟨r, hr, rfl⟩ := Option.map_eq_some'.mp h
      have hi' : i < s.prods.length := (List.getElem?_eq_some.mp hp).1
      rcases prodStep_mutex hr with hm | ⟨hm, hc⟩ | ⟨hm, hc⟩
      · simp [HolderOK, hm]
      · simp only [HolderOK, hm]
        exact ⟨r.2, List.getElem?_set_self hi', hc⟩
      · unfold HolderOK at hh ⊢
        simp only [hm]
        split at hh
        · next hmx => simp [hmx]
        · next k hmx =>
          obtain ⟨q, hq, hqc⟩ := hh
          by_cases hki : i = k
          · subst hki
            rw [hp] at hq
            cases hq
            exact ⟨r.2, List.getElem?_set_self hi', hc hqc⟩
          · exact ⟨q, by rw [List.getElem?_set_ne hki]; exact hq, hqc⟩
        · next k hmx =>
          exact hh
  · next j hj =>
    split at h
    · cases h
    · next c hc =>
      obtain ⟨r, hr, rfl⟩ := Option.map_eq_some'.mp h
      have hj' : j < s.conss.length := (List.getElem?_eq_some.mp hc).1
      rcases consStep_mutex hr with hm | ⟨hm, hcr⟩ | ⟨hm, hcr⟩
      · simp [HolderOK, hm]
      · simp only [HolderOK, hm]
        exact ⟨r.2, List.getElem?_set_self hj', hcr⟩
      · unfold HolderOK at hh ⊢
        simp only [hm]
        split at hh
        · next hmx => simp [hmx]
        · next k hmx =>
          exact hh
        · next k hmx =>
          obtain ⟨q, hq, hqc⟩ := hh
          by_cases hkj : j = k
          · subst hkj
            rw [hc] at hq
            cases hq
            exact ⟨r.2, List.getElem?_set_self hj', hcr hqc⟩
          · exact ⟨q, by rw [List.getElem?_set_ne hkj]; exact hq, hqc⟩

theorem holderOK_reachable {cfg : Cfg} {s : State} (h : Reachable cfg s) : HolderOK s := by
  obtain ⟨acts, hacts⟩ := h
  have hinit : HolderOK (State.init cfg) := by simp [HolderOK, State.init]
  revert hacts hinit
  generalize State.init cfg = s0
  induction acts generalizing s0 with
  | nil => intro hacts hinit; cases hacts; exact hinit
  | cons a rest ih =>
    intro hacts hinit
    simp only [run] at hacts
    obtain ⟨s1, h1, h2⟩ := Option.bind_eq_some.mp hacts
    exact ih s1 h2 (holderOK_step hinit h1)

theorem cond_signal_head (q : List Nat) : ∃ q', cond_signal q (q.headD 0) = some q' := by
  cases q with
  | nil => exact ⟨[], by simp [cond_signal]⟩
  | cons x t => exact ⟨(x :: t).erase x, by simp [cond_signal]⟩

/-- A producer that has not terminated and is not blocked on `empty` can
execute its next statement if the mutex is free or if it is inside its locked
region. -/
theorem prod_can_step (cfg : Cfg) (i : Nat) (sh : Shared) (p : PLocal)
    (hpc : p.pc ≠ PPc.done) (hq : i ∉ sh.emptyQ)
    (hm : sh.mutex = none ∨ p.pc.critical = true) :
    ∃ r, prodStep cfg i (nextAct (Tid.prod i) sh) sh p = some r := by
  obtain ⟨q', hq'⟩ := cond_signal_head sh.fullQ
  unfold prodStep
  split
  all_goals first
    | (split <;> exact ⟨_, rfl⟩)
    | exact ⟨_, rfl⟩
    | (rcases hm with hm | hm
       · simp [mutex_lock, hm, hq]
       · simp_all [PPc.critical])
    | (simp only [nextAct, hq']
       split <;> exact ⟨_, rfl⟩)
    | simp_all

/-- A consumer that has not terminated and is not blocked on `full` can
execute its next statement if the mutex is free or if it is inside its locked
region. -/
theorem cons_can_step (cfg : Cfg) (j : Nat) (sh : Shared) (c : CLocal)
    (hpc : c.pc ≠ CPc.done) (hq : j ∉ sh.fullQ)
    (hm : sh.mutex = none ∨ c.pc.holding = true) :
    ∃ r, consStep cfg j (nextAct (Tid.cons j) sh) sh c = some r := by
  obtain ⟨q', hq'⟩ := cond_signal_head sh.emptyQ
  unfold consStep
  split
  all_goals first
    | (split <;> exact ⟨_, rfl⟩)
    | exact ⟨_, rfl⟩
    | (rcases hm with hm | hm
       · simp [mutex_lock, wakeFull, hm, hq]
       · simp_all [CPc.holding, CPc.critical])
    | (simp only [nextAct, withdraw, hq']
       split <;> exact ⟨_, rfl⟩)
    | simp_all

theorem step_prod_of {cfg : Cfg} {s : State} {i : Nat} {p : PLocal} {r : Shared × PLocal}
    (hp : s.prods[i]? = some p)
    (hr : prodStep cfg i (nextAct (Tid.prod i) s.sh) s.sh p = some r) :
    ∃ a s', step cfg s a = some s' :=
  ⟨nextAct (Tid.prod i) s.sh, _, by simp only [step, nextAct, hp]; rw [← nextAct, hr]; rfl⟩

theorem step_cons_of {cfg : Cfg} {s : State} {j : Nat} {c : CLocal} {r : Shared × CLocal}
    (hc : s.conss[j]? = some c)
    (hr : consStep cfg j (nextAct (Tid.cons j) s.sh) s.sh c = some r) :
    ∃ a s', step cfg s a = some s' :=
  ⟨nextAct (Tid.cons j) s.sh, _, by simp only [step, nextAct, hc]; rw [← nextAct, hr]; rfl⟩

/-- In a reachable state in which some worker has not terminated some thread
can execute its next statement. -/
theorem exists_step {cfg : Cfg} {s : State}
    (hB : 1 ≤ cfg.BOUNDED_BUFFER_SIZE) (hN : 0 ≤ cfg.NUMBER_OF_MATRICES)
    (hP : 1 ≤ cfg.producers) (hC : 1 ≤ cfg.consumers) (hr : Reachable cfg s)
    (hnd : ¬ AllDone s) : ∃ a s', step cfg s a = some s' := by
  have hinv := inv_reachable hB hN hr
  have hh := holderOK_reachable hr
  by_contra hno
  unfold HolderOK at hh
  split at hh
  · next hm =>
    apply hnd
    apply allBlocked_allDone hB hN hP hC hr
    constructor
    · intro i p hp
      by_cases hpc : p.pc = PPc.done
      · exact Or.inl hpc
      · by_cases hq : i ∈ s.sh.emptyQ
        · exact Or.inr ⟨(hinv.prodOK i p hp).waits hq, hq⟩
        · obtain ⟨r, hr'⟩ := prod_can_step cfg i s.sh p hpc hq (Or.inl hm)
          exact (hno (step_prod_of hp hr')).elim
    · intro j c hc
      by_cases hpc : c.pc = CPc.done
      · exact Or.inl hpc
      · by_cases hq : j ∈ s.sh.fullQ
        · exact Or.inr ⟨(hinv.consOK j c hc).waits hq, hq⟩
        · obtain ⟨r, hr'⟩ := cons_can_step cfg j s.sh c hpc hq (Or.inl hm)
          exact (hno (step_cons_of hc hr')).elim
  · next i hm =>
    obtain ⟨p, hp, hcrit⟩ := hh
    have hpc : p.pc ≠ PPc.done := by
      intro h; rw [h] at hcrit; cases hcrit
    have hq : i ∉ s.sh.emptyQ := by
      intro hmem
      have := (hinv.prodOK i p hp).waits hmem
      rw [this] at hcrit
      cases hcrit
    obtain ⟨r, hr'⟩ := prod_can_step cfg i s.sh p hpc hq (Or.inr hcrit)
    exact hno (step_prod_of hp hr')
  · next j hm =>
    obtain ⟨c, hc, hhold⟩ := hh
    have hpc : c.pc ≠ CPc.done := by
      intro h; rw [h] at hhold; cases hhold
    have hq : j ∉ s.sh.fullQ := by
      intro hmem
      have := (hinv.consOK j c hc).waits hmem
      revert this hhold
      cases c.pc <;> simp [CPc.waiting, CPc.holding, CPc.critical]
    obtain ⟨r, hr'⟩ := cons_can_step cfg j s.sh c hpc hq (Or.inr hhold)
    exact hno (step_cons_of hc hr')

/-! ## Every execution is finite -/

theorem cond_signal_length {q q' : List Nat} {k : Nat} (h : cond_signal q k = some q') :
    q'.length ≤ q.length ∧ q.length ≤ q'.length + 1 := by
  unfold cond_signal at h
  split at h
  · next hq => cases h; subst hq; simp
  · split at h
    · next hmem =>
      cases h
      rw [List.length_erase_of_mem hmem]
      have : 0 < q.length := List.length_pos_of_mem hmem
      omega
    · cases h

theorem queue_length_le {q : List Nat} {n : Nat} (hnd : q.Nodup) (hlt : ∀ x ∈ q, x < n) :
    q.length ≤ n := by
  have h := (List.subperm_of_subset hnd (fun x hx => List.mem_range.mpr (hlt x hx))).length_le
  simpa using h

/-- A statement of a producer lowers its rank plus the shared cost. -/
theorem prodStep_decrease {cfg : Cfg} {i : Nat} {a : Act} {sh : Shared} {p : PLocal}
    {r : Shared × PLocal} (K : Int) (hK : 2 * (sh.fullQ.length : Int) ≤ K)
    (h : prodStep cfg i a sh p = some r) :
    sharedCost cfg r.1 +
        rankP K (decide (cfg.NUMBER_OF_MATRICES ≤ r.1.buf.produced)) r.2.pc + 1 ≤
      sharedCost cfg sh +
        rankP K (decide (cfg.NUMBER_OF_MATRICES ≤ r.1.buf.produced)) p.pc ∧
    r.1.buf.consumed = sh.buf.consumed ∧ sh.buf.produced ≤ r.1.buf.produced := by
  unfold prodStep at h
  split at h
  · next hpc =>
    split at h <;> cases h <;> simp only [get_cnt] at * <;>
      refine ⟨?_, ?_, ?_⟩ <;> dsimp only <;>
        (try simp only [hpc, rankP, sharedCost, mutex_unlock, put, increment_cnt,
          cond_broadcast, List.length_append, List.length_singleton, List.length_nil,
          Nat.cast_add, Nat.cast_one, Nat.cast_zero]) <;>
        (try split) <;> (try simp only [decide_eq_true_eq] at *) <;> omega
  · next hpc =>
    cases h
    refine ⟨?_, ?_, ?_⟩ <;> dsimp only <;>
      (try simp only [hpc, rankP, sharedCost, mutex_unlock, put, increment_cnt,
        cond_broadcast, List.length_append, List.length_singleton, List.length_nil,
        Nat.cast_add, Nat.cast_one, Nat.cast_zero]) <;>
      omega
  · next hpc =>
    obtain ⟨sh1, hl, rfl⟩ := Option.map_eq_some'.mp h
    obtain ⟨hm, rfl⟩ := mutex_lock_some hl
    refine ⟨?_, ?_, ?_⟩ <;> dsimp only <;>
      (try simp only [hpc, rankP, sharedCost, mutex_unlock, put, increment_cnt,
        cond_broadcast, List.length_append, List.length_singleton, List.length_nil,
        Nat.cast_add, Nat.cast_one, Nat.cast_zero]) <;>
      omega
  · next hpc =>
    split at h <;> cases h <;> simp only [get_cnt] at * <;>
      refine ⟨?_, ?_, ?_⟩ <;> dsimp only <;>
        (try simp only [hpc, rankP, sharedCost, mutex_unlock, put, increment_cnt,
          cond_broadcast, List.length_append, List.length_singleton, List.length_nil,
          Nat.cast_add, Nat.cast_one, Nat.cast_zero]) <;>
        omega
  · next hpc =>
    split at h
    · cases h
    · obtain ⟨sh1, hl, rfl⟩ := Option.map_eq_some'.mp h
      obtain ⟨hm, rfl⟩ := mutex_lock_some hl
      refine ⟨?_, ?_, ?_⟩ <;> dsimp only <;>
        (try simp only [hpc, rankP, sharedCost, mutex_unlock, put, increment_cnt,
          cond_broadcast, List.length_append, List.length_singleton, List.length_nil,
          Nat.cast_add, Nat.cast_one, Nat.cast_zero]) <;>
        omega
  · next hpc =>
    split at h <;> obtain ⟨q, hq, rfl⟩ := Option.map_eq_some'.mp h <;>
      have hlen := cond_signal_length hq <;> simp only [get_cnt] at * <;>
      refine ⟨?_, ?_, ?_⟩ <;> dsimp only <;>
        (try simp only [hpc, rankP, sharedCost, mutex_unlock, put, increment_cnt,
          cond_broadcast, List.length_append, List.length_singleton, List.length_nil,
          Nat.cast_add, Nat.cast_one, Nat.cast_zero]) <;>
        (try split) <;> (try simp only [decide_eq_true_eq] at *) <;> omega
  · next hpc =>
    cases h
    refine ⟨?_, ?_, ?_⟩ <;> dsimp only <;>
      (try simp only [hpc, rankP, sharedCost, mutex_unlock, put, increment_cnt,
        cond_broadcast, List.length_append, List.length_singleton, List.length_nil,
        Nat.cast_add, Nat.cast_one, Nat.cast_zero]) <;>
      (try split) <;> (try simp only [decide_eq_true_eq] at *) <;> omega
  · next hpc =>
    obtain ⟨sh1, hl, rfl⟩ := Option.map_eq_some'.mp h
    obtain ⟨hm, rfl⟩ := mutex_lock_some hl
    refine ⟨?_, ?_, ?_⟩ <;> dsimp only <;>
      (try simp only [hpc, rankP, sharedCost, mutex_unlock, put, increment_cnt,
        cond_broadcast, List.length_append, List.length_singleton, List.length_nil,
        Nat.cast_add, Nat.cast_one, Nat.cast_zero]) <;>
      omega
  · next hpc =>
    cases h
    refine ⟨?_, ?_, ?_⟩ <;> dsimp only <;>
      (try simp only [hpc, rankP, sharedCost, mutex_unlock, put, increment_cnt,
        cond_broadcast, List.length_append, List.length_singleton, List.length_nil,
        Nat.cast_add, Nat.cast_one, Nat.cast_zero]) <;>
      omega
  · cases h

/-- A statement of a consumer lowers its rank plus the shared cost. -/
theorem consStep_decrease {cfg : Cfg} {j : Nat} {a : Act} {sh : Shared} {c : CLocal}
    {r : Shared × CLocal} (K : Int) (hK : 2 * (sh.emptyQ.length : Int) ≤ K)
    (h : consStep cfg j a sh c = some r) :
    sharedCost cfg r.1 + rankC K r.2.pc + 1 ≤ sharedCost cfg sh + rankC K c.pc ∧
    r.1.buf.produced = sh.buf.produced := by
  unfold consStep at h
  split at h
  all_goals rename_i hpc
  all_goals first
    | (cases h
       refine ⟨?_, ?_⟩ <;> dsimp only <;>
        (try simp only [hpc, rankC, sharedCost, mutex_unlock, waitFull, get, increment_cnt,
          decrement_cnt, cond_broadcast, List.length_append, List.length_singleton,
          List.length_nil, Nat.cast_add, Nat.cast_one, Nat.cast_zero]) <;>
        omega)
    | (split at h <;> cases h <;>
       refine ⟨?_, ?_⟩ <;> dsimp only <;>
        (try simp only [hpc, rankC, sharedCost, mutex_unlock, waitFull, get, increment_cnt,
          decrement_cnt, cond_broadcast, List.length_append, List.length_singleton,
          List.length_nil, Nat.cast_add, Nat.cast_one, Nat.cast_zero]) <;>
        omega)
    | (obtain ⟨sh1, hl, rfl⟩ := Option.map_eq_some'.mp h
       obtain ⟨hm, rfl⟩ := mutex_lock_some hl
       refine ⟨?_, ?_⟩ <;> dsimp only <;>
        (try simp only [hpc, rankC, sharedCost, mutex_unlock, waitFull, get, increment_cnt,
          decrement_cnt, cond_broadcast, List.length_append, List.length_singleton,
          List.length_nil, Nat.cast_add, Nat.cast_one, Nat.cast_zero]) <;>
        omega)
    | (obtain ⟨sh1, hl, rfl⟩ := Option.map_eq_some'.mp h
       unfold wakeFull at hl
       split at hl
       · cases hl
       · obtain ⟨hm, rfl⟩ := mutex_lock_some hl
         refine ⟨?_, ?_⟩ <;> dsimp only <;>
        (try simp only [hpc, rankC, sharedCost, mutex_unlock, waitFull, get, increment_cnt,
          decrement_cnt, cond_broadcast, List.length_append, List.length_singleton,
          List.length_nil, Nat.cast_add, Nat.cast_one, Nat.cast_zero]) <;>
        omega)
    | (split at h
       · obtain ⟨r1, hwd, rfl⟩ := Option.map_eq_some'.mp h
         obtain ⟨q, hq, rfl⟩ := Option.map_eq_some'.mp hwd
         have hlen := cond_signal_length hq
         refine ⟨?_, ?_⟩ <;> dsimp only <;>
        (try simp only [hpc, rankC, sharedCost, mutex_unlock, waitFull, get, increment_cnt,
          decrement_cnt, cond_broadcast, List.length_append, List.length_singleton,
          List.length_nil, Nat.cast_add, Nat.cast_one, Nat.cast_zero]) <;>
        omega
       · cases h
         refine ⟨?_, ?_⟩ <;> dsimp only <;>
        (try simp only [hpc, rankC, sharedCost, mutex_unlock, waitFull, get, increment_cnt,
          decrement_cnt, cond_broadcast, List.length_append, List.length_singleton,
          List.length_nil, Nat.cast_add, Nat.cast_one, Nat.cast_zero]) <;>
        omega)
    | cases h

theorem rankP_nonneg (K : Int) (hK : 0 ≤ K) (fin : Bool) (pc : PPc) : 0 ≤ rankP K fin pc := by
  cases pc <;> cases fin <;> simp [rankP] <;> omega

theorem rankC_nonneg (K : Int) (hK : 0 ≤ K) (pc : CPc) : 0 ≤ rankC K pc := by
  cases pc <;> simp [rankC] <;> omega

theorem rankP_mono (K : Int) (fin fin' : Bool) (h : fin = true → fin' = true) (pc : PPc) :
    rankP K fin' pc ≤ rankP K fin pc := by
  cases pc <;> cases fin <;> cases fin' <;> simp_all [rankP]

theorem sum_map_le {α : Type} (f g : α → Int) (h : ∀ x, f x ≤ g x) :
    ∀ l : List α, (l.map f).sum ≤ (l.map g).sum := by
  intro l
  induction l with
  | nil => simp
  | cons a l ih =>
    simp only [List.map_cons, List.sum_cons]
    have := h a
    omega

theorem sum_map_nonneg {α : Type} (f : α → Int) (h : ∀ x, 0 ≤ f x) :
    ∀ l : List α, 0 ≤ (l.map f).sum := by
  intro l
  induction l with
  | nil => simp
  | cons a l ih =>
    simp only [List.map_cons, List.sum_cons]
    have := h a
    omega

theorem wake_bounds {cfg : Cfg} {s : State} (hinv : Inv cfg s) :
    2 * (s.sh.emptyQ.length : Int) ≤ 2 * (cfg.producers : Int) ∧
      2 * (s.sh.fullQ.length : Int) ≤ 2 * (cfg.consumers : Int) := by
  have h1 := queue_length_le hinv.emptyNodup hinv.emptyLt
  have h2 := queue_length_le hinv.fullNodup hinv.fullLt
  rw [hinv.nprod] at h1
  rw [hinv.ncons] at h2
  omega

/-- Every step of the program lowers the variant. -/
theorem variant_step {cfg : Cfg} {s s' : State} {a : Act} (hinv : Inv cfg s)
    (h : step cfg s a = some s') : variant cfg s' + 1 ≤ variant cfg s := by
  obtain ⟨hwe, hwf⟩ := wake_bounds hinv
  unfold step at h
  split at h
  · next i _ =>
    split at h
    · cases h
    · next p hp =>
      obtain ⟨r, hr, rfl⟩ := Option.map_eq_some'.mp h
      obtain ⟨hdec, hcons, hprod⟩ :=
        prodStep_decrease (wakeCost cfg) (by unfold wakeCost; omega) hr
      have hset := sum_map_set
        (fun p => rankP (wakeCost cfg)
          (decide (cfg.NUMBER_OF_MATRICES ≤ r.1.buf.produced)) p.pc) s.prods i p r.2 hp
      have hmono := sum_map_le
        (fun p => rankP (wakeCost cfg)
          (decide (cfg.NUMBER_OF_MATRICES ≤ r.1.buf.produced)) p.pc)
        (fun p => rankP (wakeCost cfg)
          (decide (cfg.NUMBER_OF_MATRICES ≤ s.sh.buf.produced)) p.pc)
        (fun p => rankP_mono _ _ _ (by
          simp only [decide_eq_true_eq]
          intro hle
          omega) p.pc) s.prods
      simp only [variant, hset]
      omega
  · next j _ =>
    split at h
    · cases h
    · next c hc =>
      obtain ⟨r, hr, rfl⟩ := Option.map_eq_some'.mp h
      obtain ⟨hdec, hprod⟩ :=
        consStep_decrease (wakeCost cfg) (by unfold wakeCost; omega) hr
      have hset := sum_map_set (fun c => rankC (wakeCost cfg) c.pc) s.conss j c r.2 hc
      simp only [variant, hset, hprod]
      omega

theorem variant_run {cfg : Cfg} (acts : List Act) : ∀ {s s' : State}, Inv cfg s →
    run cfg acts s = some s' → variant cfg s' + acts.length ≤ variant cfg s := by
  induction acts with
  | nil => intro s s' _ h; cases h; simp
  | cons a rest ih =>
    intro s s' hinv h
    simp only [run] at h
    obtain ⟨s1, h1, h2⟩ := Option.bind_eq_some.mp h
    have := ih (inv_step hinv h1) h2
    have := variant_step hinv h1
    simp only [List.length_cons, Nat.cast_add, Nat.cast_one]
    omega

theorem variant_nonneg {cfg : Cfg} {s : State} (hinv : Inv cfg s) : 0 ≤ variant cfg s := by
  obtain ⟨hwe, hwf⟩ := wake_bounds hinv
  have hK : 0 ≤ wakeCost cfg := by unfold wakeCost; omega
  have h1 := sum_map_nonneg
    (fun p : PLocal => rankP (wakeCost cfg)
      (decide (cfg.NUMBER_OF_MATRICES ≤ s.sh.buf.produced)) p.pc)
    (fun p => rankP_nonneg _ hK _ _) s.prods
  have h2 := sum_map_nonneg (fun c : CLocal => rankC (wakeCost cfg) c.pc)
    (fun c => rankC_nonneg _ hK _) s.conss
  have h3 := hinv.prodLe
  have h4 := hinv.bal
  have h5 := hinv.ring.2.2.1
  simp only [variant, sharedCost]
  omega

theorem sum_map_replicate {α : Type} (f : α → Int) (n : Nat) (x : α) :
    ((List.replicate n x).map f).sum = n * f x := by
  induction n with
  | zero => simp
  | succ n ih =>
    simp only [List.replicate_succ, List.map_cons, List.sum_cons, ih, Nat.cast_add,
      Nat.cast_one]
    ring

theorem variant_init (cfg : Cfg) :
    variant cfg (State.init cfg) ≤ stepBound cfg := by
  have hr : rankP (wakeCost cfg) (decide (cfg.NUMBER_OF_MATRICES ≤ 0)) PPc.loopTest ≤
      11 + wakeCost cfg := by
    simp only [rankP]
    split <;> omega
  have hmul := mul_le_mul_of_nonneg_left hr (Int.ofNat_nonneg cfg.producers)
  simp only [variant, sharedCost, State.init, Buf.init, sum_map_replicate, PLocal.init,
    CLocal.init, rankC, List.length_nil, Nat.cast_zero, stepBound]
  simp only [Int.ofNat_eq_coe] at hmul
  unfold wakeCost at hmul ⊢
  nlinarith [hmul]

/-- No execution from the initial state has more than `stepBound` steps. -/
theorem run_length_le {cfg : Cfg} {acts : List Act} {s : State}
    (hB : 1 ≤ cfg.BOUNDED_BUFFER_SIZE) (hN : 0 ≤ cfg.NUMBER_OF_MATRICES)
    (h : run cfg acts (State.init cfg) = some s) : (acts.length : Int) ≤ stepBound cfg := by
  have h1 := variant_run acts (inv_init cfg hB hN) h
  have h2 := variant_nonneg (inv_run acts (inv_init cfg hB hN) h)
  have h3 := variant_init cfg
  omega

/-- C6. No deadlock, every execution terminates: when the target is positive
and there is at least one producer, one consumer and one slot, an execution
from the initial state has at most `stepBound` steps; the state it reaches is
not one in which some worker has not terminated while every worker that has
not terminated is blocked in `pthread_cond_wait` on `empty` or `full`; and if
some worker has not terminated in that state, some thread can execute its next
statement.  So every execution can be continued until all workers have
terminated, and it cannot be continued forever. -/
theorem no_deadlock (cfg : Cfg) (acts : List Act) (s : State)
    (hB : 1 ≤ cfg.BOUNDED_BUFFER_SIZE) (hN : 0 < cfg.NUMBER_OF_MATRICES)
    (hP : 1 ≤ cfg.producers) (hC : 1 ≤ cfg.consumers)
    (hr : run cfg acts (State.init cfg) = some s) :
    (acts.length : Int) ≤ stepBound cfg ∧
      ¬ (¬ AllDone s ∧ AllBlocked s) ∧
      (¬ AllDone s → ∃ a s', step cfg s a = some s') :=
  ⟨run_length_le hB (le_of_lt hN) hr,
    fun h => h.1 (allBlocked_allDone hB (le_of_lt hN) hP hC ⟨acts, hr⟩ h.2),
    exists_step hB (le_of_lt hN) hP hC ⟨acts, hr⟩⟩

theorem no_deadlock_witness :
    run scenarioCfg (List.replicate 10 (pAct 0)) (State.init scenarioCfg) =
        some scenarioProducerWaits ∧
      0 ∈ scenarioProducerWaits.sh.emptyQ ∧ ¬ AllDone scenarioProducerWaits ∧
      (step scenarioCfg scenarioProducerWaits (cAct 0)).isSome = true ∧
      stepBound scenarioCfg = 118 ∧
      (((List.replicate 10 (pAct 0)).length : Int) ≤ stepBound scenarioCfg ∧
        ¬ (¬ AllDone scenarioProducerWaits ∧ AllBlocked scenarioProducerWaits) ∧
        (¬ AllDone scenarioProducerWaits →
          ∃ a s', step scenarioCfg scenarioProducerWaits a = some s')) :=
  ⟨by rfl, by decide, by decide, by decide, by decide,
    no_deadlock scenarioCfg (List.replicate 10 (pAct 0)) scenarioProducerWaits (by decide)
      (by decide) (by decide) (by decide) (by rfl)⟩

/-! ## Ownership of the matrix handles -/

theorem freedIds_snoc (tr : List Event) (e : Event) :
    freedIds (tr ++ [e]) = freedIds tr + e.freed := by
  simp [freedIds]

theorem madeIds_snoc (tr : List Event) (e : Event) :
    madeIds (tr ++ [e]) = madeIds tr + e.made := by
  simp [madeIds]

theorem freedIds_free (m : MatPtr) (tr : List Event) :
    freedIds (FreeMatrix m tr) = freedIds tr + ptrIds m := by
  cases m <;> simp [FreeMatrix, freedIds_snoc, Event.freed, ptrIds]

theorem madeIds_free (m : MatPtr) (tr : List Event) :
    madeIds (FreeMatrix m tr) = madeIds tr := by
  cases m <;> simp [FreeMatrix, madeIds_snoc, Event.made]

theorem prodStep_own {cfg : Cfg} {i : Nat} {a : Act} {sh : Shared} {p : PLocal}
    {r : Shared × PLocal} (h : prodStep cfg i a sh p = some r) : ProdOwn cfg sh p r := by
  unfold prodStep at h
  split at h
  · next hpc =>
    split at h <;> cases h <;> exact .frame (by simp [PLocal.pending, hpc]) rfl rfl rfl rfl
  · next hpc =>
    cases h
    exact .gen (by simp [PLocal.pending, hpc])
      (by simp [PLocal.pending, ptrIds, GenMatrixRandom]) rfl
      (by simp [freedIds_snoc, Event.freed]) (by simp [madeIds_snoc, Event.made]) rfl
  · next hpc =>
    obtain ⟨sh1, hl, rfl⟩ := Option.map_eq_some'.mp h
    obtain ⟨hm, rfl⟩ := mutex_lock_some hl
    exact .frame (by simp [PLocal.pending, hpc]) rfl rfl rfl rfl
  · next hpc =>
    split at h <;> cases h <;> exact .frame (by simp [PLocal.pending, hpc]) rfl rfl rfl rfl
  · next hpc =>
    split at h
    · cases h
    · obtain ⟨sh1, hl, rfl⟩ := Option.map_eq_some'.mp h
      obtain ⟨hm, rfl⟩ := mutex_lock_some hl
      exact .frame (by simp [PLocal.pending, hpc]) rfl rfl rfl rfl
  · next hpc =>
    split at h
    · next hlt =>
      obtain ⟨q, hq, rfl⟩ := Option.map_eq_some'.mp h
      exact .put hpc hlt (by simp [PLocal.pending, hpc]) (by simp [PLocal.pending]) rfl
        (by simp [freedIds_snoc, Event.freed]) (by simp [madeIds_snoc, Event.made]) rfl
    · obtain ⟨q, hq, rfl⟩ := Option.map_eq_some'.mp h
      exact .drop (by simp [PLocal.pending]) rfl rfl rfl rfl
  · next hpc =>
    cases h
    exact .frame (by simp [PLocal.pending, hpc]) rfl rfl rfl rfl
  · next hpc =>
    obtain ⟨sh1, hl, rfl⟩ := Option.map_eq_some'.mp h
    obtain ⟨hm, rfl⟩ := mutex_lock_some hl
    exact .frame (by simp [PLocal.pending, hpc]) rfl rfl rfl rfl
  · next hpc =>
    cases h
    exact .frame (by simp [PLocal.pending, hpc]) rfl rfl rfl rfl
  · cases h

theorem MatrixMultiply_id {m1 m2 : MatPtr} {id : Nat} {sum : Int} {r : Matrix}
    (h : MatrixMultiply m1 m2 id sum = some r) : r.id = id := by
  unfold MatrixMultiply at h
  split at h
  · split at h
    · cases h; rfl
    · cases h
  · cases h

theorem consStep_own {cfg : Cfg} {j : Nat} {a : Act} {sh : Shared} {c : CLocal}
    {r : Shared × CLocal} (hok : ConsOK cfg sh j c)
    (h : consStep cfg j a sh c = some r) : ConsOwn cfg sh c r := by
  unfold consStep at h
  split at h
  -- line 91
  · split at h <;> cases h <;> exact .frame rfl rfl rfl rfl rfl
  -- line 92
  · obtain ⟨sh1, hl, rfl⟩ := Option.map_eq_some'.mp h
    obtain ⟨hm, rfl⟩ := mutex_lock_some hl
    exact .frame rfl rfl rfl rfl rfl
  -- lines 94-95
  · split at h <;> cases h <;> exact .frame rfl rfl rfl rfl rfl
  · obtain ⟨sh1, hl, rfl⟩ := Option.map_eq_some'.mp h
    unfold wakeFull at hl
    split at hl
    · cases hl
    · obtain ⟨hm, rfl⟩ := mutex_lock_some hl
      exact .frame rfl rfl rfl rfl rfl
  -- lines 97-102
  · next hpc =>
    split at h
    · next hlt =>
      obtain ⟨r1, hwd, rfl⟩ := Option.map_eq_some'.mp h
      obtain ⟨q, hq, rfl⟩ := Option.map_eq_some'.mp hwd
      have h1 := hok.null1 (by rw [hpc]; rfl)
      refine .get (by rw [hpc]; rfl) hlt ?_ rfl (by simp [freedIds_snoc, Event.freed])
        (by simp [madeIds_snoc, Event.made]) rfl
      simp only [CLocal.held, h1, ptrIds]
      abel
    · cases h; exact .frame rfl rfl rfl rfl rfl
  -- lines 103-109
  · split at h <;> cases h <;> exact .frame rfl rfl rfl rfl rfl
  -- lines 110-111
  · split at h <;> cases h <;> exact .frame rfl rfl rfl rfl rfl
  · obtain ⟨sh1, hl, rfl⟩ := Option.map_eq_some'.mp h
    unfold wakeFull at hl
    split at hl
    · cases hl
    · obtain ⟨hm, rfl⟩ := mutex_lock_some hl
      exact .frame rfl rfl rfl rfl rfl
  -- lines 114-122
  · next hpc =>
    split at h
    · next hlt =>
      obtain ⟨r1, hwd, rfl⟩ := Option.map_eq_some'.mp h
      obtain ⟨q, hq, rfl⟩ := Option.map_eq_some'.mp hwd
      have h1 := (hok.null23 (by rw [hpc]; rfl)).1
      refine .get (by rw [hpc]; rfl) hlt ?_ rfl (by simp [freedIds_snoc, Event.freed])
        (by simp [madeIds_snoc, Event.made]) rfl
      simp only [CLocal.held, h1, ptrIds]
      abel
    · cases h; exact .frame rfl rfl rfl rfl rfl
  -- lines 125 and 152
  · next hpc =>
    have h3 := hok.null3 (Or.inr hpc)
    split at h
    · next x hx =>
      cases h
      have hid := MatrixMultiply_id hx
      refine .mul ?_ rfl (by simp [freedIds_snoc, Event.freed])
        (by simp [madeIds_snoc, Event.made, hid]) rfl
      simp only [CLocal.held, h3, ptrIds, hid]
      abel
    · cases h
      refine .frame ?_ rfl (by simp [freedIds_snoc, Event.freed])
        (by simp [madeIds_snoc, Event.made]) rfl
      simp only [CLocal.held, h3]
  -- line 127
  · split at h <;> cases h <;> exact .frame rfl rfl rfl rfl rfl
  -- lines 129-130
  · cases h
    refine .free (ptrIds c.m2) ?_ rfl (freedIds_free _ _) (madeIds_free _ _) rfl
    simp only [CLocal.held, ptrIds]
    abel
  -- lines 132-133
  · split at h <;> cases h <;> exact .frame rfl rfl rfl rfl rfl
  · obtain ⟨sh1, hl, rfl⟩ := Option.map_eq_some'.mp h
    unfold wakeFull at hl
    split at hl
    · cases hl
    · obtain ⟨hm, rfl⟩ := mutex_lock_some hl
      exact .frame rfl rfl rfl rfl rfl
  -- lines 137-140
  · split at h <;> cases h <;> exact .frame rfl rfl rfl rfl rfl
  -- lines 142-150
  · next hpc =>
    split at h
    · next hlt =>
      obtain ⟨r1, hwd, rfl⟩ := Option.map_eq_some'.mp h
      obtain ⟨q, hq, rfl⟩ := Option.map_eq_some'.mp hwd
      have h1 := (hok.null23 (by rw [hpc]; rfl)).1
      refine .get (by rw [hpc]; rfl) hlt ?_ rfl (by simp [freedIds_snoc, Event.freed])
        (by simp [madeIds_snoc, Event.made]) rfl
      simp only [CLocal.held, h1, ptrIds]
      abel
    · cases h; exact .frame rfl rfl rfl rfl rfl
  -- lines 156-173
  · cases h
    refine .free (ptrIds c.m1 + ptrIds c.m2 + ptrIds c.m3) ?_ rfl ?_ ?_ rfl
    · simp only [CLocal.held, ptrIds]
      abel
    · simp only [freedIds_free]
      abel
    · simp only [madeIds_free]
  -- line 175
  · cases h; exact .frame rfl rfl rfl rfl rfl
  -- lines 178-181
  · cases h
    refine .free (ptrIds c.m1 + ptrIds c.m2 + ptrIds c.m3) ?_ rfl ?_ ?_ rfl
    · simp only [CLocal.held, ptrIds]
      abel
    · simp only [freedIds_free]
      abel
    · simp only [madeIds_free]
  -- line 182
  · cases h; exact .frame rfl rfl rfl rfl rfl
  -- line 183
  · obtain ⟨sh1, hl, rfl⟩ := Option.map_eq_some'.mp h
    obtain ⟨hm, rfl⟩ := mutex_lock_some hl
    exact .frame rfl rfl rfl rfl rfl
  -- lines 184-186
  · cases h; exact .frame rfl rfl rfl rfl rfl
  · cases h

theorem msum_map_set {α : Type} (f : α → Multiset Nat) : ∀ (l : List α) (i : Nat) (x y : α),
    l[i]? = some x → f x + ((l.set i y).map f).sum = f y + (l.map f).sum := by
  intro l
  induction l with
  | nil => intro i x y h; simp at h
  | cons a l ih =>
    intro i x y h
    cases i with
    | zero =>
      simp at h
      subst h
      simp only [List.set_cons_zero, List.map_cons, List.sum_cons]
      abel
    | succ n =>
      simp at h
      have h2 := ih n x y h
      simp only [List.set_cons_succ, List.map_cons, List.sum_cons]
      rw [add_left_comm, h2]
      abel

theorem liveIds_put (cap : Nat) (b : Buf) (v : MatPtr) (h : RingOK cap b)
    (hlt : b.count < cap) : liveIds cap (put cap b v).1 = liveIds cap b + ptrIds v := by
  simp [liveIds, live_put cap b v h hlt]

theorem liveIds_get (cap : Nat) (b : Buf) (h : RingOK cap b) (hpos : 0 < b.count) :
    liveIds cap b = ptrIds (get cap b).2 + liveIds cap (get cap b).1 := by
  unfold liveIds
  rw [live_get cap b h hpos]
  simp

theorem ownInv_init (cfg : Cfg) : OwnInv cfg (State.init cfg) := by
  have h0 : PLocal.init.pending = 0 := rfl
  have h1 : CLocal.init.held = 0 := rfl
  constructor
  · simp [owned, State.init, h0, h1, liveIds, live_init, freedIds]
  · simp [owned, State.init, h0, h1, liveIds, live_init, freedIds]
  · simp [State.init, h1, liveIds, live_init, freedIds, madeIds]

theorem ownInv_prodStep {cfg : Cfg} {s : State} {i : Nat} {a : Act} {p : PLocal}
    {r : Shared × PLocal} (hinv : Inv cfg s) (ho : OwnInv cfg s)
    (hp : s.prods[i]? = some p) (h : prodStep cfg i a s.sh p = some r) :
    OwnInv cfg { s with sh := r.1, prods := s.prods.set i r.2 } := by
  have hset := msum_map_set PLocal.pending s.prods i p r.2 hp
  obtain ⟨hnd, hfr, hac⟩ := ho
  simp only [owned] at hnd hfr
  cases prodStep_own h with
  | frame hp1 hl ht hm hn =>
    rw [hp1] at hset
    have hP := add_left_cancel hset
    constructor
    · simp only [owned, hP, hl, ht]; exact hnd
    · simp only [owned, hP, hl, ht, hn]; exact hfr
    · simp only [hl, ht, hm]; exact hac
  | gen hp0 hp1 hl ht hm hn =>
    rw [hp0, hp1, zero_add] at hset
    have hnew : s.sh.nextId ∉ (s.prods.map PLocal.pending).sum +
        liveIds cfg.BOUNDED_BUFFER_SIZE s.sh.buf + (s.conss.map CLocal.held).sum +
        freedIds s.sh.trace := fun hmem => Nat.lt_irrefl _ (hfr _ hmem)
    have heq : ((s.prods.set i r.2).map PLocal.pending).sum +
        liveIds cfg.BOUNDED_BUFFER_SIZE s.sh.buf + (s.conss.map CLocal.held).sum +
        freedIds s.sh.trace = s.sh.nextId ::ₘ ((s.prods.map PLocal.pending).sum +
        liveIds cfg.BOUNDED_BUFFER_SIZE s.sh.buf + (s.conss.map CLocal.held).sum +
        freedIds s.sh.trace) := by
      rw [hset, ← Multiset.singleton_add]
      abel
    constructor
    · simp only [owned, hl, ht, heq]
      exact Multiset.nodup_cons.mpr ⟨hnew, hnd⟩
    · simp only [owned, hl, ht, hn, heq]
      intro id hid
      rcases Multiset.mem_cons.mp hid with rfl | hid
      · omega
      · exact Nat.lt_succ_of_lt (hfr _ hid)
    · simp only [hl, ht, hm]; exact hac
  | put hpc hlt hp0 hp1 hl ht hm hn =>
    rw [hp0, hp1, zero_add] at hset
    have hroom := (hinv.prodOK i p hp).room hpc hlt
    have hlive := liveIds_put _ _ p.m hinv.ring hroom
    have heq : ((s.prods.set i r.2).map PLocal.pending).sum +
        (liveIds cfg.BOUNDED_BUFFER_SIZE s.sh.buf + ptrIds p.m) +
        (s.conss.map CLocal.held).sum + freedIds s.sh.trace =
        (s.prods.map PLocal.pending).sum +
        liveIds cfg.BOUNDED_BUFFER_SIZE s.sh.buf + (s.conss.map CLocal.held).sum +
        freedIds s.sh.trace := by
      rw [← hset]
      abel
    constructor
    · simp only [owned, hl, ht, hlive, heq]; exact hnd
    · simp only [owned, hl, ht, hn, hlive, heq]; exact hfr
    · simp only [hl, ht, hm, hlive, ← hac]
      abel
  | drop hp1 hl ht hm hn =>
    rw [hp1, zero_add] at hset
    have hle : ((s.prods.set i r.2).map PLocal.pending).sum +
        liveIds cfg.BOUNDED_BUFFER_SIZE s.sh.buf + (s.conss.map CLocal.held).sum +
        freedIds s.sh.trace ≤ (s.prods.map PLocal.pending).sum +
        liveIds cfg.BOUNDED_BUFFER_SIZE s.sh.buf + (s.conss.map CLocal.held).sum +
        freedIds s.sh.trace := by
      rw [← hset]
      have : p.pending + ((s.prods.set i r.2).map PLocal.pending).sum +
          liveIds cfg.BOUNDED_BUFFER_SIZE s.sh.buf + (s.conss.map CLocal.held).sum +
          freedIds s.sh.trace = (((s.prods.set i r.2).map PLocal.pending).sum +
          liveIds cfg.BOUNDED_BUFFER_SIZE s.sh.buf + (s.conss.map CLocal.held).sum +
          freedIds s.sh.trace) + p.pending := by abel
      rw [this]
      exact le_self_add
    constructor
    · simp only [owned, hl, ht]; exact Multiset.nodup_of_le hle hnd
    · simp only [owned, hl, ht, hn]
      intro id hid
      exact hfr _ (Multiset.mem_of_le hle hid)
    · simp only [hl, ht, hm]; exact hac

theorem ownInv_consStep {cfg : Cfg} {s : State} {j : Nat} {a : Act} {c : CLocal}
    {r : Shared × CLocal} (hinv : Inv cfg s) (ho : OwnInv cfg s)
    (hc : s.conss[j]? = some c) (h : consStep cfg j a s.sh c = some r) :
    OwnInv cfg { s with sh := r.1, conss := s.conss.set j r.2 } := by
  have hset := msum_map_set CLocal.held s.conss j c r.2 hc
  have hok := hinv.consOK j c hc
  obtain ⟨hnd, hfr, hac⟩ := ho
  simp only [owned] at hnd hfr
  cases consStep_own hok h with
  | frame hh hl ht hm hn =>
    rw [hh] at hset
    have hH := add_left_cancel hset
    constructor
    · simp only [owned, hH, hl, ht]; exact hnd
    · simp only [owned, hH, hl, ht, hn]; exact hfr
    · simp only [hH, hl, ht, hm]; exact hac
  | get hpc hlt hh hl ht hm hn =>
    rw [hh, add_assoc] at hset
    have hH := add_left_cancel hset
    have hlive := liveIds_get _ _ hinv.ring (hok.avail hpc hlt)
    constructor
    · simp only [owned, hH, hl, ht]
      rw [hlive] at hnd
      convert hnd using 1
      abel
    · simp only [owned, hH, hl, ht, hn]
      rw [hlive] at hfr
      intro id hid
      apply hfr
      convert hid using 1
      abel
    · simp only [hH, hl, ht, hm, ← hac, hlive]
      abel
  | mul hh hl ht hm hn =>
    rw [hh, add_assoc] at hset
    have hH := add_left_cancel hset
    have hnew : s.sh.nextId ∉ (s.prods.map PLocal.pending).sum +
        liveIds cfg.BOUNDED_BUFFER_SIZE s.sh.buf + (s.conss.map CLocal.held).sum +
        freedIds s.sh.trace := fun hmem => Nat.lt_irrefl _ (hfr _ hmem)
    have heq : (s.prods.map PLocal.pending).sum +
        liveIds cfg.BOUNDED_BUFFER_SIZE s.sh.buf + ({s.sh.nextId} + (s.conss.map CLocal.held).sum) +
        freedIds s.sh.trace = s.sh.nextId ::ₘ ((s.prods.map PLocal.pending).sum +
        liveIds cfg.BOUNDED_BUFFER_SIZE s.sh.buf + (s.conss.map CLocal.held).sum +
        freedIds s.sh.trace) := by
      rw [← Multiset.singleton_add]
      abel
    constructor
    · simp only [owned, hH, hl, ht, heq]
      exact Multiset.nodup_cons.mpr ⟨hnew, hnd⟩
    · simp only [owned, hH, hl, ht, hn, heq]
      intro id hid
      rcases Multiset.mem_cons.mp hid with rfl | hid
      · omega
      · exact Nat.lt_succ_of_lt (hfr _ hid)
    · simp only [hH, hl, ht, hm, ← hac]
      abel
  | free X hh hl ht hm hn =>
    rw [hh, add_assoc] at hset
    have hH := add_left_cancel hset
    constructor
    · simp only [owned, hl, ht]
      rw [← hH] at hnd
      convert hnd using 1
      abel
    · simp only [owned, hl, ht, hn]
      rw [← hH] at hfr
      intro id hid
      apply hfr
      convert hid using 1
      abel
    · simp only [hl, ht, hm, ← hac, ← hH]
      abel

theorem ownInv_step {cfg : Cfg} {s s' : State} {a : Act} (hinv : Inv cfg s)
    (ho : OwnInv cfg s) (h : step cfg s a = some s') : OwnInv cfg s' := by
  unfold step at h
  split at h
  · split at h
    · cases h
    · next p hp =>
      obtain ⟨r, hr, rfl⟩ := Option.map_eq_some'.mp h
      exact ownInv_prodStep hinv ho hp hr
  · split at h
    · cases h
    · next c hc =>
      obtain ⟨r, hr, rfl⟩ := Option.map_eq_some'.mp h
      exact ownInv_consStep hinv ho hc hr

theorem ownInv_run {cfg : Cfg} : ∀ (acts : List Act) {s s' : State}, Inv cfg s →
    OwnInv cfg s → run cfg acts s = some s' → OwnInv cfg s' := by
  intro acts
  induction acts with
  | nil =>
    intro s s' _ ho h
    simp only [run, Option.some.injEq] at h
    exact h ▸ ho
  | cons a rest ih =>
    intro s s' hinv ho h
    simp only [run] at h
    obtain ⟨s1, h1, h2⟩ := Option.bind_eq_some.mp h
    exact ih (inv_step hinv h1) (ownInv_step hinv ho h1) h2

theorem ownInv_reachable {cfg : Cfg} {s : State} (hB : 1 ≤ cfg.BOUNDED_BUFFER_SIZE)
    (hN : 0 ≤ cfg.NUMBER_OF_MATRICES) (h : Reachable cfg s) : OwnInv cfg s := by
  obtain ⟨acts, hacts⟩ := h
  exact ownInv_run acts (inv_init cfg hB hN) (ownInv_init cfg) hacts

theorem freedIds_count (tr : List Event) (id : Nat) :
    (freedIds tr).count id = tr.count (Event.free id) := by
  induction tr with
  | nil => simp [freedIds]
  | cons e tr ih =>
    have hcons : freedIds (e :: tr) = e.freed + freedIds tr := by simp [freedIds]
    rw [hcons, Multiset.count_add, ih, List.count_cons]
    cases e with
    | free k =>
      by_cases hk : k = id
      · subst hk
        simp [Event.freed]
        omega
      · have hk2 : id ≠ k := fun h => hk h.symm
        simp [Event.freed, hk, hk2]
    | gen k => simp [Event.freed]
    | mul x y z => simp [Event.freed]
    | put v => simp [Event.freed]
    | get v => simp [Event.freed]

theorem mem_madeIds (tr : List Event) (id : Nat) :
    id ∈ madeIds tr ↔ (∃ m : Matrix, Event.put (some m) ∈ tr ∧ m.id = id) ∨
      ∃ x y, Event.mul x y (some id) ∈ tr := by
  induction tr with
  | nil => simp [madeIds]
  | cons e tr ih =>
    have hcons : madeIds (e :: tr) = e.made + madeIds tr := by simp [madeIds]
    rw [hcons, Multiset.mem_add, ih]
    cases e with
    | free k => simp [Event.made]
    | gen k => simp [Event.made]
    | get v => simp [Event.made]
    | put v =>
      cases v with
      | none => simp [Event.made, ptrIds]
      | some m =>
        simp only [Event.made, ptrIds, Multiset.mem_singleton, List.mem_cons, Event.put.injEq,
          Option.some.injEq, reduceCtorEq, false_or]
        constructor
        · rintro (h | ⟨m2, h1, h2⟩ | h)
          · exact Or.inl ⟨m, Or.inl rfl, h.symm⟩
          · exact Or.inl ⟨m2, Or.inr h1, h2⟩
          · exact Or.inr h
        · rintro (⟨m2, h1 | h1, h2⟩ | h)
          · subst h1
            exact Or.inl h2.symm
          · exact Or.inr (Or.inl ⟨m2, h1, h2⟩)
          · exact Or.inr (Or.inr h)
    | mul x y z =>
      cases z with
      | none => simp [Event.made]
      | some k =>
        simp only [Event.made, Multiset.mem_singleton, List.mem_cons, Event.mul.injEq,
          Option.some.injEq, reduceCtorEq, false_or]
        constructor
        · rintro (h | h | ⟨x2, y2, h⟩)
          · exact Or.inr ⟨x, y, Or.inl ⟨rfl, rfl, h⟩⟩
          · exact Or.inl h
          · exact Or.inr ⟨x2, y2, Or.inr h⟩
        · rintro (h | ⟨x2, y2, h | h⟩)
          · exact Or.inr (Or.inl h)
          · exact Or.inl h.2.2
          · exact Or.inr (Or.inr ⟨x2, y2, h⟩)

theorem allDone_freed {cfg : Cfg} {s : State} (hinv : Inv cfg s) (ho : OwnInv cfg s)
    (hP : 1 ≤ cfg.producers) (hC : 1 ≤ cfg.consumers) (hd : AllDone s) :
    freedIds s.sh.trace = madeIds s.sh.trace := by
  have hcount := (allDone_counters hinv hP hC hd).2.2
  have hlive : liveIds cfg.BOUNDED_BUFFER_SIZE s.sh.buf = 0 := by
    simp [liveIds, live, hcount]
  have hheld : (s.conss.map CLocal.held).sum = 0 := by
    apply List.sum_eq_zero
    intro x hx
    obtain ⟨c, hc, rfl⟩ := List.mem_map.mp hx
    obtain ⟨j, hj⟩ := List.getElem?_of_mem hc
    have hok := hinv.consOK j c hj
    have hpc := hd.2 c hc
    have h1 := hok.null1 (by rw [hpc]; rfl)
    have h23 := hok.null23 (by rw [hpc]; rfl)
    simp [CLocal.held, h1, h23.1, h23.2, ptrIds]
  have hac := ho.acct
  rw [hlive, hheld, zero_add, zero_add] at hac
  exact hac

/-- The releases of the consumers are sound: in every reachable state no handle
has been passed to `FreeMatrix` twice, and once all workers have terminated
the handles released are exactly those published by a `put` or returned by
`MatrixMultiply`. -/
theorem released_iff_handed_over (cfg : Cfg) (s : State)
    (hB : 1 ≤ cfg.BOUNDED_BUFFER_SIZE) (hN : 0 ≤ cfg.NUMBER_OF_MATRICES)
    (hP : 1 ≤ cfg.producers) (hC : 1 ≤ cfg.consumers) (h : Reachable cfg s) :
    (∀ id, freeCount s id ≤ 1) ∧
      (AllDone s → ∀ id, freeCount s id = 1 ↔
        ((∃ m : Matrix, Event.put (some m) ∈ s.sh.trace ∧ m.id = id) ∨
          ∃ x y, Event.mul x y (some id) ∈ s.sh.trace)) := by
  have hinv := inv_reachable hB hN h
  have ho := ownInv_reachable hB hN h
  have hnd : (freedIds s.sh.trace).Nodup :=
    Multiset.nodup_of_le le_add_self ho.nodup
  have hle : ∀ id, freeCount s id ≤ 1 := by
    intro id
    unfold freeCount
    rw [← freedIds_count]
    exact Multiset.nodup_iff_count_le_one.mp hnd id
  refine ⟨hle, ?_⟩
  intro hd id
  rw [← mem_madeIds, ← allDone_freed hinv ho hP hC hd]
  unfold freeCount
  rw [← freedIds_count]
  constructor
  · intro h1
    exact Multiset.count_pos.mp (by omega)
  · intro hmem
    have h1 := Multiset.count_pos.mpr hmem
    have h2 := Multiset.nodup_iff_count_le_one.mp hnd id
    omega

theorem released_iff_handed_over_witness :
    (∀ id, freeCount raceFinal id ≤ 1) ∧
      (AllDone raceFinal → ∀ id, freeCount raceFinal id = 1 ↔
        ((∃ m : Matrix, Event.put (some m) ∈ raceFinal.sh.trace ∧ m.id = id) ∨
          ∃ x y, Event.mul x y (some id) ∈ raceFinal.sh.trace)) :=
  released_iff_handed_over raceCfg raceFinal (by decide) (by decide) (by decide) (by decide)
    ⟨raceSchedule, by rfl⟩

end PCMatrix
